import Mathlib

/-!
Verification of the FSE (finite state entropy / tANS) codec core of this
repository: bit I/O in both MSB-first and LSB-first orderings
(`include/scl/fse/bitio.hpp`), parameter normalization and table construction
(`src/fse.cpp`), the block encode/decode state machines (`src/fse.cpp`), and
the block-framing layer (`src/frame.cpp`).

Conventions of the embedding:
* C++ `uint32_t`/`uint16_t`/`uint8_t` values are modelled as `Nat`; explicit
  `% 2^32`, `% 2^16`, `% 2^8` mark the places where the source performs a
  narrowing cast or where wraparound is reachable for the inputs the theorems
  quantify over.  Where a quantity provably stays below its type's modulus on
  every path the theorems touch, plain `Nat` arithmetic is used.
* C++ exceptions (`throw std::invalid_argument` etc.) are modelled with
  `Except FSEError`; a C++ function that returns normally yields `.ok`.
* Byte buffers (`std::vector<uint8_t>`, `const uint8_t*`) are `List Nat`
  with every element `< 256`; out-of-range reads of a raw pointer (which the
  source performs in the LSB bit reader, documented there as requiring a
  padded buffer) are modelled as reading `0` via `List.getD`.
-/

namespace SclFse

/-- Error values standing for the C++ exceptions thrown by the codec. -/
inductive FSEError where
  | invalidParams : FSEError
  | outOfBits : FSEError
  | spreadFailed : FSEError
  deriving DecidableEq, Repr

/-! ### Bit I/O, MSB-first (`bitio.hpp`, `BitWriterMSB` / `BitReaderMSB`)

The writer keeps a byte buffer and a bit length; `append_bit` places each new
bit at position `7 - bit_len % 8` of byte `bit_len / 8`, pushing a fresh zero
byte when needed.  `append_bits(value, n)` emits the `n` low bits of `value`
most-significant first. -/

/-- State of `BitWriterMSB`: the byte buffer and `bit_len_`. -/
structure BitWriterMSB where
  buffer : List Nat
  bit_len : Nat
  deriving Repr, DecidableEq

/-- A fresh `BitWriterMSB`. -/
def msbInit : BitWriterMSB := ⟨[], 0⟩

/-- `BitWriterMSB::append_bit`: sets bit `7 - bit_len % 8` of byte
`bit_len / 8`, extending the buffer by a zero byte first when needed. -/
def msbAppendBit (st : BitWriterMSB) (bit : Nat) : BitWriterMSB :=
  let byteIdx := st.bit_len / 8
  let bitInByte := st.bit_len % 8
  let buf := if st.buffer.length ≤ byteIdx then st.buffer ++ [0] else st.buffer
  let buf :=
    if bit ≠ 0 then buf.set byteIdx (buf.getD byteIdx 0 ||| 2 ^ (7 - bitInByte))
    else buf
  ⟨buf, st.bit_len + 1⟩

/-- Helper for `append_bits`: emit bits `n-1, n-2, …, 0` of `value`. -/
def msbAppendBitsAux (st : BitWriterMSB) (value : Nat) : Nat → BitWriterMSB
  | 0 => st
  | n + 1 => msbAppendBitsAux (msbAppendBit st ((value >>> n) &&& 1)) value n

/-- `BitWriterMSB::append_bits(value, nbits)` (the `nbits = 0` early return
coincides with the empty loop). -/
def msbAppendBits (st : BitWriterMSB) (value nbits : Nat) : BitWriterMSB :=
  msbAppendBitsAux st value nbits

/-- Run a sequence of `append_bits` calls, first component the value and
second the width, as the block encoder does. -/
def msbAppendList (st : BitWriterMSB) : List (Nat × Nat) → BitWriterMSB
  | [] => st
  | (v, n) :: rest => msbAppendList (msbAppendBits st v n) rest

/-- An encoded block: byte buffer plus exact bit length (`EncodedBlock`). -/
structure EncodedBlock where
  bytes : List Nat
  bit_count : Nat
  deriving Repr, DecidableEq

/-- `BitWriterMSB::finish()`: the buffer together with `bit_len_`. -/
def msbFinish (st : BitWriterMSB) : EncodedBlock := ⟨st.buffer, st.bit_len⟩

/-- One bit of `BitReaderMSB`: bit `7 - i % 8` of byte `i / 8`. -/
def msbStreamBit (data : List Nat) (i : Nat) : Nat :=
  ((data.getD (i / 8) 0) >>> (7 - i % 8)) &&& 1

/-- Accumulation loop of `BitReaderMSB::read_bits`: `value = (value << 1) | bit`
for `count` consecutive bits starting at `pos`.  `value` is a `uint32_t`; the
claims only exercise `nbits ≤ 32`, where no truncation occurs, so the
accumulator is kept exact. -/
def msbReadAux (data : List Nat) (pos : Nat) : Nat → Nat → Nat
  | 0, value => value
  | count + 1, value =>
    msbReadAux data (pos + 1) count (value * 2 + msbStreamBit data pos)

/-- `BitReaderMSB::read_bits`: returns the value and the advanced position,
or `outOfBits` when the read would cross `total_bits` (`nbits = 0` returns
`0` before the bounds check, as in the source). -/
def msbReadBits (data : List Nat) (totalBits pos nbits : Nat) :
    Except FSEError (Nat × Nat) :=
  if nbits = 0 then .ok (0, pos)
  else if totalBits < pos + nbits then .error .outOfBits
  else .ok (msbReadAux data pos nbits 0, pos + nbits)

/-! ### Bit I/O, LSB-first writer (`bitio.hpp`, `BitWriterLSBGeneric<8>`,
duplicated verbatim as the local `BitWriterLSB` of `frame.cpp`)

The writer accumulates into a 64-bit register `bit_buffer_` and flushes whole
bytes.  Between calls `bit_count_ < 8` and `bit_buffer_ < 2 ^ bit_count_`
whenever every appended value fits its declared width, so the register is
kept as an exact `Nat`. -/

/-- State of the 8-bit-flush LSB writer. -/
structure BitWriterLSB8 where
  buffer : List Nat
  bit_buffer : Nat
  bit_count : Nat
  deriving Repr, DecidableEq

/-- A fresh LSB writer. -/
def lsbInit : BitWriterLSB8 := ⟨[], 0, 0⟩

/-- The flush loop of `append_bits`: while `bit_count ≥ 8` push the low byte
and shift. -/
def lsbFlush (buffer : List Nat) (bit_buffer bit_count : Nat) :
    List Nat × Nat × Nat :=
  if 8 ≤ bit_count then
    lsbFlush (buffer ++ [bit_buffer &&& 255]) (bit_buffer >>> 8) (bit_count - 8)
  else (buffer, bit_buffer, bit_count)
termination_by bit_count

/-- `BitWriterLSBGeneric<8>::append_bits(value, nbits)`. -/
def lsbAppendBits (st : BitWriterLSB8) (value nbits : Nat) : BitWriterLSB8 :=
  if nbits = 0 then st
  else
    let bb := st.bit_buffer ||| (value <<< st.bit_count)
    let cnt := st.bit_count + nbits
    let r := lsbFlush st.buffer bb cnt
    ⟨r.1, r.2.1, r.2.2⟩

/-- Run a sequence of `append_bits` calls on the LSB writer. -/
def lsbAppendList (st : BitWriterLSB8) : List (Nat × Nat) → BitWriterLSB8
  | [] => st
  | (v, n) :: rest => lsbAppendList (lsbAppendBits st v n) rest

/-- The padding loop of `finish_into`: while bits remain push the low byte
(`bit_count` decrements by 8, clamping at 0). -/
def lsbDrain (buffer : List Nat) (bit_buffer bit_count : Nat) : List Nat :=
  if 0 < bit_count then
    lsbDrain (buffer ++ [bit_buffer &&& 255]) (bit_buffer >>> 8)
      (if 8 ≤ bit_count then bit_count - 8 else 0)
  else buffer
termination_by bit_count
decreasing_by split <;> omega

/-- `BitWriterLSBGeneric<8>::finish()`: the total bit count is taken before
padding, then the remaining register bits are drained into whole bytes. -/
def lsbFinish (st : BitWriterLSB8) : EncodedBlock :=
  ⟨lsbDrain st.buffer st.bit_buffer st.bit_count,
    st.buffer.length * 8 + st.bit_count⟩

/-! ### Bit I/O, LSB-first readers

Two distinct LSB readers exist in the source.  `BitReaderLSB` of `bitio.hpp`
loads 8 bytes unconditionally (`load64_le`) — an out-of-bounds read for
buffers near their end, documented in the source as requiring padding; the
model reads `0` beyond the buffer.  The local `BitReaderLSB` of `frame.cpp`
bounds each byte load by `(total_bits + 7) / 8`. -/

/-- Little-endian window of `k` bytes starting at `start`; bytes past the end
of the buffer read as `0`.  Models `load64_le` (with `k = 8`). -/
def leWindow (data : List Nat) (start : Nat) : Nat → Nat
  | 0 => 0
  | k + 1 => data.getD start 0 + 256 * leWindow data (start + 1) k

/-- Little-endian window whose byte loads are bounded by `totalBytes`
(the `(byte_idx + i) < (total_bits + 7) / 8` guard of `frame.cpp`; the loop
break agrees with a per-byte filter because the index increases). -/
def frameLoad (data : List Nat) (totalBytes start : Nat) : Nat → Nat
  | 0 => 0
  | k + 1 =>
    (if start < totalBytes then data.getD start 0 else 0) +
      256 * frameLoad data totalBytes (start + 1) k

/-- Entry `n` of `kMaskTable` (defined for `n ≤ 32`; larger indices are an
out-of-bounds table read in the source and unreachable in the claims). -/
def kMaskTableVal (n : Nat) : Nat := 2 ^ n - 1

/-- `BitReaderLSB::read_bits` of `bitio.hpp`: an unbounded 8-byte load,
shift by `pos % 8`, truncation to `uint32_t`, then mask.  There is no bounds
check of any kind; the reader never fails. -/
def readBitsLSB (data : List Nat) (pos nbits : Nat) : Nat × Nat :=
  if nbits = 0 then (0, pos)
  else
    let word := leWindow data (pos / 8) 8
    let val := word >>> (pos % 8)
    ((val % 2 ^ 32) &&& kMaskTableVal nbits, pos + nbits)

/-- `BitReaderLSB::read_bits` of `frame.cpp`: bounded 8-byte load, shift,
truncation to `uint32_t`, mask (`mask = 0xFFFFFFFF` when `nbits = 32`). -/
def frameReadBitsLSB (data : List Nat) (totalBits pos nbits : Nat) : Nat × Nat :=
  if nbits = 0 then (0, pos)
  else
    let chunk := frameLoad data ((totalBits + 7) / 8) (pos / 8) 8
    let shifted := chunk >>> (pos % 8)
    let mask := if nbits = 32 then 4294967295 else 2 ^ nbits - 1
    ((shifted % 2 ^ 32) &&& mask, pos + nbits)

/-! ### Abstract stream values

An MSB-first stream of appended `(value, width)` pairs is the big-endian
number `msbStreamVal`; an LSB-first stream is the little-endian number
`lsbStreamVal`.  `streamBits` is the total width. -/

/-- Total number of bits of a sequence of `append_bits` calls. -/
def streamBits (appends : List (Nat × Nat)) : Nat := (appends.map (·.2)).sum

/-- Big-endian (MSB-first) stream value: earlier appends occupy higher bits. -/
def msbStreamVal : List (Nat × Nat) → Nat
  | [] => 0
  | (v, n) :: rest => v % 2 ^ n * 2 ^ streamBits rest + msbStreamVal rest

/-- Little-endian (LSB-first) stream value: earlier appends occupy lower
bits. -/
def lsbStreamVal : List (Nat × Nat) → Nat
  | [] => 0
  | (v, n) :: rest => v % 2 ^ n + 2 ^ n * lsbStreamVal rest

/-- Big-endian value of a byte buffer (byte 0 most significant). -/
def msbVal (buf : List Nat) : Nat := buf.foldl (fun acc b => acc * 256 + b) 0

/-- Little-endian value of a byte buffer (byte 0 least significant). -/
def lsbVal (buf : List Nat) : Nat := buf.foldr (fun b acc => b + 256 * acc) 0

/-- Replay a list of widths through `BitReaderMSB`, collecting the values;
the first failing read aborts the replay, as an uncaught C++ exception would. -/
def msbReadList (data : List Nat) (totalBits : Nat) :
    Nat → List Nat → Except FSEError (List Nat × Nat)
  | pos, [] => .ok ([], pos)
  | pos, n :: rest =>
    match msbReadBits data totalBits pos n with
    | .error e => .error e
    | .ok r =>
      match msbReadList data totalBits r.2 rest with
      | .error e => .error e
      | .ok rr => .ok (r.1 :: rr.1, rr.2)

/-- Replay a list of widths through `BitReaderLSB` (`bitio.hpp`). -/
def lsbReadList (data : List Nat) : Nat → List Nat → List Nat × Nat
  | pos, [] => ([], pos)
  | pos, n :: rest =>
    let r := readBitsLSB data pos n
    let rr := lsbReadList data r.2 rest
    (r.1 :: rr.1, rr.2)

/-! ### Arithmetic helpers for bit-slice reasoning -/

theorem two_pow_or_eq_add {a b k : Nat} (h : a < 2 ^ k) :
    a ||| b <<< k = a + b * 2 ^ k := by
  apply Nat.eq_of_testBit_eq
  intro i
  rcases Nat.lt_or_ge i k with hik | hik
  · have h2 : (a + b * 2 ^ k).testBit i = a.testBit i := by
      have hq : (a + b * 2 ^ k) / 2 ^ i = a / 2 ^ i + b * 2 ^ (k - i) := by
        have hbk : b * 2 ^ k = b * 2 ^ (k - i) * 2 ^ i := by
          rw [Nat.mul_assoc, ← Nat.pow_add]
          congr 2
          omega
        rw [hbk, Nat.add_mul_div_right _ _ (Nat.two_pow_pos i)]
      have hm : (a / 2 ^ i + b * 2 ^ (k - i)) % 2 = a / 2 ^ i % 2 := by
        have hki : b * 2 ^ (k - i) = b * 2 ^ (k - i - 1) * 2 := by
          rw [Nat.mul_assoc]
          congr 1
          rw [← Nat.pow_succ]
          congr 1
          omega
        rw [hki, Nat.add_mul_mod_self_right]
      simp only [Nat.testBit_to_div_mod, hq, hm]
    rw [h2]
    simp only [Nat.testBit_or, Nat.testBit_shiftLeft]
    have : ¬ k ≤ i := by omega
    simp [this]
  · have ha : a.testBit i = false := by
      apply Nat.testBit_lt_two_pow
      exact lt_of_lt_of_le h (Nat.pow_le_pow_right (by norm_num) hik)
    have h2 : (a + b * 2 ^ k).testBit i = b.testBit (i - k) := by
      have hsplit : (a + b * 2 ^ k) / 2 ^ i = b / 2 ^ (i - k) := by
        have hi : (2 ^ i : Nat) = 2 ^ k * 2 ^ (i - k) := by
          rw [← Nat.pow_add]
          congr 1
          omega
        rw [hi, ← Nat.div_div_eq_div_mul,
          Nat.add_mul_div_right _ _ (Nat.two_pow_pos k),
          Nat.div_eq_of_lt h, Nat.zero_add]
      simp only [Nat.testBit_to_div_mod, hsplit]
    rw [h2]
    simp only [Nat.testBit_or, Nat.testBit_shiftLeft, ha, hik]
    simp [hik]

theorem mod_pow_div_pow {x a b : Nat} (h : b ≤ a) :
    x % 2 ^ a / 2 ^ b = x / 2 ^ b % 2 ^ (a - b) := by
  have ha : (2 ^ a : Nat) = 2 ^ b * 2 ^ (a - b) := by
    rw [← Nat.pow_add]
    congr 1
    omega
  rw [ha, Nat.mod_mul, Nat.add_mul_div_left _ _ (Nat.two_pow_pos b),
    Nat.div_eq_of_lt (Nat.mod_lt _ (Nat.two_pow_pos b)), Nat.zero_add]

theorem mod_pow_split {x a b : Nat} :
    x % 2 ^ (a + b) = x % 2 ^ b + 2 ^ b * (x / 2 ^ b % 2 ^ a) := by
  rw [Nat.pow_add, Nat.mul_comm (2 ^ a) (2 ^ b), Nat.mod_mul]

theorem mul_pow_add_div_pow {a b j k : Nat} (h : j ≤ k) :
    (a * 2 ^ k + b) / 2 ^ j = a * 2 ^ (k - j) + b / 2 ^ j := by
  have hk : a * 2 ^ k = a * 2 ^ (k - j) * 2 ^ j := by
    rw [Nat.mul_assoc, ← Nat.pow_add]
    congr 2
    omega
  rw [hk, Nat.add_comm, Nat.add_mul_div_right _ _ (Nat.two_pow_pos j),
    Nat.add_comm]

theorem mul_pow_add_mod_pow (a b n : Nat) :
    (a * 2 ^ n + b) % 2 ^ n = b % 2 ^ n := by
  rw [Nat.add_comm, Nat.add_mul_mod_self_right]

theorem div_lt_two_pow_of_lt {x a b : Nat} (h : x < 2 ^ a) (hb : b ≤ a) :
    x / 2 ^ b < 2 ^ (a - b) := by
  apply Nat.div_lt_of_lt_mul
  calc x < 2 ^ a := h
  _ = 2 ^ b * 2 ^ (a - b) := by rw [← Nat.pow_add]; congr 1; omega

theorem mul_pow_div_pow_ge {a k m : Nat} (h : k ≤ m) :
    a * 2 ^ k / 2 ^ m = a / 2 ^ (m - k) := by
  have hm : (2 ^ m : Nat) = 2 ^ k * 2 ^ (m - k) := by
    rw [← Nat.pow_add]
    congr 1
    omega
  rw [hm, ← Nat.div_div_eq_div_mul, Nat.mul_div_cancel _ (Nat.two_pow_pos k)]

/-! ### Byte-buffer well-formedness and value lemmas -/

/-- Every entry of the buffer is a byte. -/
def ByteListWF (l : List Nat) : Prop := ∀ b ∈ l, b < 256

theorem lsbVal_nil : lsbVal [] = 0 := rfl

theorem lsbVal_cons (x : Nat) (l : List Nat) :
    lsbVal (x :: l) = x + 256 * lsbVal l := rfl

theorem lsbVal_append (l1 l2 : List Nat) :
    lsbVal (l1 ++ l2) = lsbVal l1 + 2 ^ (8 * l1.length) * lsbVal l2 := by
  induction l1 with
  | nil => simp [lsbVal_nil]
  | cons x rest ih =>
    simp only [List.cons_append, lsbVal_cons, ih, List.length_cons]
    have h8 : (2 : Nat) ^ (8 * (rest.length + 1)) = 2 ^ (8 * rest.length) * 256 := by
      have he : 8 * (rest.length + 1) = 8 * rest.length + 8 := by ring
      rw [he, Nat.pow_add]
    rw [h8]
    ring

theorem lsbVal_lt (l : List Nat) (h : ByteListWF l) :
    lsbVal l < 2 ^ (8 * l.length) := by
  induction l with
  | nil => simp [lsbVal_nil]
  | cons x rest ih =>
    have hx : x < 256 := h x (by simp)
    have hr : lsbVal rest < 2 ^ (8 * rest.length) :=
      ih (fun b hb => h b (by simp [hb]))
    simp only [lsbVal_cons, List.length_cons]
    have : 8 * (rest.length + 1) = 8 * rest.length + 8 := by ring
    rw [this, Nat.pow_add]
    have : (2 : Nat) ^ 8 = 256 := by norm_num
    nlinarith

theorem lsbVal_getD (l : List Nat) (h : ByteListWF l) (j : Nat) :
    lsbVal l / 2 ^ (8 * j) % 256 = l.getD j 0 := by
  induction l generalizing j with
  | nil => simp [lsbVal_nil]
  | cons x rest ih =>
    have hx : x < 256 := h x (by simp)
    have hwf : ByteListWF rest := fun b hb => h b (by simp [hb])
    cases j with
    | zero =>
      simp only [Nat.mul_zero, Nat.pow_zero, Nat.div_one, lsbVal_cons]
      rw [Nat.add_mul_mod_self_left, Nat.mod_eq_of_lt hx]
      rfl
    | succ j =>
      have h8 : 8 * (j + 1) = 8 + 8 * j := by ring
      rw [lsbVal_cons, h8, Nat.pow_add, ← Nat.div_div_eq_div_mul]
      have h256 : (x + 256 * lsbVal rest) / 2 ^ 8 = lsbVal rest := by
        have he : (2 : Nat) ^ 8 = 256 := by norm_num
        rw [he, Nat.add_mul_div_left _ _ (by norm_num : (0:Nat) < 256),
          Nat.div_eq_of_lt hx, Nat.zero_add]
      rw [h256, ih hwf j, List.getD_cons_succ]

theorem lsbVal_take (l : List Nat) (h : ByteListWF l) (n : Nat) :
    lsbVal (l.take n) = lsbVal l % 2 ^ (8 * n) := by
  rcases Nat.lt_or_ge n l.length with hn | hn
  · have hlen : (l.take n).length = n := by
      rw [List.length_take]
      omega
    have hwf : ByteListWF (l.take n) := fun b hb => h b (List.mem_of_mem_take hb)
    have hv : lsbVal l = lsbVal (l.take n) + 2 ^ (8 * n) * lsbVal (l.drop n) := by
      conv_lhs => rw [← List.take_append_drop n l]
      rw [lsbVal_append, hlen]
    rw [hv, Nat.add_comm, Nat.mul_comm, mul_pow_add_mod_pow]
    have hb := lsbVal_lt _ hwf
    rw [hlen] at hb
    exact (Nat.mod_eq_of_lt hb).symm
  · rw [List.take_of_length_le hn,
      Nat.mod_eq_of_lt ((lsbVal_lt l h).trans_le (Nat.pow_le_pow_right (by norm_num) (by omega)))]

theorem leWindow_eq (l : List Nat) (h : ByteListWF l) (j : Nat) :
    ∀ k, leWindow l j k = lsbVal l / 2 ^ (8 * j) % 2 ^ (8 * k) := by
  intro k
  induction k generalizing j with
  | zero => simp [leWindow, Nat.mod_one]
  | succ k ih =>
    rw [leWindow, ih (j + 1)]
    have h8 : 8 * (k + 1) = 8 * k + 8 := by ring
    rw [h8, mod_pow_split]
    have h1 : lsbVal l / 2 ^ (8 * j) % 2 ^ 8 = l.getD j 0 := by
      have he : (2 : Nat) ^ 8 = 256 := by norm_num
      rw [he, lsbVal_getD l h j]
    have h2 : lsbVal l / 2 ^ (8 * j) / 2 ^ 8 = lsbVal l / 2 ^ (8 * (j + 1)) := by
      rw [Nat.div_div_eq_div_mul, ← Nat.pow_add]
      have he : 8 * j + 8 = 8 * (j + 1) := by ring
      rw [he]
    rw [h1, h2]
    norm_num

theorem frameLoad_eq_leWindow (l : List Nat) (tb j : Nat) :
    ∀ k, frameLoad l tb j k = leWindow (l.take tb) j k := by
  intro k
  induction k generalizing j with
  | zero => rfl
  | succ k ih =>
    rw [frameLoad, leWindow, ih (j + 1)]
    congr 1
    rcases Nat.lt_or_ge j tb with hj | hj
    · simp [hj, List.getD_eq_getElem?_getD, List.getElem?_take]
    · have hnj : ¬ j < tb := by omega
      simp [hnj, List.getD_eq_getElem?_getD, List.getElem?_take]

/-- Value of a single `BitReaderLSB` (`bitio.hpp`) read: the `n` bits of the
little-endian buffer value starting at `pos`, for any `n ≤ 32` — without any
bounds condition, since the reader performs no check. -/
theorem readBitsLSB_eq (data : List Nat) (h : ByteListWF data) (pos n : Nat)
    (hn : n ≤ 32) :
    readBitsLSB data pos n = (lsbVal data / 2 ^ pos % 2 ^ n, pos + n) := by
  rcases Nat.eq_zero_or_pos n with hz | hpos
  · subst hz
    simp [readBitsLSB, Nat.mod_one]
  · have hn0 : n ≠ 0 := by omega
    simp only [readBitsLSB, hn0, if_false]
    rw [leWindow_eq data h (pos / 8) 8]
    have hdecomp : pos = 8 * (pos / 8) + pos % 8 := by omega
    have hr : pos % 8 < 8 := Nat.mod_lt _ (by norm_num)
    simp only [Nat.shiftRight_eq_div_pow]
    rw [mod_pow_div_pow (by omega : pos % 8 ≤ 8 * 8)]
    have hdd : lsbVal data / 2 ^ (8 * (pos / 8)) / 2 ^ (pos % 8) =
        lsbVal data / 2 ^ pos := by
      rw [Nat.div_div_eq_div_mul, ← Nat.pow_add]
      congr 2
      omega
    rw [hdd]
    have hmask : kMaskTableVal n = 2 ^ n - 1 := rfl
    rw [hmask, Nat.and_pow_two_sub_one_eq_mod]
    congr 1
    have h32 : lsbVal data / 2 ^ pos % 2 ^ (8 * 8 - pos % 8) % 2 ^ 32 =
        lsbVal data / 2 ^ pos % 2 ^ 32 := by
      rw [Nat.mod_mod_of_dvd]
      exact pow_dvd_pow 2 (by omega)
    rw [h32, Nat.mod_mod_of_dvd]
    exact pow_dvd_pow 2 hn

/-- Value of a single `frame.cpp` `BitReaderLSB` read, inside bounds. -/
theorem frameReadBitsLSB_eq (data : List Nat) (h : ByteListWF data)
    (totalBits pos n : Nat) (hn : n ≤ 32) (hb : pos + n ≤ totalBits) :
    frameReadBitsLSB data totalBits pos n =
      (lsbVal data / 2 ^ pos % 2 ^ n, pos + n) := by
  rcases Nat.eq_zero_or_pos n with hz | hpos
  · subst hz
    simp [frameReadBitsLSB, Nat.mod_one]
  · have hn0 : n ≠ 0 := by omega
    simp only [frameReadBitsLSB, hn0, if_false]
    rw [frameLoad_eq_leWindow, leWindow_eq _ (fun b hb => h b (List.mem_of_mem_take hb)),
      lsbVal_take data h]
    have hr : pos % 8 < 8 := Nat.mod_lt _ (by norm_num)
    set tb := (totalBits + 7) / 8 with htb
    have htbb : totalBits ≤ 8 * tb := by omega
    have hq : 8 * (pos / 8) ≤ pos := by omega
    simp only [Nat.shiftRight_eq_div_pow]
    rw [mod_pow_div_pow (by omega : pos % 8 ≤ 8 * 8)]
    have hdd : lsbVal data % 2 ^ (8 * tb) / 2 ^ (8 * (pos / 8)) / 2 ^ (pos % 8) =
        lsbVal data % 2 ^ (8 * tb) / 2 ^ pos := by
      rw [Nat.div_div_eq_div_mul, ← Nat.pow_add]
      congr 2
      omega
    rw [hdd]
    have hpostb : pos ≤ 8 * tb := by omega
    rw [mod_pow_div_pow hpostb]
    have hmask : (if n = 32 then (4294967295 : Nat) else 2 ^ n - 1) = 2 ^ n - 1 := by
      rcases eq_or_ne n 32 with h32 | h32
      · subst h32
        norm_num
      · simp [h32]
    rw [hmask, Nat.and_pow_two_sub_one_eq_mod,
      Nat.mod_mod_of_dvd _ (pow_dvd_pow 2 hn),
      Nat.mod_mod_of_dvd _ (pow_dvd_pow 2 (by omega : n ≤ 8 * 8 - pos % 8)),
      Nat.mod_mod_of_dvd _ (pow_dvd_pow 2 (by omega : n ≤ 8 * tb - pos))]

/-! ### LSB writer correctness -/

/-- Well-formedness of an LSB writer state holding the abstract stream value
`v` of total bit length `total`. -/
def LsbWF (st : BitWriterLSB8) (v total : Nat) : Prop :=
  ByteListWF st.buffer ∧ st.bit_count < 8 ∧
    st.bit_buffer < 2 ^ st.bit_count ∧
    total = 8 * st.buffer.length + st.bit_count ∧
    v = lsbVal st.buffer + st.bit_buffer * 2 ^ (8 * st.buffer.length)

theorem lsbInit_wf : LsbWF lsbInit 0 0 := by
  refine ⟨fun b hb => absurd hb (List.not_mem_nil b), by decide, by decide, rfl, rfl⟩

theorem lsbFlush_spec : ∀ (bit_count : Nat) (buffer : List Nat) (bit_buffer : Nat),
    ByteListWF buffer →
    ∀ buf2 bb2 cnt2, lsbFlush buffer bit_buffer bit_count = (buf2, bb2, cnt2) →
    ByteListWF buf2 ∧ cnt2 < 8 ∧ cnt2 ≤ bit_count ∧
    bb2 = bit_buffer / 2 ^ (bit_count - cnt2) ∧
    8 * buf2.length + cnt2 = 8 * buffer.length + bit_count ∧
    lsbVal buf2 + bb2 % 2 ^ cnt2 * 2 ^ (8 * buf2.length) =
      lsbVal buffer + bit_buffer % 2 ^ bit_count * 2 ^ (8 * buffer.length) := by
  intro bit_count
  induction bit_count using Nat.strong_induction_on with
  | _ bit_count ih =>
  intro buffer bit_buffer hwf buf2 bb2 cnt2 heq
  rw [lsbFlush] at heq
  rcases Nat.lt_or_ge bit_count 8 with hlt | hge
  · have hnot : ¬ 8 ≤ bit_count := by omega
    rw [if_neg hnot] at heq
    injection heq with h1 h23
    injection h23 with h2 h3
    subst h1
    subst h2
    subst h3
    exact ⟨hwf, hlt, Nat.le_refl _, by simp, rfl, rfl⟩
  · rw [if_pos hge] at heq
    have hwf2 : ByteListWF (buffer ++ [bit_buffer &&& 255]) := by
      intro b hb
      rcases List.mem_append.mp hb with hb | hb
      · exact hwf b hb
      · have hbv : b = bit_buffer &&& 255 := List.mem_singleton.mp hb
        subst hbv
        have h255 : (255 : Nat) = 2 ^ 8 - 1 := by norm_num
        rw [h255, Nat.and_pow_two_sub_one_eq_mod]
        exact Nat.mod_lt _ (by norm_num)
    obtain ⟨w1, w2, w3, w4, w5, w6⟩ :=
      ih (bit_count - 8) (by omega) (buffer ++ [bit_buffer &&& 255])
        (bit_buffer >>> 8) hwf2 buf2 bb2 cnt2 heq
    have hsh : bit_buffer >>> 8 = bit_buffer / 2 ^ 8 := Nat.shiftRight_eq_div_pow _ _
    refine ⟨w1, w2, by omega, ?_, ?_, ?_⟩
    · rw [w4, hsh, Nat.div_div_eq_div_mul, ← Nat.pow_add]
      congr 2
      omega
    · simp only [List.length_append, List.length_singleton] at w5
      omega
    · rw [w6]
      have h255 : (255 : Nat) = 2 ^ 8 - 1 := by norm_num
      rw [lsbVal_append]
      simp only [List.length_singleton, lsbVal_cons, lsbVal_nil, List.length_append]
      rw [h255, Nat.and_pow_two_sub_one_eq_mod, hsh]
      have hsplit : bit_buffer % 2 ^ bit_count =
          bit_buffer % 2 ^ 8 + 2 ^ 8 * (bit_buffer / 2 ^ 8 % 2 ^ (bit_count - 8)) := by
        have hc : bit_count = (bit_count - 8) + 8 := by omega
        conv_lhs => rw [hc]
        exact mod_pow_split
      rw [hsplit]
      have hlen : 8 * (buffer.length + 1) = 8 * buffer.length + 8 := by ring
      rw [hlen, Nat.pow_add]
      have h2p8 : (2 : Nat) ^ 8 = 256 := rfl
      rw [h2p8]
      ring

theorem lsbAppendBits_wf (st : BitWriterLSB8) (v total value nbits : Nat)
    (hwf : LsbWF st v total) (hval : value < 2 ^ nbits) :
    LsbWF (lsbAppendBits st value nbits) (v + value * 2 ^ total) (total + nbits) := by
  obtain ⟨buf, bb, cnt⟩ := st
  obtain ⟨hb, hc, hbb, ht, hv⟩ := hwf
  simp only at hb hc hbb ht hv
  rcases Nat.eq_zero_or_pos nbits with hz | hpos
  · subst hz
    have hv0 : value = 0 := by omega
    subst hv0
    simpa [lsbAppendBits, LsbWF] using ⟨hb, hc, hbb, ht, hv⟩
  · have hn0 : nbits ≠ 0 := by omega
    have hor : bb ||| (value <<< cnt) = bb + value * 2 ^ cnt := two_pow_or_eq_add hbb
    have hlt : bb ||| (value <<< cnt) < 2 ^ (cnt + nbits) := by
      rw [hor]
      calc bb + value * 2 ^ cnt < 2 ^ cnt + value * 2 ^ cnt := by omega
        _ = (value + 1) * 2 ^ cnt := by ring
        _ ≤ 2 ^ nbits * 2 ^ cnt := by
            apply Nat.mul_le_mul_right
            omega
        _ = 2 ^ (cnt + nbits) := by rw [← Nat.pow_add, Nat.add_comm]
    rcases hout : lsbFlush buf (bb ||| (value <<< cnt)) (cnt + nbits) with ⟨buf2, bb2, cnt2⟩
    obtain ⟨w1, w2, w3, w4, w5, w6⟩ := lsbFlush_spec (cnt + nbits) buf
      (bb ||| (value <<< cnt)) hb buf2 bb2 cnt2 hout
    have hstate : lsbAppendBits ⟨buf, bb, cnt⟩ value nbits = ⟨buf2, bb2, cnt2⟩ := by
      simp only [lsbAppendBits, hn0, if_false, hout]
    rw [hstate]
    have hbb2 : bb2 < 2 ^ cnt2 := by
      rw [w4]
      have hres := div_lt_two_pow_of_lt (b := cnt + nbits - cnt2) hlt (by omega)
      have he : cnt + nbits - (cnt + nbits - cnt2) = cnt2 := by omega
      rw [he] at hres
      exact hres
    have htotal : total + nbits = 8 * buf2.length + cnt2 := by omega
    have hmodeq : bb2 % 2 ^ cnt2 = bb2 := Nat.mod_eq_of_lt hbb2
    have hmodeq2 : (bb ||| (value <<< cnt)) % 2 ^ (cnt + nbits) =
        bb + value * 2 ^ cnt := by
      rw [Nat.mod_eq_of_lt hlt, hor]
    rw [hmodeq, hmodeq2] at w6
    have hveq : v + value * 2 ^ total = lsbVal buf2 + bb2 * 2 ^ (8 * buf2.length) := by
      rw [w6, hv, ht]
      have hpow : (2 : Nat) ^ (8 * buf.length + cnt) =
          2 ^ cnt * 2 ^ (8 * buf.length) := by
        rw [← Nat.pow_add, Nat.add_comm]
      rw [hpow]
      ring
    exact ⟨w1, w2, hbb2, htotal, hveq⟩

theorem lsbAppendList_wf (appends : List (Nat × Nat))
    (hvals : ∀ p ∈ appends, p.1 < 2 ^ p.2) :
    ∀ (st : BitWriterLSB8) (v total : Nat), LsbWF st v total →
    LsbWF (lsbAppendList st appends)
      (v + lsbStreamVal appends * 2 ^ total) (total + streamBits appends) := by
  induction appends with
  | nil =>
    intro st v total h
    simpa [lsbAppendList, lsbStreamVal, streamBits] using h
  | cons p rest ih =>
    intro st v total h
    obtain ⟨pv, pn⟩ := p
    have hv : pv < 2 ^ pn := hvals (pv, pn) (by simp)
    have h1 := lsbAppendBits_wf st v total pv pn h hv
    have h2 := ih (fun q hq => hvals q (by simp [hq])) _ _ _ h1
    simp only [lsbAppendList]
    have heq : v + pv * 2 ^ total + lsbStreamVal rest * 2 ^ (total + pn) =
        v + lsbStreamVal ((pv, pn) :: rest) * 2 ^ total := by
      simp only [lsbStreamVal]
      rw [Nat.mod_eq_of_lt hv, Nat.pow_add]
      ring
    have heq2 : total + pn + streamBits rest = total + streamBits ((pv, pn) :: rest) := by
      simp only [streamBits, List.map_cons, List.sum_cons]
      ring
    rw [heq, heq2] at h2
    exact h2

/-- The LSB stream value is bounded by its bit length. -/
theorem lsbStreamVal_lt (appends : List (Nat × Nat)) :
    lsbStreamVal appends < 2 ^ streamBits appends := by
  induction appends with
  | nil => simp [lsbStreamVal, streamBits]
  | cons p rest ih =>
    obtain ⟨v, n⟩ := p
    simp only [lsbStreamVal, streamBits, List.map_cons, List.sum_cons]
    have h1 : v % 2 ^ n < 2 ^ n := Nat.mod_lt _ (Nat.two_pow_pos n)
    calc v % 2 ^ n + 2 ^ n * lsbStreamVal rest
        < 2 ^ n + 2 ^ n * lsbStreamVal rest := by omega
      _ = 2 ^ n * (lsbStreamVal rest + 1) := by ring
      _ ≤ 2 ^ n * 2 ^ streamBits rest := by
          apply Nat.mul_le_mul_left
          omega
      _ = 2 ^ (n + streamBits rest) := by rw [← Nat.pow_add]

/-- `finish()` of the LSB writer: bytes hold exactly the stream value, the
reported bit count is the stream length, and the byte count is
`⌈bit_count / 8⌉`. -/
theorem lsbFinish_spec (st : BitWriterLSB8) (v total : Nat) (hwf : LsbWF st v total) :
    ByteListWF (lsbFinish st).bytes ∧ lsbVal (lsbFinish st).bytes = v ∧
      (lsbFinish st).bytes.length = (total + 7) / 8 ∧
      (lsbFinish st).bit_count = total := by
  obtain ⟨buf, bb, cnt⟩ := st
  obtain ⟨hb, hc, hbb, ht, hv⟩ := hwf
  simp only at hb hc hbb ht hv
  have hfin : lsbFinish ⟨buf, bb, cnt⟩ =
      ⟨lsbDrain buf bb cnt, buf.length * 8 + cnt⟩ := rfl
  rw [hfin]
  dsimp only
  rcases Nat.eq_zero_or_pos cnt with hz | hpos
  · subst hz
    have hbb1 : bb < 1 := by simpa using hbb
    have hbb0 : bb = 0 := by omega
    subst hbb0
    have hdr : lsbDrain buf 0 0 = buf := by
      rw [lsbDrain]
      simp
    rw [hdr]
    refine ⟨hb, ?_, by omega, by omega⟩
    rw [hv]
    simp
  · have hbblt : bb < 256 := by
      calc bb < 2 ^ cnt := hbb
        _ ≤ 2 ^ 8 := Nat.pow_le_pow_right (by norm_num) (by omega)
        _ = 256 := rfl
    have hb255 : bb &&& 255 = bb := by
      have he : (255 : Nat) = 2 ^ 8 - 1 := by norm_num
      rw [he, Nat.and_pow_two_sub_one_eq_mod]
      exact Nat.mod_eq_of_lt (by calc bb < 256 := hbblt
                                    _ = 2 ^ 8 := rfl)
    have hshift : bb >>> 8 = 0 := by
      rw [Nat.shiftRight_eq_div_pow]
      exact Nat.div_eq_of_lt (by calc bb < 256 := hbblt
                                    _ = 2 ^ 8 := rfl)
    have hdr : lsbDrain buf bb cnt = buf ++ [bb] := by
      rw [lsbDrain, if_pos hpos, if_neg (by omega : ¬ 8 ≤ cnt), hb255, hshift,
        lsbDrain]
      simp
    rw [hdr]
    refine ⟨?_, ?_, ?_, by omega⟩
    · intro b hbm
      rcases List.mem_append.mp hbm with hbm | hbm
      · exact hb b hbm
      · have hbv : b = bb := List.mem_singleton.mp hbm
        subst hbv
        exact hbblt
    · rw [lsbVal_append, hv]
      simp only [lsbVal_cons, lsbVal_nil]
      ring
    · simp only [List.length_append, List.length_singleton]
      omega

/-- Sequentially reading back an LSB stream through `BitReaderLSB`
(`bitio.hpp`): widths `≤ 32`, suffix invariant on the buffer value. -/
theorem lsbReadList_spec (data : List Nat) (hdata : ByteListWF data) :
    ∀ (appends : List (Nat × Nat)) (pos : Nat),
    (∀ p ∈ appends, p.2 ≤ 32) →
    lsbVal data / 2 ^ pos = lsbStreamVal appends →
    lsbReadList data pos (appends.map (·.2)) =
      (appends.map (fun p => p.1 % 2 ^ p.2), pos + streamBits appends) := by
  intro appends
  induction appends with
  | nil =>
    intro pos hw hv
    simp [lsbReadList, streamBits]
  | cons p rest ih =>
    intro pos hw hv
    obtain ⟨v, n⟩ := p
    simp only [List.map_cons, lsbReadList]
    rw [readBitsLSB_eq data hdata pos n (hw (v, n) (by simp))]
    have hval : lsbVal data / 2 ^ pos % 2 ^ n = v % 2 ^ n := by
      rw [hv]
      simp only [lsbStreamVal]
      rw [Nat.add_mul_mod_self_left, Nat.mod_mod_of_dvd _ dvd_rfl]
    have hnext : lsbVal data / 2 ^ (pos + n) = lsbStreamVal rest := by
      rw [Nat.pow_add, ← Nat.div_div_eq_div_mul, hv]
      simp only [lsbStreamVal]
      rw [Nat.add_mul_div_left _ _ (Nat.two_pow_pos n),
        Nat.div_eq_of_lt (Nat.mod_lt _ (Nat.two_pow_pos n)), Nat.zero_add]
    rw [ih (pos + n) (fun q hq => hw q (by simp [hq])) hnext, hval]
    simp only [streamBits, List.map_cons, List.sum_cons, Prod.mk.injEq]
    exact ⟨by trivial, by omega⟩

/-! ### MSB writer correctness -/

theorem mul_pow_add_div_pow_gen {base : Nat} (hb : 0 < base) {a c j k : Nat}
    (h : j ≤ k) :
    (a * base ^ k + c) / base ^ j = a * base ^ (k - j) + c / base ^ j := by
  have hk : a * base ^ k = a * base ^ (k - j) * base ^ j := by
    rw [Nat.mul_assoc, ← Nat.pow_add]
    congr 2
    omega
  rw [hk, Nat.add_comm, Nat.add_mul_div_right _ _ (pow_pos hb j), Nat.add_comm]

theorem msbVal_acc (l : List Nat) :
    ∀ acc, List.foldl (fun acc b => acc * 256 + b) acc l =
      acc * 256 ^ l.length + msbVal l := by
  induction l with
  | nil => intro acc; simp [msbVal]
  | cons x rest ih =>
    intro acc
    have h1 : msbVal (x :: rest) = x * 256 ^ rest.length + msbVal rest := by
      simp only [msbVal, List.foldl_cons]
      rw [ih (0 * 256 + x)]
      simp [msbVal]
    simp only [List.foldl_cons, List.length_cons]
    rw [ih (acc * 256 + x), h1, Nat.pow_succ]
    ring

theorem msbVal_append_single (l : List Nat) (x : Nat) :
    msbVal (l ++ [x]) = msbVal l * 256 + x := by
  simp [msbVal, List.foldl_append]

theorem msbVal_lt (l : List Nat) (h : ByteListWF l) :
    msbVal l < 256 ^ l.length := by
  induction l with
  | nil => simp [msbVal]
  | cons x rest ih =>
    have hx : x < 256 := h x (by simp)
    have hr : msbVal rest < 256 ^ rest.length := ih (fun b hb => h b (by simp [hb]))
    have h1 : msbVal (x :: rest) = x * 256 ^ rest.length + msbVal rest := by
      simp only [msbVal, List.foldl_cons]
      rw [msbVal_acc rest (0 * 256 + x)]
      simp [msbVal]
    rw [h1]
    simp only [List.length_cons, Nat.pow_succ]
    nlinarith

theorem msbVal_getD (l : List Nat) (h : ByteListWF l) :
    ∀ j, j < l.length → msbVal l / 256 ^ (l.length - 1 - j) % 256 = l.getD j 0 := by
  induction l with
  | nil => intro j hj; simp at hj
  | cons x rest ih =>
    intro j hj
    have hx : x < 256 := h x (by simp)
    have hwf : ByteListWF rest := fun b hb => h b (by simp [hb])
    have h1 : msbVal (x :: rest) = x * 256 ^ rest.length + msbVal rest := by
      simp only [msbVal, List.foldl_cons]
      rw [msbVal_acc rest (0 * 256 + x)]
      simp [msbVal]
    cases j with
    | zero =>
      simp only [List.length_cons, Nat.add_sub_cancel, Nat.sub_zero, h1,
        List.getD_cons_zero]
      rw [Nat.add_comm, Nat.add_mul_div_right _ _ (pow_pos (by norm_num) rest.length),
        Nat.div_eq_of_lt (msbVal_lt rest hwf), Nat.zero_add, Nat.mod_eq_of_lt hx]
    | succ j =>
      have hj' : j < rest.length := by
        simp only [List.length_cons] at hj
        omega
      have he : (x :: rest).length - 1 - (j + 1) = rest.length - 1 - j := by
        simp only [List.length_cons]
        omega
      rw [he, h1, List.getD_cons_succ,
        mul_pow_add_div_pow_gen (by norm_num) (by omega : rest.length - 1 - j ≤ rest.length)]
      have hmul : x * 256 ^ (rest.length - (rest.length - 1 - j)) =
          x * 256 ^ (j + 1) := by
        congr 2
        omega
      rw [hmul]
      have h256 : x * 256 ^ (j + 1) = 256 * (x * 256 ^ j) := by
        rw [Nat.pow_succ]
        ring
      rw [h256, Nat.mul_add_mod, ih hwf j hj']

/-- Well-formedness of an MSB writer state holding the big-endian abstract
stream value `w` of `bit_len` bits: the buffer is the byte rendering of `w`
padded with zero bits up to the next byte boundary. -/
def MsbWF (st : BitWriterMSB) (w : Nat) : Prop :=
  ByteListWF st.buffer ∧ st.buffer.length = (st.bit_len + 7) / 8 ∧
    w < 2 ^ st.bit_len ∧
    msbVal st.buffer = w * 2 ^ (8 * st.buffer.length - st.bit_len)

theorem msbInit_wf : MsbWF msbInit 0 := by
  exact ⟨fun b hb => absurd hb (List.not_mem_nil b), rfl, by decide, rfl⟩

theorem msbAppendBit_wf (st : BitWriterMSB) (w bit : Nat) (hbit : bit ≤ 1)
    (hwf : MsbWF st w) : MsbWF (msbAppendBit st bit) (2 * w + bit) := by
  obtain ⟨buf, len⟩ := st
  obtain ⟨hb, hlen, hw, hv⟩ := hwf
  simp only at hb hlen hw hv
  have hb01 : bit = 0 ∨ bit = 1 := by omega
  rcases Nat.eq_zero_or_pos (len % 8) with hr | hr
  · -- the bit starts a fresh byte
    have hL : buf.length = len / 8 := by omega
    have h8L : 8 * buf.length = len := by omega
    have hz : 8 * buf.length - len = 0 := by omega
    rw [hz, pow_zero, Nat.mul_one] at hv
    have hstep : msbAppendBit ⟨buf, len⟩ bit = ⟨buf ++ [bit * 128], len + 1⟩ := by
      simp only [msbAppendBit]
      rw [if_pos (by omega : buf.length ≤ len / 8)]
      rcases hb01 with hb0 | hb1
      · subst hb0
        simp
      · subst hb1
        simp only [ne_eq, one_ne_zero, not_false_iff, if_true]
        have hget : (buf ++ [0]).getD (len / 8) 0 = 0 := by
          rw [List.getD_eq_getElem?_getD, ← hL, List.getElem?_concat_length]
          rfl
        rw [hget, hr, Nat.zero_or]
        rw [List.set_append_right _ _ (by omega : buf.length ≤ len / 8)]
        have hi : len / 8 - buf.length = 0 := by omega
        rw [hi]
        norm_num
    rw [hstep]
    refine ⟨?_, ?_, ?_, ?_⟩
    · intro b hbm
      rcases List.mem_append.mp hbm with hbm | hbm
      · exact hb b hbm
      · have hbv : b = bit * 128 := List.mem_singleton.mp hbm
        subst hbv
        omega
    · simp only [List.length_append, List.length_singleton]
      omega
    · show 2 * w + bit < 2 ^ (len + 1)
      have h2 : (2 : Nat) ^ (len + 1) = 2 * 2 ^ len := by
        rw [Nat.pow_succ]
        ring
      omega
    · simp only [List.length_append, List.length_singleton]
      rw [msbVal_append_single, hv]
      have hexp : 8 * (buf.length + 1) - (len + 1) = 7 := by omega
      rw [hexp]
      have h27 : (2 : Nat) ^ 7 = 128 := rfl
      rw [h27]
      ring
  · -- the bit lands inside the (partially used) last byte
    have hL : buf.length = len / 8 + 1 := by omega
    have hpos : 0 < buf.length := by omega
    rcases List.eq_nil_or_concat buf with hnil | ⟨front, lastB, hbuf⟩
    · rw [hnil] at hpos
      simp at hpos
    subst hbuf
    simp only [List.concat_eq_append] at hb hlen hv hL hpos ⊢
    have hfl : front.length = len / 8 := by
      simp only [List.length_append, List.length_singleton] at hL
      omega
    have hexp0 : 8 * (front ++ [lastB]).length - len = 8 - len % 8 := by
      simp only [List.length_append, List.length_singleton]
      omega
    rw [msbVal_append_single, hexp0] at hv
    have hlastlt : lastB < 256 := hb lastB (by simp)
    have hlast : lastB = 2 ^ (8 - len % 8) * (w % 2 ^ (len % 8)) := by
      have h1 : (msbVal front * 256 + lastB) % 256 = lastB := by
        have hcomm : msbVal front * 256 = 256 * msbVal front := by ring
        rw [hcomm, Nat.mul_add_mod, Nat.mod_eq_of_lt hlastlt]
      have h2 : (w * 2 ^ (8 - len % 8)) % 256 =
          2 ^ (8 - len % 8) * (w % 2 ^ (len % 8)) := by
        have h256 : (256 : Nat) = 2 ^ (8 - len % 8) * 2 ^ (len % 8) := by
          rw [← Nat.pow_add]
          have he : 8 - len % 8 + len % 8 = 8 := by omega
          rw [he]
        rw [h256, Nat.mul_comm w _, Nat.mul_mod_mul_left]
      rw [← h1, hv, h2]
    set r := len % 8 with hrdef
    set m := w % 2 ^ r with hmdef
    have hmlt : m < 2 ^ r := Nat.mod_lt _ (Nat.two_pow_pos r)
    have hor : lastB ||| 2 ^ (7 - r) = lastB + 2 ^ (7 - r) := by
      have hcomm : lastB ||| 2 ^ (7 - r) = 2 ^ (7 - r) ||| lastB := Nat.or_comm _ _
      have hsh : lastB = m <<< (8 - r) := by
        rw [Nat.shiftLeft_eq, hlast, Nat.mul_comm]
      have hplt : (2 : Nat) ^ (7 - r) < 2 ^ (8 - r) :=
        Nat.pow_lt_pow_right (by norm_num) (by omega)
      rw [hcomm, hsh, two_pow_or_eq_add hplt, ← Nat.shiftLeft_eq, ← hsh]
      omega
    have hnewlt : lastB + 2 ^ (7 - r) < 256 := by
      have hdouble : (2 : Nat) ^ (8 - r) = 2 * 2 ^ (7 - r) := by
        rw [← Nat.pow_succ']
        congr 1
        omega
      have hval : lastB + 2 ^ (7 - r) = (2 * m + 1) * 2 ^ (7 - r) := by
        rw [hlast, hdouble]
        ring
      have hstep2 : (2 * m + 1) * 2 ^ (7 - r) < 2 ^ (r + 1) * 2 ^ (7 - r) := by
        apply (Nat.mul_lt_mul_right (Nat.two_pow_pos _)).mpr
        have h2r : (2 : Nat) ^ (r + 1) = 2 * 2 ^ r := by
          rw [← Nat.pow_succ']
        omega
      have hfin : (2 : Nat) ^ (r + 1) * 2 ^ (7 - r) = 256 := by
        rw [← Nat.pow_add]
        have he : r + 1 + (7 - r) = 8 := by omega
        rw [he]
      omega
    have hstep : msbAppendBit ⟨front ++ [lastB], len⟩ bit =
        ⟨front ++ [lastB + bit * 2 ^ (7 - r)], len + 1⟩ := by
      simp only [msbAppendBit]
      rw [if_neg (by omega : ¬ (front ++ [lastB]).length ≤ len / 8)]
      rcases hb01 with hb0 | hb1
      · subst hb0
        simp
      · subst hb1
        simp only [ne_eq, one_ne_zero, not_false_iff, if_true]
        have hget : (front ++ [lastB]).getD (len / 8) 0 = lastB := by
          rw [List.getD_eq_getElem?_getD, ← hfl, List.getElem?_concat_length]
          rfl
        rw [hget, List.set_append_right _ _ (by omega : front.length ≤ len / 8)]
        have hi : len / 8 - front.length = 0 := by omega
        rw [hi]
        simp only [List.set_cons_zero]
        rw [hor]
        norm_num
    rw [hstep]
    refine ⟨?_, ?_, ?_, ?_⟩
    · intro b hbm
      rcases List.mem_append.mp hbm with hbm | hbm
      · exact hb b (by simp [hbm])
      · have hbv : b = lastB + bit * 2 ^ (7 - r) := List.mem_singleton.mp hbm
        subst hbv
        rcases hb01 with hb0 | hb1
        · subst hb0
          simpa using hlastlt
        · subst hb1
          simpa using hnewlt
    · simp only [List.length_append, List.length_singleton]
      omega
    · show 2 * w + bit < 2 ^ (len + 1)
      have h2 : (2 : Nat) ^ (len + 1) = 2 * 2 ^ len := by
        rw [Nat.pow_succ]
        ring
      omega
    · rw [msbVal_append_single]
      have hexp : 8 * (front ++ [lastB + bit * 2 ^ (7 - r)]).length - (len + 1) =
          7 - r := by
        simp only [List.length_append, List.length_singleton]
        omega
      rw [hexp]
      have hdouble : (2 : Nat) ^ (8 - r) = 2 * 2 ^ (7 - r) := by
        rw [← Nat.pow_succ']
        congr 1
        omega
      have hveq : msbVal front * 256 + lastB = w * 2 ^ (8 - r) := hv
      calc msbVal front * 256 + (lastB + bit * 2 ^ (7 - r))
          = (msbVal front * 256 + lastB) + bit * 2 ^ (7 - r) := by ring
        _ = w * 2 ^ (8 - r) + bit * 2 ^ (7 - r) := by rw [hveq]
        _ = (2 * w + bit) * 2 ^ (7 - r) := by rw [hdouble]; ring

theorem msbAppendBitsAux_wf : ∀ (n : Nat) (st : BitWriterMSB) (w value : Nat),
    MsbWF st w → MsbWF (msbAppendBitsAux st value n) (w * 2 ^ n + value % 2 ^ n) := by
  intro n
  induction n with
  | zero =>
    intro st w value h
    simpa [msbAppendBitsAux, Nat.mod_one] using h
  | succ n ih =>
    intro st w value h
    have hbit : (value >>> n) &&& 1 ≤ 1 := by
      rw [Nat.and_one_is_mod]
      exact Nat.le_of_lt_succ (Nat.mod_lt _ (by norm_num))
    have h1 := msbAppendBit_wf st w _ hbit h
    have h2 := ih (msbAppendBit st ((value >>> n) &&& 1)) _ value h1
    have heq : (2 * w + ((value >>> n) &&& 1)) * 2 ^ n + value % 2 ^ n =
        w * 2 ^ (n + 1) + value % 2 ^ (n + 1) := by
      rw [Nat.and_one_is_mod, Nat.shiftRight_eq_div_pow, Nat.mod_pow_succ,
        Nat.pow_succ]
      ring
    rw [heq] at h2
    exact h2

theorem msbAppendBits_wf (st : BitWriterMSB) (w value nbits : Nat)
    (h : MsbWF st w) :
    MsbWF (msbAppendBits st value nbits) (w * 2 ^ nbits + value % 2 ^ nbits) :=
  msbAppendBitsAux_wf nbits st w value h

theorem msbAppendList_wf : ∀ (appends : List (Nat × Nat)) (st : BitWriterMSB)
    (w : Nat), MsbWF st w →
    MsbWF (msbAppendList st appends)
      (w * 2 ^ streamBits appends + msbStreamVal appends) := by
  intro appends
  induction appends with
  | nil =>
    intro st w h
    simpa [msbAppendList, streamBits, msbStreamVal] using h
  | cons p rest ih =>
    intro st w h
    obtain ⟨v, n⟩ := p
    have h1 := msbAppendBits_wf st w v n h
    have h2 := ih _ _ h1
    simp only [msbAppendList]
    have heq : (w * 2 ^ n + v % 2 ^ n) * 2 ^ streamBits rest + msbStreamVal rest =
        w * 2 ^ streamBits ((v, n) :: rest) + msbStreamVal ((v, n) :: rest) := by
      simp only [streamBits, msbStreamVal, List.map_cons, List.sum_cons]
      rw [Nat.pow_add]
      ring
    rw [heq] at h2
    exact h2

theorem msbStreamVal_lt (appends : List (Nat × Nat)) :
    msbStreamVal appends < 2 ^ streamBits appends := by
  induction appends with
  | nil => simp [msbStreamVal, streamBits]
  | cons p rest ih =>
    obtain ⟨v, n⟩ := p
    simp only [msbStreamVal, streamBits, List.map_cons, List.sum_cons]
    have h1 : v % 2 ^ n < 2 ^ n := Nat.mod_lt _ (Nat.two_pow_pos n)
    calc v % 2 ^ n * 2 ^ streamBits rest + msbStreamVal rest
        < v % 2 ^ n * 2 ^ streamBits rest + 2 ^ streamBits rest := by omega
      _ = (v % 2 ^ n + 1) * 2 ^ streamBits rest := by ring
      _ ≤ 2 ^ n * 2 ^ streamBits rest := by
          apply Nat.mul_le_mul_right
          omega
      _ = 2 ^ (n + streamBits rest) := by rw [← Nat.pow_add]

/-! ### MSB reader correctness -/

theorem msbStreamBit_eq (data : List Nat) (L w : Nat)
    (hwf : MsbWF ⟨data, L⟩ w) (i : Nat) (hi : i < L) :
    msbStreamBit data i = w / 2 ^ (L - 1 - i) % 2 := by
  obtain ⟨hb, hlen, hw, hv⟩ := hwf
  simp only at hb hlen hw hv
  have hlb : L ≤ 8 * data.length := by omega
  have hj : i / 8 < data.length := by omega
  have hbyte := msbVal_getD data hb (i / 8) hj
  have hr : i % 8 < 8 := Nat.mod_lt _ (by norm_num)
  simp only [msbStreamBit, Nat.shiftRight_eq_div_pow, Nat.and_one_is_mod]
  rw [← hbyte]
  have h256p : ∀ k : Nat, (256 : Nat) ^ k = 2 ^ (8 * k) := by
    intro k
    rw [Nat.pow_mul]
  rw [h256p]
  have h2561 : (256 : Nat) = 2 ^ 8 := rfl
  rw [h2561, mod_pow_div_pow (by omega : 7 - i % 8 ≤ 8),
    Nat.mod_mod_of_dvd _ (dvd_pow_self 2 (by omega : 8 - (7 - i % 8) ≠ 0))]
  rw [Nat.div_div_eq_div_mul, ← Nat.pow_add, hv]
  have hexp : 8 * (data.length - 1 - i / 8) + (7 - i % 8) =
      8 * data.length - 1 - i := by omega
  rw [hexp, mul_pow_div_pow_ge (by omega : 8 * data.length - L ≤
      8 * data.length - 1 - i)]
  have hee : 8 * data.length - 1 - i - (8 * data.length - L) = L - 1 - i := by
    omega
  rw [hee]

theorem msbReadAux_eq (data : List Nat) (L w : Nat) (hwf : MsbWF ⟨data, L⟩ w) :
    ∀ (n pos acc : Nat), pos + n ≤ L →
    msbReadAux data pos n acc = acc * 2 ^ n + w / 2 ^ (L - pos - n) % 2 ^ n := by
  intro n
  induction n with
  | zero =>
    intro pos acc h
    simp [msbReadAux, Nat.mod_one]
  | succ n ih =>
    intro pos acc h
    simp only [msbReadAux]
    rw [ih (pos + 1) _ (by omega),
      msbStreamBit_eq data L w hwf pos (by omega)]
    have hD : L - (pos + 1) - n = L - pos - (n + 1) := by omega
    have hD2 : L - 1 - pos = (L - pos - (n + 1)) + n := by omega
    rw [hD, hD2]
    have hsplit : w / 2 ^ (L - pos - (n + 1)) % 2 ^ (n + 1) =
        w / 2 ^ (L - pos - (n + 1)) % 2 ^ n +
          2 ^ n * (w / 2 ^ ((L - pos - (n + 1)) + n) % 2) := by
      rw [Nat.mod_pow_succ]
      congr 2
      rw [Nat.div_div_eq_div_mul, ← Nat.pow_add]
    rw [hsplit, Nat.pow_succ]
    ring

theorem msbReadBits_eq (data : List Nat) (L w : Nat) (hwf : MsbWF ⟨data, L⟩ w)
    (pos nbits : Nat) (h : pos + nbits ≤ L) :
    msbReadBits data L pos nbits =
      .ok (w / 2 ^ (L - pos - nbits) % 2 ^ nbits, pos + nbits) := by
  rcases Nat.eq_zero_or_pos nbits with hz | hpos
  · subst hz
    simp [msbReadBits, Nat.mod_one]
  · have hn0 : nbits ≠ 0 := by omega
    simp only [msbReadBits, hn0, if_false, if_neg (by omega : ¬ L < pos + nbits)]
    rw [msbReadAux_eq data L w hwf nbits pos 0 h]
    simp

theorem msbReadBits_err (data : List Nat) (L pos nbits : Nat)
    (h : L < pos + nbits) (hn : nbits ≠ 0) :
    msbReadBits data L pos nbits = .error .outOfBits := by
  simp [msbReadBits, hn, h]

theorem msbReadList_spec (data : List Nat) (L w : Nat) (hwf : MsbWF ⟨data, L⟩ w) :
    ∀ (appends : List (Nat × Nat)) (pos : Nat),
    streamBits appends = L - pos → pos ≤ L →
    w % 2 ^ (L - pos) = msbStreamVal appends →
    msbReadList data L pos (appends.map (·.2)) =
      .ok (appends.map (fun p => p.1 % 2 ^ p.2), L) := by
  intro appends
  induction appends with
  | nil =>
    intro pos hsb hpos hsuf
    have hpL : pos = L := by
      simp only [streamBits, List.map_nil, List.sum_nil] at hsb
      omega
    subst hpL
    simp [msbReadList]
  | cons p rest ih =>
    intro pos hsb hpos hsuf
    obtain ⟨v, n⟩ := p
    simp only [streamBits, List.map_cons, List.sum_cons] at hsb
    have hrest : streamBits rest = L - (pos + n) := by
      simp only [streamBits]
      omega
    have hple : pos + n ≤ L := by omega
    have hM : L - pos = n + streamBits rest := by
      simp only [streamBits]
      omega
    have hsbr : L - pos - n = streamBits rest := by omega
    have hvlt : msbStreamVal rest < 2 ^ streamBits rest := msbStreamVal_lt rest
    have hval : w / 2 ^ (L - pos - n) % 2 ^ n = v % 2 ^ n := by
      have h1 : (w % 2 ^ (L - pos)) / 2 ^ (streamBits rest) =
          w / 2 ^ (streamBits rest) % 2 ^ n := by
        rw [mod_pow_div_pow (by omega : streamBits rest ≤ L - pos)]
        have hee : L - pos - streamBits rest = n := by omega
        rw [hee]
      rw [hsbr, ← h1, hsuf]
      simp only [msbStreamVal]
      rw [Nat.add_comm, Nat.add_mul_div_right _ _ (Nat.two_pow_pos _),
        Nat.div_eq_of_lt hvlt, Nat.zero_add]
    have hsuf2 : w % 2 ^ (L - (pos + n)) = msbStreamVal rest := by
      have hd : (2 : Nat) ^ (L - (pos + n)) ∣ 2 ^ (L - pos) :=
        pow_dvd_pow 2 (by omega)
      rw [← Nat.mod_mod_of_dvd w hd, hsuf]
      simp only [msbStreamVal]
      have hse : L - (pos + n) = streamBits rest := by omega
      rw [hse, mul_pow_add_mod_pow, Nat.mod_eq_of_lt hvlt]
    simp only [List.map_cons, msbReadList]
    rw [msbReadBits_eq data L w hwf pos n hple, hval]
    dsimp only
    rw [ih (pos + n) hrest (by omega) hsuf2]

theorem msbReadAux_lt (data : List Nat) :
    ∀ (n pos acc : Nat), msbReadAux data pos n acc < (acc + 1) * 2 ^ n := by
  intro n
  induction n with
  | zero =>
    intro pos acc
    simp [msbReadAux]
  | succ n ih =>
    intro pos acc
    simp only [msbReadAux]
    have hbit : msbStreamBit data pos ≤ 1 := by
      simp only [msbStreamBit, Nat.and_one_is_mod]
      exact Nat.le_of_lt_succ (Nat.mod_lt _ (by norm_num))
    calc msbReadAux data (pos + 1) n (acc * 2 + msbStreamBit data pos)
        < (acc * 2 + msbStreamBit data pos + 1) * 2 ^ n := ih (pos + 1) _
      _ ≤ (acc * 2 + 2) * 2 ^ n := by
          apply Nat.mul_le_mul_right
          omega
      _ = (acc + 1) * 2 ^ (n + 1) := by
          rw [Nat.pow_succ]
          ring

theorem msbAppendBitsAux_len (data : List Nat) :
    ∀ (n : Nat) (st : BitWriterMSB) (v : Nat),
      (msbAppendBitsAux st v n).bit_len = st.bit_len + n := by
  intro n
  induction n with
  | zero => intro st v; simp [msbAppendBitsAux]
  | succ n ih =>
    intro st v
    simp only [msbAppendBitsAux]
    rw [ih]
    simp only [msbAppendBit]
    omega

theorem msbAppendList_len : ∀ (appends : List (Nat × Nat)) (st : BitWriterMSB),
    (msbAppendList st appends).bit_len = st.bit_len + streamBits appends := by
  intro appends
  induction appends with
  | nil =>
    intro st
    simp [msbAppendList, streamBits]
  | cons p rest ih =>
    intro st
    obtain ⟨v, n⟩ := p
    simp only [msbAppendList, msbAppendBits, streamBits, List.map_cons,
      List.sum_cons]
    rw [ih, msbAppendBitsAux_len [] n st v]
    simp only [streamBits]
    omega

/-- C7 (corrected): the MSB reader `BitReaderMSB::read_bits` fails with
`OutOfBits` exactly when the read would cross `total_bits` (given the
reader's invariant `pos ≤ total_bits`), and returns a value `< 2^n`
otherwise; the LSB reader `BitReaderLSB::read_bits` of `bitio.hpp` performs
no bounds check at all — it always returns a value `< 2^n` (reading
zero-padded bytes past the end of the buffer), never an error. -/
theorem claim_c7_read_bits_bounds :
    (∀ (data : List Nat) (total pos n : Nat), pos ≤ total →
      ((msbReadBits data total pos n = .error .outOfBits) ↔ total < pos + n) ∧
      (∀ v p2, msbReadBits data total pos n = .ok (v, p2) →
        v < 2 ^ n ∧ p2 = pos + n)) ∧
    (∀ (data : List Nat) (pos n : Nat), n ≤ 32 →
      (readBitsLSB data pos n).1 < 2 ^ n) := by
  constructor
  · intro data total pos n hpt
    constructor
    · constructor
      · intro herr
        by_contra hc
        have hle : pos + n ≤ total := by omega
        rcases Nat.eq_zero_or_pos n with hz | hp
        · subst hz
          simp [msbReadBits] at herr
        · have hn0 : n ≠ 0 := by omega
          simp [msbReadBits, hn0, if_neg (by omega : ¬ total < pos + n)] at herr
      · intro hlt
        have hn0 : n ≠ 0 := by omega
        simp [msbReadBits, hn0, hlt]
    · intro v p2 hok
      rcases Nat.eq_zero_or_pos n with hz | hp
      · subst hz
        simp [msbReadBits] at hok
        obtain ⟨h1, h2⟩ := hok
        subst h1
        subst h2
        exact ⟨by norm_num, by omega⟩
      · have hn0 : n ≠ 0 := by omega
        rcases Nat.lt_or_ge total (pos + n) with hlt | hge
        · simp [msbReadBits, hn0, hlt] at hok
        · simp only [msbReadBits, hn0, if_false, if_neg (by omega : ¬ total < pos + n),
            Except.ok.injEq, Prod.mk.injEq] at hok
          obtain ⟨h1, h2⟩ := hok
          subst h1
          refine ⟨?_, h2.symm⟩
          have := msbReadAux_lt data n pos 0
          simpa using this
  · intro data pos n hn
    rcases Nat.eq_zero_or_pos n with hz | hp
    · subst hz
      simp [readBitsLSB]
    · have hn0 : n ≠ 0 := by omega
      simp only [readBitsLSB, hn0, if_false]
      have hmask : kMaskTableVal n = 2 ^ n - 1 := rfl
      rw [hmask, Nat.and_pow_two_sub_one_eq_mod]
      exact Nat.mod_lt _ (Nat.two_pow_pos n)

/-- C7 counterexample: the claim asserts that, for both orderings, a read
crossing `total_bits` fails with `OutOfBits`; but `BitReaderLSB::read_bits`
(`bitio.hpp`) has no failure path: reading 1 bit from an empty buffer
(`total_bits = 0`, so `pos + n` exceeds it) returns the ordinary value `0`
and advances the position. -/
theorem claim_c7_counterexample : readBitsLSB [] 0 1 = (0, 1) := by decide

theorem claim_c7_witness :
    (0 ≤ 8 ∧ 3 ≤ 32) ∧
      (((msbReadBits [129] 8 0 3 = .error .outOfBits) ↔ 8 < 0 + 3) ∧
        (∀ v p2, msbReadBits [129] 8 0 3 = .ok (v, p2) →
          v < 2 ^ 3 ∧ p2 = 0 + 3)) ∧
      (readBitsLSB [129] 0 3).1 < 2 ^ 3 :=
  ⟨⟨by decide, by decide⟩,
    (claim_c7_read_bits_bounds.1 [129] 8 0 3 (by decide)),
    (claim_c7_read_bits_bounds.2 [129] 0 3 (by decide))⟩

/-- Concrete append sequence used by the C8 witness. -/
def c8Appends : List (Nat × Nat) := [(5, 3), (0, 0), (300, 9), (1, 1)]

/-- C8 (confirmed): for each ordering, running any sequence of
`append_bits(v_j, n_j)` calls with `n_j ≤ 32` and `v_j < 2^{n_j}` and then
`finish()` yields `(bytes, bit_count)` with `bit_count = Σ n_j` and
`bytes.length = ⌈bit_count / 8⌉`, and replaying `read_bits(n_j)` through the
same ordering's reader returns exactly the values `v_j`. -/
theorem claim_c8_writer_reader_round_trip (appends : List (Nat × Nat))
    (h : ∀ p ∈ appends, p.2 ≤ 32 ∧ p.1 < 2 ^ p.2) :
    ((msbFinish (msbAppendList msbInit appends)).bit_count = streamBits appends ∧
      (msbFinish (msbAppendList msbInit appends)).bytes.length =
        (streamBits appends + 7) / 8 ∧
      msbReadList (msbFinish (msbAppendList msbInit appends)).bytes
        (streamBits appends) 0 (appends.map (·.2)) =
        .ok (appends.map (·.1), streamBits appends)) ∧
    ((lsbFinish (lsbAppendList lsbInit appends)).bit_count = streamBits appends ∧
      (lsbFinish (lsbAppendList lsbInit appends)).bytes.length =
        (streamBits appends + 7) / 8 ∧
      lsbReadList (lsbFinish (lsbAppendList lsbInit appends)).bytes 0
        (appends.map (·.2)) = (appends.map (·.1), streamBits appends)) := by
  have hmapeq : appends.map (fun p => p.1 % 2 ^ p.2) = appends.map (·.1) := by
    apply List.map_congr_left
    intro p hp
    exact Nat.mod_eq_of_lt (h p hp).2
  constructor
  · -- MSB ordering
    have hwf := msbAppendList_wf appends msbInit 0 msbInit_wf
    simp only [Nat.zero_mul, Nat.zero_add] at hwf
    have hlen := msbAppendList_len appends msbInit
    have hlen0 : (msbAppendList msbInit appends).bit_len = streamBits appends := by
      rw [hlen]
      simp [msbInit]
    have hwf2 : MsbWF ⟨(msbAppendList msbInit appends).buffer, streamBits appends⟩
        (msbStreamVal appends) := by
      rw [← hlen0]
      exact hwf
    refine ⟨?_, ?_, ?_⟩
    · show (msbAppendList msbInit appends).bit_len = streamBits appends
      exact hlen0
    · show (msbAppendList msbInit appends).buffer.length =
        (streamBits appends + 7) / 8
      exact hwf2.2.1
    · show msbReadList (msbAppendList msbInit appends).buffer
        (streamBits appends) 0 (appends.map (·.2)) =
        .ok (appends.map (·.1), streamBits appends)
      have hread := msbReadList_spec _ _ _ hwf2 appends 0 (by omega)
        (Nat.zero_le _) ?_
      · rw [hmapeq] at hread
        exact hread
      · rw [Nat.sub_zero]
        exact Nat.mod_eq_of_lt hwf2.2.2.1
  · -- LSB ordering
    have hwf := lsbAppendList_wf appends (fun p hp => (h p hp).2) lsbInit 0 0
      lsbInit_wf
    simp only [Nat.pow_zero, Nat.mul_one, Nat.zero_add] at hwf
    obtain ⟨f1, f2, f3, f4⟩ := lsbFinish_spec _ _ _ hwf
    refine ⟨f4, f3, ?_⟩
    have hread := lsbReadList_spec _ f1 appends 0 (fun p hp => (h p hp).1) ?_
    · rw [hmapeq] at hread
      simpa using hread
    · rw [Nat.pow_zero, Nat.div_one, f2]

theorem claim_c8_witness :
    (∀ p ∈ c8Appends, p.2 ≤ 32 ∧ p.1 < 2 ^ p.2) ∧
      (((msbFinish (msbAppendList msbInit c8Appends)).bit_count =
          streamBits c8Appends ∧
        (msbFinish (msbAppendList msbInit c8Appends)).bytes.length =
          (streamBits c8Appends + 7) / 8 ∧
        msbReadList (msbFinish (msbAppendList msbInit c8Appends)).bytes
          (streamBits c8Appends) 0 (c8Appends.map (·.2)) =
          .ok (c8Appends.map (·.1), streamBits c8Appends)) ∧
      ((lsbFinish (lsbAppendList lsbInit c8Appends)).bit_count =
          streamBits c8Appends ∧
        (lsbFinish (lsbAppendList lsbInit c8Appends)).bytes.length =
          (streamBits c8Appends + 7) / 8 ∧
        lsbReadList (lsbFinish (lsbAppendList lsbInit c8Appends)).bytes 0
          (c8Appends.map (·.2)) =
          (c8Appends.map (·.1), streamBits c8Appends))) :=
  ⟨by decide, claim_c8_writer_reader_round_trip c8Appends (by decide)⟩

/-! ### Parameter normalization (`fse.cpp`, `FSEParams::FSEParams`)

The constructor normalizes a histogram onto `table_size = 2 ^ table_log`
slots: an initial proportional allocation with round-half-to-even, a first
adjustment walk over the symbols sorted by descending count, a second
pass-based adjustment, and a last-resort collapse onto the most frequent
symbol.  C++ exceptions (`std::invalid_argument`) are `.error .invalidParams`. -/

/-- Fuel-driven base-2 logarithm (the fuel argument makes it structural;
`x` halvings always suffice). -/
def log2Fuel : Nat → Nat → Nat
  | 0, _ => 0
  | fuel + 1, n => if n < 2 then 0 else log2Fuel fuel (n / 2) + 1

/-- `floor_log2`: `std::bit_width(x) - 1`, i.e. `Nat.log2` for `x > 0`
(the source asserts `x > 0`). -/
def floor_log2 (x : Nat) : Nat := log2Fuel x x

theorem log2Fuel_eq : ∀ (fuel n : Nat), n ≤ fuel → log2Fuel fuel n = Nat.log2 n := by
  intro fuel
  induction fuel with
  | zero =>
    intro n h
    have hn : n = 0 := by omega
    subst hn
    rw [log2Fuel, Nat.log2]
    simp
  | succ fuel ih =>
    intro n h
    by_cases h2 : n < 2
    · rw [log2Fuel, if_pos h2, Nat.log2]
      rw [if_neg (by omega)]
    · rw [log2Fuel, if_neg h2, ih (n / 2) (by omega)]
      conv_rhs => rw [Nat.log2]
      rw [if_pos (by omega)]

theorem floor_log2_eq_log2 (x : Nat) : floor_log2 x = Nat.log2 x :=
  log2Fuel_eq x x (le_refl x)

/-- `round_ties_to_even` on the exact rational `a / b` (`b > 0`).  The source
computes `count * table_size / total` in binary64: the numerator (below
`2^47` for the inputs the claims cover) is exact, only the division is
rounded, and every theorem here is insensitive to that sub-ulp difference,
so the model rounds the exact rational with the same
floor / fraction-vs-half / tie-to-even case split as the source. -/
def round_ties_to_even (a b : Nat) : Nat :=
  let q := a / b
  let r := a % b
  if b < 2 * r then q + 1
  else if 2 * r < b then q
  else if q % 2 = 1 then q + 1 else q

/-- Initial proportional allocation: zero counts get zero, positive counts
get `max 1 (round_ties_to_even (c * table_size / total))`. -/
def initialNormalized (counts : List Nat) (table_size total : Nat) : List Nat :=
  counts.map (fun c =>
    if c = 0 then 0
    else
      let n := round_ties_to_even (c * table_size) total
      if n = 0 then 1 else n)

/-- Stable insertion of index `s` into a list of later indices already
sorted by descending count: `s` walks past an element only when that
element's count is strictly greater, so equal counts keep index order. -/
def insertDesc (counts : List Nat) (s : Nat) : List Nat → List Nat
  | [] => [s]
  | t :: rest =>
    if counts.getD s 0 < counts.getD t 0 then t :: insertDesc counts s rest
    else s :: t :: rest

/-- Symbol indices stably sorted by descending count (`std::stable_sort`
with comparator `counts[a] > counts[b]`; the stable descending order is
unique, so this insertion sort computes the same list). -/
def sortedSymbols (counts : List Nat) : List Nat :=
  (List.range counts.length).foldr (insertDesc counts) []

/-- The first adjustment loop: walk the sorted symbols, apply `step` (`±1`,
the sign of the initial `diff`) while the candidate stays positive, else
advance; stop when `diff` reaches zero.  `fuel` bounds the iterations: the
loop runs at most `|diff| + |symbols|` steps because each iteration either
moves `diff` one unit toward zero or advances the index. -/
def adjustLoop : Nat → List Nat → List Nat → Int → Int → List Nat × Int
  | 0, norm, _, diff, _ => (norm, diff)
  | fuel + 1, norm, syms, diff, step =>
    if diff = 0 then (norm, diff)
    else
      match syms with
      | [] => (norm, diff)
      | s :: rest =>
        let candidate : Int := (norm.getD s 0 : Int) + step
        if 0 < candidate then
          adjustLoop fuel (norm.set s candidate.toNat) (s :: rest) (diff - step) step
        else adjustLoop fuel norm rest diff step

/-- One pass of the second adjustment loop over `sym_order`: increment when
`diff > 0`, else decrement entries above 1; break as soon as `diff` hits 0. -/
def passTwo : List Nat → List Nat → Int → Bool → List Nat × Int × Bool
  | norm, [], diff, changed => (norm, diff, changed)
  | norm, s :: rest, diff, changed =>
    let r : List Nat × Int × Bool :=
      if 0 < diff then (norm.set s (norm.getD s 0 + 1), diff - 1, true)
      else if 1 < norm.getD s 0 then (norm.set s (norm.getD s 0 - 1), diff + 1, true)
      else (norm, diff, changed)
    if r.2.1 = 0 then r else passTwo r.1 rest r.2.1 r.2.2

/-- The second adjustment loop: repeat passes until `diff = 0` or a full
pass changes nothing.  Each changed pass moves `diff` at least one unit
toward zero, so `|diff| + 1` iterations suffice as fuel. -/
def loopTwo : Nat → List Nat → List Nat → Int → List Nat
  | 0, norm, _, _ => norm
  | fuel + 1, norm, symOrder, diff =>
    if diff = 0 then norm
    else
      let r := passTwo norm symOrder diff false
      if r.2.2 = false then r.1
      else loopTwo fuel r.1 symOrder r.2.1

/-- Index of the first maximal element (`std::max_element`): later elements
replace the candidate only when strictly greater. -/
def argmaxAux : List Nat → Nat → Nat → Nat → Nat
  | [], _, best, _ => best
  | x :: rest, i, best, bestVal =>
    if bestVal < x then argmaxAux rest (i + 1) i x
    else argmaxAux rest (i + 1) best bestVal

/-- `std::max_element(counts) - counts.begin()` (0 on the empty list, which
the source guards against). -/
def argmaxIdx (l : List Nat) : Nat :=
  match l with
  | [] => 0
  | x :: rest => argmaxAux rest 1 0 x

/-- `FSEParams`: histogram, table log/size, the normalized frequencies, the
block-size field width and the initial encoder state. -/
structure FSEParams where
  counts : List Nat
  table_log : Nat
  table_size : Nat
  normalized : List Nat
  data_block_size_bits : Nat
  initial_state : Nat
  deriving Repr, DecidableEq

/-- The normalization pipeline of the constructor body (after the argument
checks): initial allocation, the first adjustment loop on the symbols in
descending-count order, the pass-based second loop, and the last-resort
collapse onto the most frequent symbol. -/
def normalizeCounts (counts_in : List Nat) (table_size : Nat) : List Nat :=
  let total := counts_in.sum
  let norm0 := initialNormalized counts_in table_size total
  let allocated := norm0.sum
  let diff : Int := (table_size : Int) - (allocated : Int)
  let symbols := sortedSymbols counts_in
  let norm1 :=
    if diff ≠ 0 then
      (adjustLoop (diff.natAbs + symbols.length) norm0 symbols diff
        (if 0 < diff then 1 else -1)).1
    else norm0
  let check_sum := norm1.sum
  if check_sum ≠ table_size then
    let d2 : Int := (table_size : Int) - (check_sum : Int)
    let norm3 := loopTwo (d2.natAbs + 1) norm1 symbols d2
    if norm3.sum ≠ table_size then
      (List.replicate counts_in.length 0).set (argmaxIdx counts_in) table_size
    else norm3
  else norm1

/-- `FSEParams::FSEParams(counts, table_log, 32)`: the three argument checks
(in source order: `table_log > 16`, empty counts, zero total), then the
normalization pipeline. -/
def FSEParams.make (counts_in : List Nat) (table_log_in : Nat) :
    Except FSEError FSEParams :=
  if 16 < table_log_in then .error .invalidParams
  else if counts_in.isEmpty then .error .invalidParams
  else if counts_in.sum = 0 then .error .invalidParams
  else
    let table_size := 2 ^ table_log_in
    .ok ⟨counts_in, table_log_in, table_size,
      normalizeCounts counts_in table_size, 32, table_size⟩

/-- Number of symbols with nonzero count. -/
def nonzeroCount (counts : List Nat) : Nat :=
  counts.countP (fun c => decide (0 < c))

/-! #### List helpers for the normalization proofs -/

theorem getD_eq_zero_of_le {l : List Nat} {i : Nat} (h : l.length ≤ i) :
    l.getD i 0 = 0 := by
  simp [List.getD_eq_getElem?_getD, List.getElem?_eq_none h]

theorem lt_length_of_getD_pos {l : List Nat} {i : Nat} (h : 0 < l.getD i 0) :
    i < l.length := by
  by_contra hc
  rw [getD_eq_zero_of_le (by omega)] at h
  omega

theorem getD_set_self {l : List Nat} {i : Nat} (x : Nat) (h : i < l.length) :
    (l.set i x).getD i 0 = x := by
  simp [List.getD_eq_getElem?_getD, List.getElem?_set_self h]

theorem getD_set_ne {l : List Nat} {i j : Nat} (x : Nat) (h : i ≠ j) :
    (l.set i x).getD j 0 = l.getD j 0 := by
  simp [List.getD_eq_getElem?_getD, List.getElem?_set_ne h]

theorem sum_set_getD : ∀ (l : List Nat) (i : Nat) (x : Nat), i < l.length →
    (l.set i x).sum + l.getD i 0 = l.sum + x
  | [], i, x, h => by simp at h
  | a :: rest, 0, x, _ => by simp [List.sum_cons]; omega
  | a :: rest, i + 1, x, h => by
    simp only [List.set_cons_succ, List.sum_cons, List.getD_cons_succ]
    have := sum_set_getD rest i x (by simpa using h)
    omega

theorem getD_le_sum : ∀ (l : List Nat) (i : Nat), l.getD i 0 ≤ l.sum
  | [], i => by simp [List.getD]
  | a :: rest, 0 => by simp [List.sum_cons]
  | a :: rest, i + 1 => by
    simp only [List.getD_cons_succ, List.sum_cons]
    have := getD_le_sum rest i
    omega

theorem sum_replicate_set (n i v : Nat) (h : i < n) :
    ((List.replicate n 0).set i v).sum = v := by
  have h1 := sum_set_getD (List.replicate n 0) i v (by simpa using h)
  have h2 : (List.replicate n 0).sum = 0 := by simp
  have h3 : (List.replicate n 0).getD i 0 = 0 := by
    simp [List.getD_eq_getElem?_getD, List.getElem?_replicate, h]
  omega

theorem sum_pos_exists : ∀ (l : List Nat), 0 < l.sum → ∃ t, 0 < l.getD t 0
  | [], h => by simp at h
  | a :: rest, h => by
    rcases Nat.eq_zero_or_pos a with ha | ha
    · have : 0 < rest.sum := by simp [List.sum_cons, ha] at h; omega
      obtain ⟨t, ht⟩ := sum_pos_exists rest this
      exact ⟨t + 1, by simpa using ht⟩
    · exact ⟨0, by simpa using ha⟩

theorem countP_le_of_pointwise :
    ∀ (l₁ l₂ : List Nat), l₁.length = l₂.length →
      (∀ i, 0 < l₁.getD i 0 → 0 < l₂.getD i 0) →
      l₁.countP (fun c => decide (0 < c)) ≤ l₂.countP (fun c => decide (0 < c))
  | [], l₂, _, _ => by simp
  | a :: r₁, [], h, _ => by simp at h
  | a :: r₁, b :: r₂, h, hp => by
    have hr := countP_le_of_pointwise r₁ r₂ (by simpa using h)
      (fun i hi => by simpa using hp (i + 1) (by simpa using hi))
    have hab : 0 < a → 0 < b := fun ha => by simpa using hp 0 (by simpa using ha)
    simp only [List.countP_cons]
    rcases Nat.eq_zero_or_pos a with ha | ha
    · simp [ha]; omega
    · have hb := hab ha
      simp [ha, hb]
      omega

/-! #### Sorted symbol order: permutation, descending counts, head is max -/

theorem insertDesc_perm (counts : List Nat) (s : Nat) :
    ∀ l, (insertDesc counts s l).Perm (s :: l)
  | [] => by simp [insertDesc]
  | t :: rest => by
    unfold insertDesc
    split
    · exact ((insertDesc_perm counts s rest).cons t).trans (List.Perm.swap s t rest)
    · exact List.Perm.refl _

theorem insertDesc_pairwise (counts : List Nat) (s : Nat) :
    ∀ l, l.Pairwise (fun a b => counts.getD b 0 ≤ counts.getD a 0) →
      (insertDesc counts s l).Pairwise (fun a b => counts.getD b 0 ≤ counts.getD a 0)
  | [], _ => by simp [insertDesc]
  | t :: rest, hp => by
    rw [List.pairwise_cons] at hp
    obtain ⟨ht, hrest⟩ := hp
    unfold insertDesc
    split
    · rename_i hlt
      rw [List.pairwise_cons]
      refine ⟨fun b hb => ?_, insertDesc_pairwise counts s rest hrest⟩
      rcases List.mem_cons.mp (((insertDesc_perm counts s rest).mem_iff).mp hb) with rfl | hb
      · omega
      · exact ht b hb
    · rename_i hge
      rw [List.pairwise_cons]
      refine ⟨fun b hb => ?_, by rw [List.pairwise_cons]; exact ⟨ht, hrest⟩⟩
      rcases List.mem_cons.mp hb with hb | hb
      · subst hb; omega
      · have := ht b hb; omega

theorem sortedSymbols_perm (counts : List Nat) :
    (sortedSymbols counts).Perm (List.range counts.length) := by
  unfold sortedSymbols
  generalize List.range counts.length = l
  induction l with
  | nil => simp
  | cons a rest ih =>
    simp only [List.foldr_cons]
    exact (insertDesc_perm counts a _).trans (ih.cons a)

theorem sortedSymbols_pairwise (counts : List Nat) :
    (sortedSymbols counts).Pairwise (fun a b => counts.getD b 0 ≤ counts.getD a 0) := by
  unfold sortedSymbols
  generalize List.range counts.length = l
  induction l with
  | nil => simp
  | cons a rest ih =>
    simp only [List.foldr_cons]
    exact insertDesc_pairwise counts a _ ih

theorem sortedSymbols_nodup (counts : List Nat) : (sortedSymbols counts).Nodup :=
  ((sortedSymbols_perm counts).nodup_iff).mpr (List.nodup_range _)

theorem sortedSymbols_ne_nil (counts : List Nat) (h : counts ≠ []) :
    sortedSymbols counts ≠ [] := by
  have hl : (sortedSymbols counts).length = counts.length :=
    (sortedSymbols_perm counts).length_eq.trans (List.length_range _)
  have : 0 < counts.length := List.length_pos.mpr h
  exact List.ne_nil_of_length_pos (by omega)

theorem sortedSymbols_head (counts : List Nat) (s0 : Nat) (rest : List Nat)
    (h : sortedSymbols counts = s0 :: rest) :
    s0 < counts.length ∧ ∀ t, counts.getD t 0 ≤ counts.getD s0 0 := by
  have hmem : s0 ∈ sortedSymbols counts := by rw [h]; exact List.mem_cons_self s0 rest
  have hs0 : s0 < counts.length := by
    have := ((sortedSymbols_perm counts).mem_iff).mp hmem
    simpa using this
  refine ⟨hs0, fun t => ?_⟩
  rcases lt_or_ge t counts.length with ht | ht
  · have htmem : t ∈ sortedSymbols counts :=
      ((sortedSymbols_perm counts).mem_iff).mpr (by simpa using ht)
    rw [h] at htmem
    rcases List.mem_cons.mp htmem with rfl | htmem
    · exact le_refl _
    · have hp := sortedSymbols_pairwise counts
      rw [h, List.pairwise_cons] at hp
      exact hp.1 t htmem
  · rw [getD_eq_zero_of_le ht]; omega

/-! #### Argmax (`std::max_element`) -/

theorem argmaxAux_lt : ∀ (rest : List Nat) (i best bestVal : Nat), best < i →
    argmaxAux rest i best bestVal < i + rest.length
  | [], i, best, bestVal, h => by simpa [argmaxAux] using h
  | x :: r, i, best, bestVal, h => by
    unfold argmaxAux
    split
    · have := argmaxAux_lt r (i + 1) i x (by omega)
      simp only [List.length_cons]
      omega
    · have := argmaxAux_lt r (i + 1) best bestVal (by omega)
      simp only [List.length_cons]
      omega

theorem argmaxIdx_lt (l : List Nat) (h : l ≠ []) : argmaxIdx l < l.length := by
  match l with
  | [] => exact absurd rfl h
  | x :: rest =>
    have := argmaxAux_lt rest 1 0 x (by omega)
    simp only [argmaxIdx, List.length_cons]
    omega

theorem argmaxAux_ge (counts : List Nat) :
    ∀ (rest : List Nat) (i best bestVal : Nat),
      counts.getD best 0 = bestVal →
      (∀ k, k < rest.length → rest.getD k 0 = counts.getD (i + k) 0) →
      i + rest.length = counts.length →
      (∀ t, t < i → counts.getD t 0 ≤ bestVal) →
      ∀ t, t < counts.length → counts.getD t 0 ≤ counts.getD (argmaxAux rest i best bestVal) 0
  | [], i, best, bestVal, hb, _, halign, hpre, t, ht => by
    unfold argmaxAux
    rw [hb]
    have hi : i = counts.length := by simpa using halign
    exact hpre t (by omega)
  | x :: r, i, best, bestVal, hb, hk, halign, hpre, t, ht => by
    have hx : counts.getD i 0 = x := by
      have := hk 0 (by simp)
      simpa using this.symm
    unfold argmaxAux
    split
    · rename_i hlt
      refine argmaxAux_ge counts r (i + 1) i x hx
        (fun k hkr => ?_) (by simp only [List.length_cons] at halign; omega)
        (fun u hu => ?_) t ht
      · have := hk (k + 1) (by simp; omega)
        simpa [Nat.add_comm, Nat.add_assoc, Nat.add_left_comm] using this
      · rcases Nat.lt_succ_iff_lt_or_eq.mp hu with hu | hu
        · have := hpre u hu; omega
        · subst hu; omega
    · rename_i hge
      refine argmaxAux_ge counts r (i + 1) best bestVal hb
        (fun k hkr => ?_) (by simp only [List.length_cons] at halign; omega)
        (fun u hu => ?_) t ht
      · have := hk (k + 1) (by simp; omega)
        simpa [Nat.add_comm, Nat.add_assoc, Nat.add_left_comm] using this
      · rcases Nat.lt_succ_iff_lt_or_eq.mp hu with hu | hu
        · exact hpre u hu
        · subst hu; omega

theorem argmaxIdx_ge (l : List Nat) : ∀ t, l.getD t 0 ≤ l.getD (argmaxIdx l) 0 := by
  intro t
  match l with
  | [] => simp [List.getD]
  | x :: rest =>
    rcases lt_or_ge t (x :: rest).length with ht | ht
    · refine argmaxAux_ge (x :: rest) rest 1 0 x (by simp)
        (fun k hk => ?_) (by simp only [List.length_cons]; omega) (fun u hu => ?_) t ht
      · have : 1 + k = k + 1 := by omega
        rw [this]; simp
      · interval_cases u
        simp
    · rw [getD_eq_zero_of_le ht]; omega

/-! #### Initial allocation -/

theorem getD_map_zero (f : Nat → Nat) (hf : f 0 = 0) (l : List Nat) (s : Nat) :
    (l.map f).getD s 0 = f (l.getD s 0) := by
  simp only [List.getD_eq_getElem?_getD, List.getElem?_map]
  cases h : l[s]? with
  | none => simp [hf]
  | some v => simp

theorem initialNormalized_length (c : List Nat) (ts tot : Nat) :
    (initialNormalized c ts tot).length = c.length := by
  simp [initialNormalized]

theorem initialNormalized_getD (c : List Nat) (ts tot s : Nat) :
    (initialNormalized c ts tot).getD s 0 =
      if c.getD s 0 = 0 then 0
      else if round_ties_to_even (c.getD s 0 * ts) tot = 0 then 1
      else round_ties_to_even (c.getD s 0 * ts) tot := by
  unfold initialNormalized
  rw [getD_map_zero _ (by simp) c s]

theorem initialNormalized_pos_iff (c : List Nat) (ts tot s : Nat) :
    1 ≤ (initialNormalized c ts tot).getD s 0 ↔ 0 < c.getD s 0 := by
  rw [initialNormalized_getD]
  rcases Nat.eq_zero_or_pos (c.getD s 0) with h | h
  · rw [h]; simp
  · rw [if_neg (by omega)]
    constructor
    · intro _; exact h
    · intro _; split <;> omega

/-! #### First adjustment loop -/

theorem adjustLoop_zero_diff : ∀ (fuel : Nat) (norm syms : List Nat) (step : Int),
    adjustLoop fuel norm syms 0 step = (norm, 0)
  | 0, _, _, _ => rfl
  | fuel + 1, norm, syms, step => by simp [adjustLoop]

theorem adjustLoop_cons_apply (fuel : Nat) (norm : List Nat) (s : Nat) (rest : List Nat)
    (d step : Int) (hd : d ≠ 0) (hc : 0 < (norm.getD s 0 : Int) + step) :
    adjustLoop (fuel + 1) norm (s :: rest) d step =
      adjustLoop fuel (norm.set s ((norm.getD s 0 : Int) + step).toNat) (s :: rest)
        (d - step) step := by
  rw [adjustLoop, if_neg hd]
  dsimp only
  rw [if_pos hc]

theorem adjustLoop_cons_skip (fuel : Nat) (norm : List Nat) (s : Nat) (rest : List Nat)
    (d step : Int) (hd : d ≠ 0) (hc : ¬ 0 < (norm.getD s 0 : Int) + step) :
    adjustLoop (fuel + 1) norm (s :: rest) d step = adjustLoop fuel norm rest d step := by
  rw [adjustLoop, if_neg hd]
  dsimp only
  rw [if_neg hc]

theorem adjustLoop_nil (fuel : Nat) (norm : List Nat) (d step : Int) (hd : d ≠ 0) :
    adjustLoop (fuel + 1) norm [] d step = (norm, d) := by
  rw [adjustLoop, if_neg hd]

theorem adjustLoop_up : ∀ (fuel : Nat) (d : Int) (norm : List Nat) (s : Nat)
    (rest : List Nat), 0 < d → d.natAbs ≤ fuel → s < norm.length →
    adjustLoop fuel norm (s :: rest) d 1 =
      (norm.set s (norm.getD s 0 + d.toNat), 0)
  | 0, d, _, _, _, hd, hf, _ => by
    exfalso
    omega
  | fuel + 1, d, norm, s, rest, hd, hf, hs => by
    have hd0 : d ≠ 0 := by omega
    have hcand : (0 : Int) < (norm.getD s 0 : Int) + 1 := by omega
    rw [adjustLoop_cons_apply fuel norm s rest d 1 hd0 hcand]
    have htn : ((norm.getD s 0 : Int) + 1).toNat = norm.getD s 0 + 1 := by omega
    rw [htn]
    rcases eq_or_ne d 1 with rfl | hne
    · have h0 : (1 : Int) - 1 = 0 := by omega
      rw [h0, adjustLoop_zero_diff]
      simp
    · have hrec := adjustLoop_up fuel (d - 1) (norm.set s (norm.getD s 0 + 1)) s rest
        (by omega) (by omega) (by simpa using hs)
      rw [hrec, getD_set_self _ hs, List.set_set]
      have harith : norm.getD s 0 + 1 + (d - 1).toNat = norm.getD s 0 + d.toNat := by omega
      rw [harith]

theorem adjustLoop_down : ∀ (fuel : Nat) (norm syms : List Nat) (d : Int), d ≤ 0 →
    ∀ nm dm, adjustLoop fuel norm syms d (-1) = (nm, dm) →
      nm.length = norm.length ∧
      (nm.sum : Int) + dm = (norm.sum : Int) + d ∧
      dm ≤ 0 ∧
      (∀ t, nm.getD t 0 ≤ norm.getD t 0) ∧
      (∀ t, 1 ≤ norm.getD t 0 → 1 ≤ nm.getD t 0) := by
  intro fuel
  induction fuel with
  | zero =>
    intro norm syms d hd nm dm h
    simp only [adjustLoop] at h
    injection h with h1 h2
    subst h1; subst h2
    exact ⟨rfl, by omega, hd, fun t => le_refl _, fun t ht => ht⟩
  | succ fuel ih =>
    intro norm syms d hd nm dm h
    by_cases hd0 : d = 0
    · subst hd0
      rw [adjustLoop_zero_diff] at h
      injection h with h1 h2
      subst h1; subst h2
      exact ⟨rfl, by omega, by omega, fun t => le_refl _, fun t ht => ht⟩
    · match syms with
      | [] =>
        rw [adjustLoop_nil fuel norm d (-1) hd0] at h
        injection h with h1 h2
        subst h1; subst h2
        exact ⟨rfl, by omega, hd, fun t => le_refl _, fun t ht => ht⟩
      | s :: rest =>
        by_cases hc : (0 : Int) < (norm.getD s 0 : Int) + (-1)
        · rw [adjustLoop_cons_apply fuel norm s rest d (-1) hd0 hc] at h
          have h2' : 2 ≤ norm.getD s 0 := by omega
          have hs : s < norm.length := lt_length_of_getD_pos (by omega)
          have hv : ((norm.getD s 0 : Int) + (-1)).toNat = norm.getD s 0 - 1 := by omega
          have hdm1 : d - (-1) = d + 1 := by omega
          rw [hv, hdm1] at h
          obtain ⟨l1, l2, l3, l4, l5⟩ :=
            ih (norm.set s (norm.getD s 0 - 1)) (s :: rest) (d + 1) (by omega) nm dm h
          have hsum := sum_set_getD norm s (norm.getD s 0 - 1) hs
          refine ⟨by rw [l1]; simp, by omega, l3, fun t => ?_, fun t ht => ?_⟩
          · have := l4 t
            rcases eq_or_ne s t with rfl | hne
            · rw [getD_set_self _ hs] at this; omega
            · rw [getD_set_ne _ hne] at this; omega
          · rcases eq_or_ne s t with rfl | hne
            · exact l5 s (by rw [getD_set_self _ hs]; omega)
            · exact l5 t (by rw [getD_set_ne _ hne]; omega)
        · rw [adjustLoop_cons_skip fuel norm s rest d (-1) hd0 hc] at h
          exact ih norm rest d hd nm dm h

/-! #### Second adjustment loop: slack, pass, loop -/

/-- Total room for decrements among the entries indexed by `syms`. -/
def slackOn (norm : List Nat) (syms : List Nat) : Nat :=
  (syms.map (fun s => norm.getD s 0 - 1)).sum

theorem slackOn_nil (norm : List Nat) : slackOn norm [] = 0 := rfl

theorem slackOn_cons (norm : List Nat) (s : Nat) (rest : List Nat) :
    slackOn norm (s :: rest) = (norm.getD s 0 - 1) + slackOn norm rest := by
  simp [slackOn]

theorem slackOn_congr : ∀ (syms : List Nat) (n1 n2 : List Nat),
    (∀ t ∈ syms, n1.getD t 0 = n2.getD t 0) → slackOn n1 syms = slackOn n2 syms
  | [], _, _, _ => rfl
  | s :: rest, n1, n2, h => by
    rw [slackOn_cons, slackOn_cons, h s (by simp),
      slackOn_congr rest n1 n2 (fun t ht => h t (by simp [ht]))]

theorem passTwo_nil (norm : List Nat) (d : Int) (ch : Bool) :
    passTwo norm [] d ch = (norm, d, ch) := rfl

theorem passTwo_cons_dec_stop (norm : List Nat) (s : Nat) (rest : List Nat) (d : Int)
    (ch : Bool) (hd : ¬ (0 : Int) < d) (h1 : 1 < norm.getD s 0) (hd1 : d + 1 = 0) :
    passTwo norm (s :: rest) d ch = (norm.set s (norm.getD s 0 - 1), d + 1, true) := by
  rw [passTwo, if_neg hd, if_pos h1]
  dsimp only
  rw [if_pos hd1]

theorem passTwo_cons_dec (norm : List Nat) (s : Nat) (rest : List Nat) (d : Int)
    (ch : Bool) (hd : ¬ (0 : Int) < d) (h1 : 1 < norm.getD s 0) (hd1 : d + 1 ≠ 0) :
    passTwo norm (s :: rest) d ch =
      passTwo (norm.set s (norm.getD s 0 - 1)) rest (d + 1) true := by
  rw [passTwo, if_neg hd, if_pos h1]
  dsimp only
  rw [if_neg hd1]

theorem passTwo_cons_skip (norm : List Nat) (s : Nat) (rest : List Nat) (d : Int)
    (ch : Bool) (hd : ¬ (0 : Int) < d) (hd0 : d ≠ 0) (h1 : ¬ 1 < norm.getD s 0) :
    passTwo norm (s :: rest) d ch = passTwo norm rest d ch := by
  rw [passTwo, if_neg hd, if_neg h1]
  dsimp only
  rw [if_neg hd0]

/-- Full specification of one decrementing pass (`diff < 0`) over distinct
symbol indices: sizes are preserved, `sum + diff` is invariant, `diff` moves
toward zero by exactly the number of decrements (which the slack accounts
for), entries only ever shrink but never below 1, a pass over symbols with
positive slack makes strict progress, any modification sets the changed
flag, and entries outside `syms` are untouched. -/
theorem passTwo_down_spec : ∀ (syms norm : List Nat) (d : Int) (ch : Bool),
    d < 0 → syms.Nodup →
    ∀ bm dm ch2, passTwo norm syms d ch = (bm, dm, ch2) →
      bm.length = norm.length ∧
      (bm.sum : Int) + dm = (norm.sum : Int) + d ∧
      d ≤ dm ∧ dm ≤ 0 ∧
      (∀ t, bm.getD t 0 ≤ norm.getD t 0) ∧
      (∀ t, 1 ≤ norm.getD t 0 → 1 ≤ bm.getD t 0) ∧
      slackOn bm syms + (dm - d).toNat = slackOn norm syms ∧
      (0 < slackOn norm syms → d < dm) ∧
      ((ch = true ∨ d < dm) → ch2 = true) ∧
      (∀ t, t ∉ syms → bm.getD t 0 = norm.getD t 0)
  | [], norm, d, ch, hd, _, bm, dm, ch2, h => by
    rw [passTwo_nil] at h
    injection h with h1 h2
    injection h2 with h2 h3
    subst h1; subst h2; subst h3
    refine ⟨rfl, by omega, by omega, by omega, fun t => le_refl _, fun t ht => ht,
      by simp [slackOn_nil], by simp [slackOn_nil], fun hch => ?_, fun t _ => rfl⟩
    rcases hch with hch | hch
    · exact hch
    · omega
  | s :: rest, norm, d, ch, hd, hnd, bm, dm, ch2, h => by
    rw [List.nodup_cons] at hnd
    obtain ⟨hs, hnd⟩ := hnd
    have hd' : ¬ (0 : Int) < d := by omega
    by_cases h1 : 1 < norm.getD s 0
    · have hslen : s < norm.length := lt_length_of_getD_pos (by omega)
      by_cases hd1 : d + 1 = 0
      · rw [passTwo_cons_dec_stop norm s rest d ch hd' h1 hd1] at h
        injection h with e1 e2
        injection e2 with e2 e3
        subst e1; subst e2; subst e3
        have hsum := sum_set_getD norm s (norm.getD s 0 - 1) hslen
        have hsets : (norm.set s (norm.getD s 0 - 1)).getD s 0 = norm.getD s 0 - 1 :=
          getD_set_self _ hslen
        have hslackr : slackOn (norm.set s (norm.getD s 0 - 1)) rest = slackOn norm rest :=
          slackOn_congr rest _ norm
            (fun t ht => getD_set_ne _ (fun he => hs (he ▸ ht)))
        refine ⟨by simp, by omega, by omega, by omega, fun t => ?_, fun t ht => ?_,
          ?_, fun _ => by omega, fun _ => rfl, fun t htm => ?_⟩
        · rcases eq_or_ne s t with rfl | hne
          · rw [hsets]; omega
          · rw [getD_set_ne _ hne]
        · rcases eq_or_ne s t with rfl | hne
          · rw [hsets]; omega
          · rw [getD_set_ne _ hne]; omega
        · rw [slackOn_cons, slackOn_cons, hsets, hslackr]
          omega
        · exact getD_set_ne _ (fun he => htm (by rw [← he]; exact List.mem_cons_self s rest))
      · rw [passTwo_cons_dec norm s rest d ch hd' h1 hd1] at h
        obtain ⟨ihlen, ihsum, ihd1, ihd2, ihmono, ihone, ihslack, ihprog, ihch, ihframe⟩ :=
          passTwo_down_spec rest (norm.set s (norm.getD s 0 - 1)) (d + 1) true
            (by omega) hnd bm dm ch2 h
        have hsum := sum_set_getD norm s (norm.getD s 0 - 1) hslen
        have hsets : (norm.set s (norm.getD s 0 - 1)).getD s 0 = norm.getD s 0 - 1 :=
          getD_set_self _ hslen
        have hslackr : slackOn (norm.set s (norm.getD s 0 - 1)) rest = slackOn norm rest :=
          slackOn_congr rest _ norm
            (fun t ht => getD_set_ne _ (fun he => hs (he ▸ ht)))
        refine ⟨by rw [ihlen]; simp, by omega, by omega, by omega, fun t => ?_,
          fun t ht => ?_, ?_, fun _ => by omega, fun _ => ihch (Or.inl rfl), fun t htm => ?_⟩
        · have := ihmono t
          rcases eq_or_ne s t with rfl | hne
          · rw [hsets] at this; omega
          · rw [getD_set_ne _ hne] at this; omega
        · rcases eq_or_ne s t with rfl | hne
          · exact ihone s (by rw [hsets]; omega)
          · exact ihone t (by rw [getD_set_ne _ hne]; omega)
        · have hbs : bm.getD s 0 = norm.getD s 0 - 1 := by
            rw [ihframe s hs, hsets]
          rw [slackOn_cons, slackOn_cons, hbs]
          rw [hslackr] at ihslack
          omega
        · have htr : t ∉ rest := fun hin => htm (List.mem_cons_of_mem s hin)
          rw [ihframe t htr,
            getD_set_ne _ (fun he => htm (by rw [← he]; exact List.mem_cons_self s rest))]
    · have hd0 : d ≠ 0 := by omega
      rw [passTwo_cons_skip norm s rest d ch hd' hd0 h1] at h
      obtain ⟨ihlen, ihsum, ihd1, ihd2, ihmono, ihone, ihslack, ihprog, ihch, ihframe⟩ :=
        passTwo_down_spec rest norm d ch hd hnd bm dm ch2 h
      have hbs : bm.getD s 0 = norm.getD s 0 := ihframe s hs
      refine ⟨ihlen, ihsum, ihd1, ihd2, ihmono, ihone, ?_, ?_, ihch, fun t htm => ?_⟩
      · rw [slackOn_cons, slackOn_cons, hbs]
        omega
      · rw [slackOn_cons]
        intro hpos
        exact ihprog (by omega)
      · exact ihframe t (fun hin => htm (List.mem_cons_of_mem s hin))

theorem loopTwo_zero : ∀ (fuel : Nat) (norm syms : List Nat),
    loopTwo fuel norm syms 0 = norm
  | 0, _, _ => rfl
  | fuel + 1, norm, syms => by simp [loopTwo]

theorem loopTwo_step (fuel : Nat) (norm syms : List Nat) (d : Int) (hd : d ≠ 0)
    (bm : List Nat) (dm : Int) (ch2 : Bool)
    (hr : passTwo norm syms d false = (bm, dm, ch2)) :
    loopTwo (fuel + 1) norm syms d = if ch2 = false then bm else loopTwo fuel bm syms dm := by
  rw [loopTwo, if_neg hd, hr]

/-- Preservation through the second loop: entries only shrink and never
drop below 1, and the length is unchanged. -/
theorem loopTwo_pres : ∀ (fuel : Nat) (norm syms : List Nat) (d : Int), d ≤ 0 →
    syms.Nodup →
    (loopTwo fuel norm syms d).length = norm.length ∧
    (∀ t, (loopTwo fuel norm syms d).getD t 0 ≤ norm.getD t 0) ∧
    (∀ t, 1 ≤ norm.getD t 0 → 1 ≤ (loopTwo fuel norm syms d).getD t 0)
  | 0, norm, syms, d, _, _ => ⟨rfl, fun t => le_refl _, fun t ht => ht⟩
  | fuel + 1, norm, syms, d, hd, hnd => by
    by_cases hd0 : d = 0
    · subst hd0
      rw [loopTwo_zero]
      exact ⟨rfl, fun t => le_refl _, fun t ht => ht⟩
    · rcases hr : passTwo norm syms d false with ⟨bm, dmch⟩
      rcases dmch with ⟨dm, ch2⟩
      obtain ⟨ihlen, _, _, ihd2, ihmono, ihone, _, _, _, _⟩ :=
        passTwo_down_spec syms norm d false (by omega) hnd bm dm ch2 hr
      rw [loopTwo_step fuel norm syms d hd0 bm dm ch2 hr]
      by_cases hch : ch2 = false
      · rw [if_pos hch]
        exact ⟨ihlen, ihmono, ihone⟩
      · rw [if_neg hch]
        obtain ⟨jlen, jmono, jone⟩ := loopTwo_pres fuel bm syms dm ihd2 hnd
        exact ⟨jlen.trans ihlen, fun t => (jmono t).trans (ihmono t),
          fun t ht => jone t (ihone t ht)⟩

/-- Convergence of the second loop: when the deficit is negative, the fuel
covers it, the symbol list is duplicate-free and the slack over `syms` can
absorb the whole deficit, the loop ends with sum exactly `ts`. -/
theorem loopTwo_conv : ∀ (fuel : Nat) (norm syms : List Nat) (d : Int) (ts : Nat),
    d < 0 → d.natAbs ≤ fuel → syms.Nodup →
    (norm.sum : Int) + d = (ts : Int) →
    d.natAbs ≤ slackOn norm syms →
    (loopTwo fuel norm syms d).sum = ts
  | 0, norm, syms, d, ts, hd, hf, _, _, _ => by exfalso; omega
  | fuel + 1, norm, syms, d, ts, hd, hf, hnd, hsum, hslack => by
    have hd0 : d ≠ 0 := by omega
    rcases hr : passTwo norm syms d false with ⟨bm, dmch⟩
    rcases dmch with ⟨dm, ch2⟩
    obtain ⟨ihlen, ihsum, ihd1, ihd2, ihmono, ihone, ihslack, ihprog, ihch, ihframe⟩ :=
      passTwo_down_spec syms norm d false hd hnd bm dm ch2 hr
    rw [loopTwo_step fuel norm syms d hd0 bm dm ch2 hr]
    have hchtrue : ch2 = true := ihch (Or.inr (ihprog (by omega)))
    rw [hchtrue, if_neg (by decide : ¬ (true = false))]
    rcases eq_or_ne dm 0 with rfl | hdm0
    · rw [loopTwo_zero]
      omega
    · exact loopTwo_conv fuel bm syms dm ts (by omega) (by omega) hnd (by omega) (by omega)

/-! #### Slack over the full index range -/

theorem slackOn_append (norm : List Nat) (a b : List Nat) :
    slackOn norm (a ++ b) = slackOn norm a + slackOn norm b := by
  simp [slackOn]

theorem slackOn_perm (n : List Nat) {s1 s2 : List Nat} (h : s1.Perm s2) :
    slackOn n s1 = slackOn n s2 :=
  (h.map _).sum_eq

theorem getD_append_left {l₁ l₂ : List Nat} {i : Nat} (h : i < l₁.length) :
    (l₁ ++ l₂).getD i 0 = l₁.getD i 0 := by
  simp [List.getD_eq_getElem?_getD, List.getElem?_append_left h]

theorem getD_concat_length (l : List Nat) (x : Nat) : (l ++ [x]).getD l.length 0 = x := by
  simp [List.getD_eq_getElem?_getD, List.getElem?_concat_length]

theorem slack_range_aux (norm : List Nat) :
    slackOn norm (List.range norm.length) + nonzeroCount norm = norm.sum := by
  induction norm using List.reverseRecOn with
  | nil => rfl
  | append_singleton xs x ih =>
    rw [List.length_append]
    simp only [List.length_singleton]
    rw [List.range_succ, slackOn_append]
    have h1 : slackOn (xs ++ [x]) (List.range xs.length) = slackOn xs (List.range xs.length) :=
      slackOn_congr (List.range xs.length) (xs ++ [x]) xs
        (fun t ht => getD_append_left (by simpa using ht))
    have h2 : slackOn (xs ++ [x]) [xs.length] = x - 1 := by
      rw [show ([xs.length] : List Nat) = xs.length :: [] from rfl, slackOn_cons, slackOn_nil,
        getD_concat_length]
      omega
    rcases Nat.eq_zero_or_pos x with hx | hx
    · subst hx
      have h3 : nonzeroCount (xs ++ [0]) = nonzeroCount xs := by simp [nonzeroCount]
      rw [h1, h2, h3, List.sum_append]
      simp
      omega
    · have h3 : nonzeroCount (xs ++ [x]) = nonzeroCount xs + 1 := by
        simp [nonzeroCount, hx]
      rw [h1, h2, h3, List.sum_append]
      simp
      omega

/-! #### The normalization pipeline: master specification -/

/-- The normalization pipeline, for any nonempty histogram with positive
total and positive table size: the output has the input's length, sums to
exactly `table_size`, and every symbol receiving at least one slot has a
nonzero count.  When moreover the number of nonzero-count symbols does not
exceed `table_size`, every nonzero-count symbol receives at least one slot
(without that cap the last-resort collapse can zero such symbols). -/
theorem normalizeCounts_spec (counts : List Nat) (ts : Nat)
    (hne : counts ≠ []) (htot : 0 < counts.sum) (hts : 0 < ts) :
    (normalizeCounts counts ts).length = counts.length ∧
    (normalizeCounts counts ts).sum = ts ∧
    (∀ s, 1 ≤ (normalizeCounts counts ts).getD s 0 → 0 < counts.getD s 0) ∧
    (nonzeroCount counts ≤ ts →
      ∀ s, 0 < counts.getD s 0 → 1 ≤ (normalizeCounts counts ts).getD s 0) := by
  obtain ⟨t0, ht0⟩ := sum_pos_exists counts htot
  simp only [normalizeCounts]
  set n0 := initialNormalized counts ts counts.sum with hn0
  have hlen0 : n0.length = counts.length := initialNormalized_length counts ts counts.sum
  have hpos0 : ∀ s, 1 ≤ n0.getD s 0 ↔ 0 < counts.getD s 0 := fun s =>
    initialNormalized_pos_iff counts ts counts.sum s
  set d : Int := (ts : Int) - (n0.sum : Int) with hd
  set syms := sortedSymbols counts with hsyms
  have hnodup : syms.Nodup := by rw [hsyms]; exact sortedSymbols_nodup counts
  rcases lt_trichotomy d 0 with hdlt | hdeq | hdgt
  · -- first loop runs downward
    have hd0 : d ≠ 0 := by omega
    rw [if_pos hd0, if_neg (show ¬ 0 < d by omega)]
    rcases hal : adjustLoop (d.natAbs + syms.length) n0 syms d (-1) with ⟨nm, dm⟩
    dsimp only
    obtain ⟨l1, l2, l3, l4, l5⟩ :=
      adjustLoop_down (d.natAbs + syms.length) n0 syms d (by omega) nm dm hal
    have hcnm : ∀ s, 1 ≤ nm.getD s 0 → 0 < counts.getD s 0 := fun s hs =>
      (hpos0 s).mp (le_trans hs (l4 s))
    have hnmge : (ts : Int) ≤ (nm.sum : Int) := by omega
    by_cases hcs : nm.sum = ts
    · rw [if_neg (show ¬ nm.sum ≠ ts from fun hcon => hcon hcs)]
      refine ⟨l1.trans hlen0, hcs, hcnm, fun _ s hcnt => ?_⟩
      exact l5 s ((hpos0 s).mpr hcnt)
    · rw [if_pos hcs]
      set d2 : Int := (ts : Int) - (nm.sum : Int) with hd2
      have hd2lt : d2 < 0 := by omega
      by_cases h3 : (loopTwo (d2.natAbs + 1) nm syms d2).sum = ts
      · rw [if_neg (fun hcon => hcon h3)]
        obtain ⟨jlen, jmono, jone⟩ := loopTwo_pres (d2.natAbs + 1) nm syms d2 (by omega) hnodup
        refine ⟨jlen.trans (l1.trans hlen0), h3, fun s hs1 => ?_, fun _ s hcnt => ?_⟩
        · exact hcnm s (le_trans hs1 (jmono s))
        · exact jone s (l5 s ((hpos0 s).mpr hcnt))
      · rw [if_pos h3]
        have hargl : argmaxIdx counts < counts.length := argmaxIdx_lt counts hne
        have hargpos : 0 < counts.getD (argmaxIdx counts) 0 :=
          lt_of_lt_of_le ht0 (argmaxIdx_ge counts t0)
        refine ⟨by simp, sum_replicate_set counts.length (argmaxIdx counts) ts hargl,
          fun s hs1 => ?_, fun hnz s hcnt => ?_⟩
        · rcases eq_or_ne (argmaxIdx counts) s with rfl | hne2
          · exact hargpos
          · rw [getD_set_ne _ hne2] at hs1
            have : (List.replicate counts.length 0).getD s 0 = 0 := by
              rcases lt_or_ge s counts.length with hlt | hge
              · simp [List.getD_eq_getElem?_getD, List.getElem?_replicate, hlt]
              · exact getD_eq_zero_of_le (by simpa using hge)
            omega
        · -- the collapse cannot fire when nonzero symbols fit the table
          exfalso
          have hnmlen : nm.length = counts.length := l1.trans hlen0
          have hslackperm : slackOn nm syms = slackOn nm (List.range counts.length) := by
            rw [hsyms]
            exact slackOn_perm nm (sortedSymbols_perm counts)
          have hslackrange := slack_range_aux nm
          rw [hnmlen] at hslackrange
          have hnzle : nonzeroCount nm ≤ nonzeroCount counts :=
            countP_le_of_pointwise nm counts hnmlen (fun i hi => hcnm i hi)
          have hconv := loopTwo_conv (d2.natAbs + 1) nm syms d2 ts hd2lt (by omega)
            hnodup (by omega) (by omega)
          exact h3 hconv
  · -- allocation already exact
    rw [hdeq]
    have hsum0 : n0.sum = ts := by omega
    rw [if_neg (show ¬ (0 : Int) ≠ 0 from fun hcon => hcon rfl), hsum0,
      if_neg (show ¬ ts ≠ ts from fun hcon => hcon rfl)]
    exact ⟨hlen0, hsum0, fun s hs1 => (hpos0 s).mp hs1,
      fun _ s hcnt => (hpos0 s).mpr hcnt⟩
  · -- first loop runs upward: closed form on the head symbol
    have hd0 : d ≠ 0 := by omega
    rw [if_pos hd0, if_pos hdgt]
    rcases hsym : sortedSymbols counts with _ | ⟨s0, rest0⟩
    · exact absurd hsym (sortedSymbols_ne_nil counts hne)
    rw [hsym] at hsyms
    rw [hsyms]
    obtain ⟨hs0lt, hs0max⟩ := sortedSymbols_head counts s0 rest0 hsym
    have hs0pos : 0 < counts.getD s0 0 := lt_of_lt_of_le ht0 (hs0max t0)
    have hup := adjustLoop_up (d.natAbs + (s0 :: rest0).length) d n0 s0 rest0 hdgt
      (Nat.le_add_right _ _) (by rw [hlen0]; exact hs0lt)
    rw [hup]
    dsimp only
    have hsum := sum_set_getD n0 s0 (n0.getD s0 0 + d.toNat) (by rw [hlen0]; exact hs0lt)
    have hs1 : (n0.set s0 (n0.getD s0 0 + d.toNat)).sum = ts := by omega
    rw [hs1, if_neg (show ¬ ts ≠ ts from fun hcon => hcon rfl)]
    refine ⟨by rw [List.length_set]; exact hlen0, hs1, fun s hsge => ?_, fun _ s hcnt => ?_⟩
    · rcases eq_or_ne s0 s with rfl | hne2
      · exact hs0pos
      · rw [getD_set_ne _ hne2] at hsge
        exact (hpos0 s).mp hsge
    · rcases eq_or_ne s0 s with rfl | hne2
      · rw [getD_set_self _ (by rw [hlen0]; exact hs0lt)]
        have := (hpos0 s0).mpr hcnt
        omega
      · rw [getD_set_ne _ hne2]
        exact (hpos0 s).mpr hcnt

/-! #### Constructor inversion and the C2 / C4 claims -/

theorem FSEParams_make_ok (counts_in : List Nat) (table_log_in : Nat) (p : FSEParams)
    (h : FSEParams.make counts_in table_log_in = .ok p) :
    table_log_in ≤ 16 ∧ counts_in ≠ [] ∧ 0 < counts_in.sum ∧
    p = ⟨counts_in, table_log_in, 2 ^ table_log_in,
      normalizeCounts counts_in (2 ^ table_log_in), 32, 2 ^ table_log_in⟩ := by
  unfold FSEParams.make at h
  by_cases h1 : 16 < table_log_in
  · rw [if_pos h1] at h; exact Except.noConfusion h
  rw [if_neg h1] at h
  by_cases h2 : counts_in.isEmpty
  · rw [if_pos h2] at h; exact Except.noConfusion h
  rw [if_neg h2] at h
  by_cases h3 : counts_in.sum = 0
  · rw [if_pos h3] at h; exact Except.noConfusion h
  rw [if_neg h3] at h
  dsimp only at h
  refine ⟨by omega, ?_, by omega, ?_⟩
  · intro hnil
    subst hnil
    exact h2 rfl
  · injection h with h4
    exact h4.symm

/-- C2: for every histogram accepted by the `FSEParams` constructor, the
normalized vector has the histogram's length and sums exactly to
`table_size`; every symbol granted at least one slot has nonzero count; and
under the additional premise that the number of nonzero-count symbols does
not exceed `table_size`, every nonzero-count symbol is granted at least one
slot.  (The unconditional `normalized[s] ≥ 1 ⇔ counts[s] > 0` of the claim
is refuted by `claim_c2_counterexample`: the last-resort collapse keeps
only the most frequent symbol.) -/
theorem claim_c2_normalized_sum_support (counts : List Nat) (table_log : Nat)
    (p : FSEParams) (h : FSEParams.make counts table_log = .ok p) :
    p.normalized.length = counts.length ∧
    p.normalized.sum = p.table_size ∧
    (∀ s, 1 ≤ p.normalized.getD s 0 → 0 < counts.getD s 0) ∧
    (nonzeroCount counts ≤ p.table_size →
      ∀ s, 0 < counts.getD s 0 → 1 ≤ p.normalized.getD s 0) := by
  obtain ⟨htl, hne, htot, hp⟩ := FSEParams_make_ok counts table_log p h
  subst hp
  exact normalizeCounts_spec counts (2 ^ table_log) hne htot
    (Nat.pos_pow_of_pos _ (by omega))

/-- C2 counterexample: three symbols of count 1 with `table_log = 1`
(`table_size = 2`, three nonzero counts) trigger the last-resort collapse:
symbol 1 has nonzero count but receives zero slots, refuting
`normalized[s] ≥ 1 ⇔ counts[s] > 0` as stated. -/
theorem claim_c2_counterexample :
    FSEParams.make [1, 1, 1] 1 = .ok ⟨[1, 1, 1], 1, 2, [2, 0, 0], 32, 2⟩ ∧
    0 < ([1, 1, 1] : List Nat).getD 1 0 ∧ ([2, 0, 0] : List Nat).getD 1 0 = 0 :=
  ⟨by rfl, by decide, by decide⟩

/-- C2 witness: the amended theorem applied to the concrete accepted input
`counts = [3, 1]`, `table_log = 2`. -/
theorem claim_c2_witness :
    (FSEParams.make [3, 1] 2 = .ok ⟨[3, 1], 2, 4, [3, 1], 32, 4⟩) ∧
    (⟨[3, 1], 2, 4, [3, 1], 32, 4⟩ : FSEParams).normalized.sum =
      (⟨[3, 1], 2, 4, [3, 1], 32, 4⟩ : FSEParams).table_size :=
  ⟨by rfl,
    (claim_c2_normalized_sum_support [3, 1] 2 ⟨[3, 1], 2, 4, [3, 1], 32, 4⟩ (by rfl)).2.1⟩

/-- C4: the `FSEParams` constructor rejects with `InvalidParams` exactly
when `table_log > 16` (not 15 as claimed), `counts` is empty, or the total
is zero; in every other case construction succeeds.  The boundary
`table_log = 16` is accepted by the code, refuting the claimed 15-bit cap
(see `claim_c4_counterexample`). -/
theorem claim_c4_param_check (counts : List Nat) (table_log : Nat) :
    (FSEParams.make counts table_log = .error .invalidParams ↔
      (16 < table_log ∨ counts = [] ∨ counts.sum = 0)) ∧
    (¬ (16 < table_log ∨ counts = [] ∨ counts.sum = 0) →
      FSEParams.make counts table_log =
        .ok ⟨counts, table_log, 2 ^ table_log,
          normalizeCounts counts (2 ^ table_log), 32, 2 ^ table_log⟩) := by
  have hok : ¬ (16 < table_log ∨ counts = [] ∨ counts.sum = 0) →
      FSEParams.make counts table_log =
        .ok ⟨counts, table_log, 2 ^ table_log,
          normalizeCounts counts (2 ^ table_log), 32, 2 ^ table_log⟩ := by
    intro hc
    push_neg at hc
    obtain ⟨h1, h2, h3⟩ := hc
    have hie : counts.isEmpty = false := by
      cases counts with
      | nil => exact absurd rfl h2
      | cons a l => rfl
    unfold FSEParams.make
    rw [if_neg (by omega), if_neg (by simp [hie]), if_neg h3]
  refine ⟨⟨fun h => ?_, fun h => ?_⟩, hok⟩
  · by_contra hc
    rw [hok hc] at h
    exact Except.noConfusion h
  · unfold FSEParams.make
    by_cases h1 : 16 < table_log
    · rw [if_pos h1]
    · by_cases h2 : counts.isEmpty
      · rw [if_neg h1, if_pos h2]
      · rcases h with h | h | h
        · omega
        · subst h
          exact absurd rfl h2
        · rw [if_neg h1, if_neg h2, if_pos h]

/-- C4 counterexample: `table_log = 16` is above the claimed 15-bit cap yet
accepted (the source checks `table_log_in > 16`). -/
theorem claim_c4_counterexample :
    FSEParams.make [1] 16 = .ok ⟨[1], 16, 65536, [65536], 32, 65536⟩ := by rfl

/-- C4 witness: both directions of the amended check at concrete inputs:
`table_log = 17` is rejected and `[1]` with `table_log = 16` is accepted. -/
theorem claim_c4_witness :
    FSEParams.make [1] 17 = .error .invalidParams ∧
    FSEParams.make [1] 16 =
      .ok ⟨[1], 16, 2 ^ 16, normalizeCounts [1] (2 ^ 16), 32, 2 ^ 16⟩ :=
  ⟨(claim_c4_param_check [1] 17).1.mpr (Or.inl (by omega)),
    (claim_c4_param_check [1] 16).2 (by simp)⟩

/-! ### Table construction (`fse.cpp`, `FSETables::FSETables`)

The constructor spreads `normalized[s]` copies of each symbol over the
`table_size` slots with the co-prime-step walk (with a linear-scan
fallback), then derives the decode table, the encode table `tableU16`
and the per-symbol transforms `symTT` from the spread.  Empty spread
slots hold `UINT32_MAX` in the source; the model uses `Option Nat`
(`none` = empty), which cannot collide with a symbol value. -/

/-- `normalized[s]` copies of each symbol `s`, in symbol order (the `syms`
vector of the constructor). -/
def symRepeatsAux : List Nat → Nat → List Nat
  | [], _ => []
  | n :: rest, s => List.replicate n s ++ symRepeatsAux rest (s + 1)

def symRepeats (norm : List Nat) : List Nat := symRepeatsAux norm 0

/-- The probing `while` loop: from `pos`, step until an empty slot is found
(`some`) or the fallback triggers (`none`, when `attempts` reaches
`table_size` or the walk returns to `start_pos`).  The loop body runs at
most `ts` times, so fuel `ts` is never exhausted when called with
`attempts = 0`. -/
def spreadWalk : Nat → List (Option Nat) → Nat → Nat → Nat → Nat → Nat → Option Nat
  | 0, _, _, _, _, _, _ => none
  | fuel + 1, spread, pos, startPos, attempts, step, ts =>
    match spread.getD pos none with
    | none => some pos
    | some _ =>
      let pos2 := (pos + step) % ts
      let att2 := attempts + 1
      if ts ≤ att2 ∨ pos2 = startPos then none
      else spreadWalk fuel spread pos2 startPos att2 step ts

/-- Index of the first empty slot (the linear fallback scan). -/
def firstEmpty : List (Option Nat) → Option Nat
  | [] => none
  | none :: _ => some 0
  | some _ :: rest => (firstEmpty rest).map (· + 1)

/-- Place one symbol: probe from `pos`; on fallback, place at the first
empty slot, and — exactly as the source's post-loop `if` — place a second
time when the slot the fallback walk lands on is also empty. -/
def placeSymbol (spread : List (Option Nat)) (pos s step ts : Nat) :
    Except FSEError (List (Option Nat) × Nat) :=
  match spreadWalk ts spread pos pos 0 step ts with
  | some p => .ok (spread.set p (some s), (p + step) % ts)
  | none =>
    match firstEmpty spread with
    | none => .error .spreadFailed
    | some i =>
      let spread2 := spread.set i (some s)
      let pos2 := (i + step) % ts
      match spread2.getD pos2 none with
      | none => .ok (spread2.set pos2 (some s), (pos2 + step) % ts)
      | some _ => .ok (spread2, pos2)

def buildSpread : List (Option Nat) → Nat → List Nat → Nat → Nat →
    Except FSEError (List (Option Nat))
  | spread, _, [], _, _ => .ok spread
  | spread, pos, s :: rest, step, ts =>
    match placeSymbol spread pos s step ts with
    | .error e => .error e
    | .ok r => buildSpread r.1 r.2 rest step ts

/-- The whole spread construction: `step = ts/2 + ts/8 + 3`, all slots
initially empty, walk position starting at 0. -/
def spreadTable (norm : List Nat) (tl : Nat) : Except FSEError (List (Option Nat)) :=
  let ts := 2 ^ tl
  let step := ts / 2 + ts / 8 + 3
  buildSpread (List.replicate ts none) 0 (symRepeats norm) step ts

/-- One decode-table entry (`DecodeEntry`): `new_state_base` is a
`uint16_t` computed from a `uint32_t` subtraction, `nb_bits` and `symbol`
are `uint8_t`. -/
structure DecodeEntry where
  new_state_base : Nat
  nb_bits : Nat
  symbol : Nat
  deriving Repr, DecidableEq

/-- The decode entry built at a slot whose symbol is `s` with running
`symbol_next` value `nse`. -/
def mkDecodeEntry (tl ts s nse : Nat) : DecodeEntry :=
  let safe_state := max 1 nse
  let nb := tl - floor_log2 safe_state
  let base := ((((nse * 2 ^ nb : Nat) : Int) - (ts : Int)) % (2 ^ 32)).toNat % 2 ^ 16
  ⟨base, nb % 2 ^ 8, s % 2 ^ 8⟩

/-- The decode-table loop: `symbol_next` starts at `normalized` and
increments per occurrence. -/
def buildDtable (tl ts : Nat) : List Nat → List Nat → List DecodeEntry
  | _, [] => []
  | sn, s :: rest =>
    let nse := sn.getD s 0
    mkDecodeEntry tl ts s nse :: buildDtable tl ts (sn.set s (nse + 1)) rest

/-- Exclusive prefix sums (the `cumul` vector). -/
def cumulAux : List Nat → Nat → List Nat
  | [], _ => []
  | n :: rest, acc => acc :: cumulAux rest (acc + n)

/-- The encode-table loop: slot `u` (symbol `s`) writes state
`table_size + u` (as `uint16_t`) at index `local_cumul[s]`, which then
increments. -/
def buildTableU16 : List Nat → List Nat → List Nat → Nat → Nat → List Nat
  | table, _, [], _, _ => table
  | table, lc, s :: rest, u, ts =>
    let idx := lc.getD s 0
    buildTableU16 (table.set idx ((ts + u) % 2 ^ 16)) (lc.set s (idx + 1)) rest (u + 1) ts

/-- One symbol transform (`SymTransform`): `delta_nb_bits` is `uint32_t`,
`delta_find_state` is `int32_t` (kept exact: its magnitude is below
`table_size ≤ 2^16`). -/
structure SymTransform where
  delta_nb_bits : Nat
  delta_find_state : Int
  deriving Repr, DecidableEq

/-- The transform of a symbol with frequency `f` and running `total`
(uint32 subtractions modeled with `+ 2^32` then `% 2^32`). -/
def symTTEntry (tl ts f total : Nat) : SymTransform :=
  if f = 0 then ⟨((tl + 1) * 2 ^ 16 + 2 ^ 32 - 2 ^ tl) % 2 ^ 32, 0⟩
  else
    let max_bits_out := if 1 < f then tl - floor_log2 (f - 1) else tl
    let min_state_plus := (f * 2 ^ max_bits_out) % 2 ^ 32
    ⟨(max_bits_out * 2 ^ 16 + 2 ^ 32 - min_state_plus) % 2 ^ 32,
      (total : Int) - (f : Int)⟩

def buildSymTT (tl ts : Nat) : List Nat → Nat → List SymTransform
  | [], _ => []
  | f :: rest, total => symTTEntry tl ts f total :: buildSymTT tl ts rest (total + f)

/-- `FSETables`: the table parameters and the four derived tables.
`spread` keeps the symbol values of the (by then fully placed) slots. -/
structure FSETables where
  table_log : Nat
  table_size : Nat
  data_block_size_bits : Nat
  alphabet_size : Nat
  spread : List Nat
  dtable : List DecodeEntry
  tableU16 : List Nat
  symTT : List SymTransform
  deriving Repr, DecidableEq

/-- `FSETables::FSETables(params)`: the `table_log > 16` check, the spread
construction (`runtime_error` on placement failure), then the three table
builds.  Reading an unfilled spread slot is undefined behavior in the
source (`spread[u]` is `UINT32_MAX`, indexing `symbol_next` out of
bounds); the model reads `0` there — every theorem below only uses tables
whose spread is fully placed, where the two agree. -/
def FSETables.make (p : FSEParams) : Except FSEError FSETables :=
  if 16 < p.table_log then .error .invalidParams
  else
    match spreadTable p.normalized p.table_log with
    | .error e => .error e
    | .ok sp =>
      let sv := sp.map (fun o => o.getD 0)
      .ok ⟨p.table_log, p.table_size, p.data_block_size_bits, p.counts.length, sv,
        buildDtable p.table_log p.table_size p.normalized sv,
        buildTableU16 (List.replicate p.table_size 0) (cumulAux p.normalized 0) sv 0
          p.table_size,
        buildSymTT p.table_log p.table_size p.normalized 0⟩

/-! ### Block encoding and decoding (`fse.cpp`, `encode_block_impl_into`,
`decode_block_impl`; `frame.cpp`, `encode_block_lsb`, `decode_block_lsb`) -/

/-- One encoder step at state `state` for symbol `s`: returns
`(nb_out, out_bits_value, next_state)`.  All `uint32_t` arithmetic is
taken `% 2^32`; the index addition with the `int32_t` `delta_find_state`
wraps in `uint32_t`. -/
def encStep (T : FSETables) (state s : Nat) : Nat × Nat × Nat :=
  let tr := T.symTT.getD s ⟨0, 0⟩
  let nb := ((state + tr.delta_nb_bits) % 2 ^ 32) / 2 ^ 16
  let mask := if nb = 32 then 4294967295 else 2 ^ nb - 1
  let out := state &&& mask
  let subrange := state / 2 ^ nb
  let idx := (((subrange : Int) + tr.delta_find_state) % (2 ^ 32)).toNat
  (nb, out, T.tableU16.getD idx 0)

/-- The encoder loop over the reversed symbol block: collects the
`(value, nb_out)` chunks in push order and returns the final state. -/
def encLoop (T : FSETables) : List Nat → Nat → List (Nat × Nat) × Nat
  | [], state => ([], state)
  | s :: rest, state =>
    let r := encStep T state s
    let rr := encLoop T rest r.2.2
    ((r.2.1, r.1) :: rr.1, rr.2)

/-- `encode_block_impl_into` with the MSB writer: block size field, then —
for nonempty blocks — the chunks are produced over the reversed symbols,
the final state offset is written in `table_log` bits, and the chunks are
written back in reverse push order, skipping zero-width chunks.  The
final state offset is a `uint32_t` subtraction. -/
def encode_block_msb (symbols : List Nat) (T : FSETables) : EncodedBlock :=
  let w0 := msbAppendBits msbInit symbols.length T.data_block_size_bits
  if symbols.isEmpty then msbFinish w0
  else
    let r := encLoop T symbols.reverse T.table_size
    let fso := (((r.2 : Int) - (T.table_size : Int)) % (2 ^ 32)).toNat
    let w1 := msbAppendBits w0 fso T.table_log
    msbFinish (msbAppendList w1 (r.1.reverse.filter (fun c => c.2 != 0)))

/-- `encode_block_lsb` of `frame.cpp`: identical structure over the local
LSB writer. -/
def encode_block_lsb (symbols : List Nat) (T : FSETables) : EncodedBlock :=
  let w0 := lsbAppendBits lsbInit symbols.length T.data_block_size_bits
  if symbols.isEmpty then lsbFinish w0
  else
    let r := encLoop T symbols.reverse T.table_size
    let fso := (((r.2 : Int) - (T.table_size : Int)) % (2 ^ 32)).toNat
    let w1 := lsbAppendBits w0 fso T.table_log
    lsbFinish (lsbAppendList w1 (r.1.reverse.filter (fun c => c.2 != 0)))

/-- The decoder state loop (MSB reader, which can fail): `count` steps,
each looking up `dtable[state]`, reading `nb_bits` bits when positive, and
moving to `new_state_base + bits`. -/
def decodeLoopMSB (T : FSETables) (data : List Nat) (bitLen : Nat) :
    Nat → Nat → Nat → Except FSEError (List Nat × Nat × Nat)
  | 0, state, pos => .ok ([], state, pos)
  | count + 1, state, pos =>
    let e := T.dtable.getD state ⟨0, 0, 0⟩
    match (if 0 < e.nb_bits then msbReadBits data bitLen pos e.nb_bits
           else .ok (0, pos)) with
    | .error er => .error er
    | .ok rv =>
      match decodeLoopMSB T data bitLen count (e.new_state_base + rv.1) rv.2 with
      | .error er => .error er
      | .ok rr => .ok (e.symbol :: rr.1, rr.2)

/-- `decode_block_impl` with the MSB reader (`bit_offset = 0`): block size
field, early return for empty blocks, initial state from `table_log`
bits, then the state loop; returns the symbols and `bits_consumed`. -/
def decode_block_msb (data : List Nat) (bitLen : Nat) (T : FSETables) :
    Except FSEError (List Nat × Nat) :=
  match msbReadBits data bitLen 0 T.data_block_size_bits with
  | .error e => .error e
  | .ok r1 =>
    if r1.1 = 0 then .ok ([], T.data_block_size_bits)
    else
      match msbReadBits data bitLen r1.2 T.table_log with
      | .error e => .error e
      | .ok r2 =>
        match decodeLoopMSB T data bitLen r1.1 r2.1 r2.2 with
        | .error e => .error e
        | .ok rr => .ok (rr.1, rr.2.2)

/-- The decoder state loop over the never-failing local LSB reader of
`frame.cpp`. -/
def decodeLoopLSB (T : FSETables) (data : List Nat) (bitLen : Nat) :
    Nat → Nat → Nat → List Nat × Nat × Nat
  | 0, state, pos => ([], state, pos)
  | count + 1, state, pos =>
    let e := T.dtable.getD state ⟨0, 0, 0⟩
    let rv := if 0 < e.nb_bits then frameReadBitsLSB data bitLen pos e.nb_bits
              else (0, pos)
    let rr := decodeLoopLSB T data bitLen count (e.new_state_base + rv.1) rv.2
    (e.symbol :: rr.1, rr.2)

/-- `decode_block_lsb` of `frame.cpp`: same structure, never fails. -/
def decode_block_lsb (data : List Nat) (bitLen : Nat) (T : FSETables) :
    List Nat × Nat :=
  let r1 := frameReadBitsLSB data bitLen 0 T.data_block_size_bits
  if r1.1 = 0 then ([], T.data_block_size_bits)
  else
    let r2 := frameReadBitsLSB data bitLen r1.2 T.table_log
    let rr := decodeLoopLSB T data bitLen r1.1 r2.1 r2.2
    (rr.1, rr.2.2)

/-! #### Spread coverage (C6) -/

theorem symRepeatsAux_count (norm : List Nat) : ∀ (base s : Nat),
    (symRepeatsAux norm base).count s =
      if base ≤ s then norm.getD (s - base) 0 else 0 := by
  induction norm with
  | nil => intro base s; simp [symRepeatsAux, List.getD]
  | cons n rest ih =>
    intro base s
    simp only [symRepeatsAux, List.count_append, List.count_replicate, beq_iff_eq,
      ih (base + 1) s]
    rcases lt_trichotomy s base with h | h | h
    · rw [if_neg (by omega : ¬ base = s), if_neg (by omega : ¬ base + 1 ≤ s),
        if_neg (by omega : ¬ base ≤ s)]
    · subst h
      rw [if_pos rfl, if_neg (by omega : ¬ s + 1 ≤ s), if_pos (le_refl s)]
      simp
    · rw [if_neg (by omega : ¬ base = s), if_pos (by omega : base + 1 ≤ s),
        if_pos (by omega : base ≤ s)]
      have hd : s - base = (s - (base + 1)) + 1 := by omega
      rw [hd, List.getD_cons_succ]
      simp

theorem symRepeats_count (norm : List Nat) (s : Nat) :
    (symRepeats norm).count s = norm.getD s 0 := by
  have := symRepeatsAux_count norm 0 s
  simpa [symRepeats] using this

theorem symRepeatsAux_length : ∀ (norm : List Nat) (base : Nat),
    (symRepeatsAux norm base).length = norm.sum
  | [], _ => rfl
  | n :: rest, base => by
    simp [symRepeatsAux, symRepeatsAux_length rest (base + 1)]

theorem symRepeats_length (norm : List Nat) : (symRepeats norm).length = norm.sum :=
  symRepeatsAux_length norm 0

theorem symRepeats_mem (norm : List Nat) (s : Nat) (h : s ∈ symRepeats norm) :
    1 ≤ norm.getD s 0 ∧ s < norm.length := by
  have hc : 0 < (symRepeats norm).count s := List.count_pos_iff.mpr h
  rw [symRepeats_count] at hc
  exact ⟨hc, lt_length_of_getD_pos hc⟩

/-- Number of still-empty slots. -/
def countEmpty (l : List (Option Nat)) : Nat := l.countP (fun o => o.isNone)

theorem countEmpty_replicate_none : ∀ n, countEmpty (List.replicate n none) = n
  | 0 => rfl
  | n + 1 => by
    simp only [List.replicate_succ, countEmpty, List.countP_cons]
    have := countEmpty_replicate_none n
    simp only [countEmpty] at this
    simp [this]

theorem countEmpty_pos_exists : ∀ (l : List (Option Nat)), 0 < countEmpty l →
    ∃ i, i < l.length ∧ l.getD i none = none
  | [], h => by simp [countEmpty] at h
  | none :: rest, _ => ⟨0, by simp, rfl⟩
  | some v :: rest, h => by
    have hr : 0 < countEmpty rest := by
      simpa [countEmpty, List.countP_cons] using h
    obtain ⟨i, hi, hg⟩ := countEmpty_pos_exists rest hr
    exact ⟨i + 1, by simpa using hi, by simpa using hg⟩

theorem countEmpty_zero_getD : ∀ (l : List (Option Nat)), countEmpty l = 0 →
    ∀ u, u < l.length → l.getD u none ≠ none
  | [], _, u, hu => by simp at hu
  | none :: rest, h, _, _ => by simp [countEmpty, List.countP_cons] at h
  | some v :: rest, h, u, hu => by
    have hr : countEmpty rest = 0 := by
      simpa [countEmpty, List.countP_cons] using h
    match u with
    | 0 => simp
    | u + 1 =>
      have := countEmpty_zero_getD rest hr u (by simpa using hu)
      simpa using this

theorem countEmpty_set_some : ∀ (l : List (Option Nat)) (j s : Nat), j < l.length →
    l.getD j none = none → countEmpty (l.set j (some s)) + 1 = countEmpty l
  | [], j, s, hj, _ => by simp at hj
  | x :: rest, 0, s, _, hg => by
    have hx : x = none := by simpa using hg
    subst hx
    simp [countEmpty, List.countP_cons]
  | x :: rest, j + 1, s, hj, hg => by
    have := countEmpty_set_some rest j s (by simpa using hj) (by simpa using hg)
    simp only [List.set_cons_succ, countEmpty, List.countP_cons] at this ⊢
    omega

theorem filterMap_set_some : ∀ (l : List (Option Nat)) (j s : Nat), j < l.length →
    l.getD j none = none →
    ((l.set j (some s)).filterMap id).Perm (s :: l.filterMap id)
  | [], j, s, hj, _ => by simp at hj
  | x :: rest, 0, s, _, hg => by
    have hx : x = none := by simpa using hg
    subst hx
    simp [List.filterMap_cons]
  | x :: rest, j + 1, s, hj, hg => by
    have ih := filterMap_set_some rest j s (by simpa using hj) (by simpa using hg)
    cases x with
    | none => simpa [List.filterMap_cons] using ih
    | some v =>
      simp only [List.set_cons_succ, List.filterMap_cons, id]
      exact (ih.cons v).trans (List.Perm.swap s v _)

theorem spreadWalk_some : ∀ (fuel : Nat) (spread : List (Option Nat))
    (pos startPos att step ts p : Nat), 0 < ts → pos < ts →
    spreadWalk fuel spread pos startPos att step ts = some p →
    p < ts ∧ spread.getD p none = none
  | 0, _, _, _, _, _, _, _, _, _, h => by simp [spreadWalk] at h
  | fuel + 1, spread, pos, startPos, att, step, ts, p, hts, hpos, h => by
    rw [spreadWalk] at h
    cases hg : spread.getD pos none with
    | none =>
      rw [hg] at h
      simp only [Option.some.injEq] at h
      subst h
      exact ⟨hpos, hg⟩
    | some v =>
      rw [hg] at h
      dsimp only at h
      by_cases hc : ts ≤ att + 1 ∨ (pos + step) % ts = startPos
      · rw [if_pos hc] at h; exact absurd h (by simp)
      · rw [if_neg hc] at h
        exact spreadWalk_some fuel spread _ startPos (att + 1) step ts p hts
          (Nat.mod_lt _ hts) h

theorem mod_self_of_lt {a ts : Nat} (h : a < ts) : a % ts = a := Nat.mod_eq_of_lt h

theorem getD_set_self' {α : Type} {l : List α} {i : Nat} (x d : α) (h : i < l.length) :
    (l.set i x).getD i d = x := by
  simp [List.getD_eq_getElem?_getD, List.getElem?_set_self h]

theorem getD_set_ne' {α : Type} {l : List α} {i j : Nat} (x d : α) (h : i ≠ j) :
    (l.set i x).getD j d = l.getD j d := by
  simp [List.getD_eq_getElem?_getD, List.getElem?_set_ne h]

theorem getD_eq_default_of_le {α : Type} {l : List α} {i : Nat} (d : α)
    (h : l.length ≤ i) : l.getD i d = d := by
  simp [List.getD_eq_getElem?_getD, List.getElem?_eq_none h]

theorem firstEmpty_none_countEmpty : ∀ (l : List (Option Nat)),
    firstEmpty l = none → countEmpty l = 0
  | [], _ => rfl
  | none :: rest, h => by simp [firstEmpty] at h
  | some v :: rest, h => by
    simp only [firstEmpty, Option.map_eq_none'] at h
    have hr := firstEmpty_none_countEmpty rest h
    simp only [countEmpty, List.countP_cons] at hr ⊢
    simp [hr]

theorem firstEmpty_some_spec : ∀ (l : List (Option Nat)) (i : Nat),
    firstEmpty l = some i → i < l.length ∧ l.getD i none = none
  | [], i, h => by simp [firstEmpty] at h
  | none :: rest, i, h => by
    simp only [firstEmpty, Option.some.injEq] at h
    subst h
    exact ⟨by simp, rfl⟩
  | some v :: rest, i, h => by
    simp only [firstEmpty, Option.map_eq_some'] at h
    obtain ⟨j, hj1, hj2⟩ := h
    subst hj2
    obtain ⟨h1, h2⟩ := firstEmpty_some_spec rest j hj1
    exact ⟨by simpa using h1, by simpa using h2⟩

/-- With `step ≡ 0 (mod ts)` the walk never moves: each placement goes to
the probed slot if empty, else through the linear fallback — and the
fallback's landing slot is the just-filled slot, so exactly one slot is
written. -/
theorem placeSymbol_stepzero (spread : List (Option Nat)) (pos s step ts : Nat)
    (hts : 0 < ts) (hpos : pos < ts) (hlen : spread.length = ts)
    (hstep : step % ts = 0) (hempty : 0 < countEmpty spread) :
    ∃ j r2, placeSymbol spread pos s step ts = .ok (spread.set j (some s), r2) ∧
      j < ts ∧ spread.getD j none = none ∧ r2 < ts := by
  have hmodz : ∀ a, a < ts → (a + step) % ts = a := by
    intro a ha
    rw [Nat.add_mod, hstep, Nat.add_zero, Nat.mod_mod_of_dvd _ dvd_rfl,
      mod_self_of_lt ha]
  obtain ⟨t, ht⟩ : ∃ t, ts = t + 1 := ⟨ts - 1, by omega⟩
  cases hg : spread.getD pos none with
  | none =>
    have hwalk : spreadWalk ts spread pos pos 0 step ts = some pos := by
      rw [ht, spreadWalk, hg]
    refine ⟨pos, (pos + step) % ts, ?_, hpos, hg, Nat.mod_lt _ hts⟩
    rw [placeSymbol, hwalk]
  | some v =>
    have hwalk : spreadWalk ts spread pos pos 0 step ts = none := by
      rw [ht, spreadWalk, hg]
      dsimp only
      rw [if_pos (Or.inr (show (pos + step) % (t + 1) = pos from by
        rw [← ht]; exact hmodz pos hpos))]
    obtain ⟨i, hi⟩ : ∃ i, firstEmpty spread = some i := by
      cases hfe : firstEmpty spread with
      | none =>
        exfalso
        have := firstEmpty_none_countEmpty spread hfe
        omega
      | some i => exact ⟨i, rfl⟩
    have hfs : i < spread.length ∧ spread.getD i none = none :=
      firstEmpty_some_spec spread i hi
    have hilt : i < ts := by omega
    have hland : (i + step) % ts = i := hmodz i hilt
    have hgset : (spread.set i (some s)).getD ((i + step) % ts) none = some s := by
      rw [hland]
      exact getD_set_self' (some s) none hfs.1
    refine ⟨i, i, ?_, hilt, hfs.2, hilt⟩
    rw [placeSymbol, hwalk, hi]
    dsimp only
    rw [hgset]
    dsimp only
    rw [hland]

theorem walk_inj (ts step : Nat) (hcop : Nat.Coprime ts step) (start : Nat) :
    ∀ a b, a ≤ b → b - a < ts →
    (start + a * step) % ts = (start + b * step) % ts → a = b := by
  intro a b hab hblt h
  have h2 : a * step ≡ b * step [MOD ts] := Nat.ModEq.add_left_cancel' start h
  have h3 : ts ∣ b * step - a * step :=
    (Nat.modEq_iff_dvd' (Nat.mul_le_mul_right step hab)).mp h2
  rw [← Nat.sub_mul] at h3
  have h4 : ts ∣ b - a := hcop.dvd_of_dvd_mul_right h3
  have h5 : b - a = 0 := Nat.eq_zero_of_dvd_of_lt h4 hblt
  omega

theorem walk_covers (ts step : Nat) (hts : 0 < ts) (hcop : Nat.Coprime ts step)
    (pos e : Nat) (he : e < ts) : ∃ k, k < ts ∧ (pos + k * step) % ts = e := by
  have hinj : Set.InjOn (fun k => (pos + k * step) % ts) ↑(Finset.range ts) := by
    intro a ha b hb hfe
    simp only [Finset.coe_range, Set.mem_Iio] at ha hb
    rcases le_total a b with h | h
    · exact walk_inj ts step hcop pos a b h (by omega) hfe
    · exact (walk_inj ts step hcop pos b a h (by omega) hfe.symm).symm
  have hsub : (Finset.range ts).image (fun k => (pos + k * step) % ts) ⊆
      Finset.range ts := by
    intro x hx
    simp only [Finset.mem_image] at hx
    obtain ⟨k, _, hk⟩ := hx
    simp only [Finset.mem_range]
    rw [← hk]
    exact Nat.mod_lt _ hts
  have hcard : ((Finset.range ts).image (fun k => (pos + k * step) % ts)).card =
      (Finset.range ts).card := Finset.card_image_of_injOn hinj
  have heq := Finset.eq_of_subset_of_card_le hsub (le_of_eq hcard.symm)
  have he2 : e ∈ (Finset.range ts).image (fun k => (pos + k * step) % ts) := by
    rw [heq]
    exact Finset.mem_range.mpr he
  simp only [Finset.mem_image, Finset.mem_range] at he2
  obtain ⟨k, hk1, hk2⟩ := he2
  exact ⟨k, hk1, hk2⟩

/-- With step co-prime to the table size, the probing walk reaches the
`m`-th position (`m` = first empty offset) without triggering the
fallback: `attempts` stays below `table_size` and the walk cannot revisit
`start_pos` early. -/
theorem spreadWalk_coprime : ∀ (m : Nat) (spread : List (Option Nat))
    (pos att start step ts : Nat), 0 < ts → Nat.Coprime ts step → start < ts →
    att + m < ts →
    pos = (start + att * step) % ts →
    (∀ j, j < m → spread.getD ((start + (att + j) * step) % ts) none ≠ none) →
    spread.getD ((start + (att + m) * step) % ts) none = none →
    spreadWalk (ts - att) spread pos start att step ts =
      some ((start + (att + m) * step) % ts)
  | 0, spread, pos, att, start, step, ts, hts, hcop, hstart, htot, hpos, _, htarget => by
    have hfs : ts - att = (ts - att - 1) + 1 := by omega
    rw [hfs, spreadWalk]
    have hg : spread.getD pos none = none := by
      rw [hpos]
      simpa using htarget
    rw [hg, hpos]
    simp
  | m + 1, spread, pos, att, start, step, ts, hts, hcop, hstart, htot, hpos, hocc,
      htarget => by
    have hfs : ts - att = (ts - (att + 1)) + 1 := by omega
    rw [hfs, spreadWalk]
    have hg : ∃ v, spread.getD pos none = some v := by
      have h0 := hocc 0 (by omega)
      rw [hpos]
      cases hc : spread.getD ((start + att * step) % ts) none with
      | none =>
        exfalso
        apply h0
        simpa using hc
      | some v => exact ⟨v, rfl⟩
    obtain ⟨v, hv⟩ := hg
    rw [hv]
    dsimp only
    have hpos2 : (pos + step) % ts = (start + (att + 1) * step) % ts := by
      rw [hpos, Nat.mod_add_mod]
      congr 1
      ring
    have hnotstart : ¬ ((pos + step) % ts = start) := by
      intro hc
      rw [hpos2] at hc
      have hstart0 : (start + 0 * step) % ts = start := by
        simpa using mod_self_of_lt hstart
      have := walk_inj ts step hcop start 0 (att + 1) (by omega) (by omega)
        (by rw [hstart0, hc])
      omega
    rw [if_neg (by push_neg; exact ⟨by omega, hnotstart⟩)]
    have hrec := spreadWalk_coprime m spread ((pos + step) % ts) (att + 1) start step
      ts hts hcop hstart (by omega) hpos2
      (fun j hj => by
        have := hocc (j + 1) (by omega)
        rw [show att + 1 + j = att + (j + 1) from by ring]
        exact this)
      (by rw [show att + 1 + m = att + (m + 1) from by ring]; exact htarget)
    rw [hrec, show att + 1 + m = att + (m + 1) from by ring]

theorem placeSymbol_coprime (spread : List (Option Nat)) (pos s step ts : Nat)
    (hts : 0 < ts) (hpos : pos < ts) (hlen : spread.length = ts)
    (hcop : Nat.Coprime ts step) (hempty : 0 < countEmpty spread) :
    ∃ j r2, placeSymbol spread pos s step ts = .ok (spread.set j (some s), r2) ∧
      j < ts ∧ spread.getD j none = none ∧ r2 < ts := by
  obtain ⟨e, he, hge⟩ := countEmpty_pos_exists spread hempty
  obtain ⟨k, hk, hke⟩ := walk_covers ts step hts hcop pos e (by omega)
  have hex : ∃ j, spread.getD ((pos + j * step) % ts) none = none :=
    ⟨k, by rw [hke]; exact hge⟩
  have hm : spread.getD ((pos + Nat.find hex * step) % ts) none = none :=
    Nat.find_spec hex
  have hmlt : Nat.find hex < ts :=
    lt_of_le_of_lt (Nat.find_min' hex (by rw [hke]; exact hge)) hk
  have hwalk := spreadWalk_coprime (Nat.find hex) spread pos 0 pos step ts hts hcop
    hpos (by omega) (by simp [mod_self_of_lt hpos])
    (fun j hj => by
      have := Nat.find_min hex hj
      simpa using this)
    (by simpa using hm)
  rw [Nat.sub_zero] at hwalk
  have hwalk2 : spreadWalk ts spread pos pos 0 step ts =
      some ((pos + Nat.find hex * step) % ts) := by
    rw [hwalk]
    simp
  refine ⟨(pos + Nat.find hex * step) % ts, ((pos + Nat.find hex * step) % ts + step) % ts,
    ?_, Nat.mod_lt _ hts, hm, Nat.mod_lt _ hts⟩
  rw [placeSymbol, hwalk2]

theorem step_dichotomy (tl : Nat) (htl : tl ≤ 16) :
    (2 ^ tl / 2 + 2 ^ tl / 8 + 3) % 2 = 1 ∨
      (2 ^ tl / 2 + 2 ^ tl / 8 + 3) % 2 ^ tl = 0 := by
  interval_cases tl <;> decide

theorem coprime_pow_two_of_odd (step tl : Nat) (h : step % 2 = 1) :
    Nat.Coprime (2 ^ tl) step := by
  have h2 : Nat.Coprime 2 step := by
    rw [Nat.coprime_two_left, Nat.odd_iff]
    exact h
  exact Nat.Coprime.pow_left tl h2

theorem placeSymbol_spec (spread : List (Option Nat)) (pos s step ts : Nat)
    (hts : 0 < ts) (hpos : pos < ts) (hlen : spread.length = ts)
    (hdich : Nat.Coprime ts step ∨ step % ts = 0) (hempty : 0 < countEmpty spread) :
    ∃ j r2, placeSymbol spread pos s step ts = .ok (spread.set j (some s), r2) ∧
      j < ts ∧ spread.getD j none = none ∧ r2 < ts := by
  rcases hdich with h | h
  · exact placeSymbol_coprime spread pos s step ts hts hpos hlen h hempty
  · exact placeSymbol_stepzero spread pos s step ts hts hpos hlen h hempty

theorem buildSpread_spec : ∀ (syms : List Nat) (spread : List (Option Nat))
    (pos step ts : Nat), 0 < ts → pos < ts → spread.length = ts →
    (Nat.Coprime ts step ∨ step % ts = 0) →
    syms.length ≤ countEmpty spread →
    ∃ sp, buildSpread spread pos syms step ts = .ok sp ∧ sp.length = ts ∧
      countEmpty sp + syms.length = countEmpty spread ∧
      (sp.filterMap id).Perm (syms ++ spread.filterMap id)
  | [], spread, pos, step, ts, _, _, hlen, _, _ =>
    ⟨spread, rfl, hlen, by simp, by simp⟩
  | s :: rest, spread, pos, step, ts, hts, hpos, hlen, hdich, hle => by
    obtain ⟨j, r2, hps, hj, hgj, hr2⟩ := placeSymbol_spec spread pos s step ts hts
      hpos hlen hdich (by simp only [List.length_cons] at hle; omega)
    have hjlen : j < spread.length := by omega
    have hce := countEmpty_set_some spread j s hjlen hgj
    have hfm := filterMap_set_some spread j s hjlen hgj
    obtain ⟨sp, hbs, hl2, hc2, hp2⟩ := buildSpread_spec rest (spread.set j (some s))
      r2 step ts hts hr2 (by simp [hlen]) hdich
      (by simp only [List.length_cons] at hle; omega)
    refine ⟨sp, ?_, hl2, ?_, ?_⟩
    · rw [buildSpread, hps]
      exact hbs
    · simp only [List.length_cons]
      omega
    · refine hp2.trans ?_
      refine ((List.Perm.append_left rest hfm).trans List.perm_middle).trans ?_
      rw [List.cons_append]

theorem filterMap_replicate_none : ∀ (n : Nat),
    ((List.replicate n (none : Option Nat)).filterMap id) = []
  | 0 => rfl
  | n + 1 => by
    simp [List.replicate_succ, List.filterMap_cons, filterMap_replicate_none n]

/-- Full coverage of the spread construction (the workhorse behind C6,
kept separate so later table lemmas can reuse it). -/
theorem spreadTable_full (norm : List Nat) (tl : Nat) (htl : tl ≤ 16)
    (hsum : norm.sum = 2 ^ tl) :
    ∃ sp, spreadTable norm tl = .ok sp ∧ sp.length = 2 ^ tl ∧
      (∀ u, u < 2 ^ tl → sp.getD u none ≠ none) ∧
      (sp.filterMap id).Perm (symRepeats norm) := by
  have hts : 0 < 2 ^ tl := Nat.pos_pow_of_pos _ (by omega)
  have hdich : Nat.Coprime (2 ^ tl) (2 ^ tl / 2 + 2 ^ tl / 8 + 3) ∨
      (2 ^ tl / 2 + 2 ^ tl / 8 + 3) % 2 ^ tl = 0 := by
    rcases step_dichotomy tl htl with h | h
    · exact Or.inl (coprime_pow_two_of_odd _ tl h)
    · exact Or.inr h
  obtain ⟨sp, hbs, hlen, hce, hperm⟩ := buildSpread_spec (symRepeats norm)
    (List.replicate (2 ^ tl) none) 0 (2 ^ tl / 2 + 2 ^ tl / 8 + 3) (2 ^ tl) hts hts
    (by simp) hdich
    (by rw [symRepeats_length, hsum, countEmpty_replicate_none])
  refine ⟨sp, hbs, hlen, ?_, ?_⟩
  · have hcz : countEmpty sp = 0 := by
      rw [symRepeats_length, hsum] at hce
      have := countEmpty_replicate_none (2 ^ tl)
      omega
    intro u hu
    exact countEmpty_zero_getD sp hcz u (by omega)
  · rw [filterMap_replicate_none, List.append_nil] at hperm
    exact hperm

/-- C6: for every normalized vector summing to `table_size = 2^table_log`
(`table_log ≤ 16`), the spread construction succeeds, every one of the
`table_size` slots is filled, and the multiset of spread symbols is
exactly `normalized[s]` copies of each `s` (so, with as many slots as
symbols placed, every slot is written exactly once). -/
theorem claim_c6_spread_coverage (norm : List Nat) (tl : Nat) (htl : tl ≤ 16)
    (hsum : norm.sum = 2 ^ tl) :
    ∃ sp, spreadTable norm tl = .ok sp ∧ sp.length = 2 ^ tl ∧
      (∀ u, u < 2 ^ tl → sp.getD u none ≠ none) ∧
      (sp.filterMap id).Perm (symRepeats norm) :=
  spreadTable_full norm tl htl hsum

/-- C6 witness: the coverage theorem applied to `normalized = [1, 1]`,
`table_log = 1`, whose spread is `[0, 1]`. -/
theorem claim_c6_witness :
    spreadTable [1, 1] 1 = .ok [some 0, some 1] ∧
    (([some 0, some 1] : List (Option Nat)).filterMap id).Perm (symRepeats [1, 1]) := by
  obtain ⟨sp, h1, h2, h3, h4⟩ := claim_c6_spread_coverage [1, 1] 1 (by omega) (by rfl)
  have hval : spreadTable [1, 1] 1 = .ok [some 0, some 1] := by rfl
  rw [hval] at h1
  have hsp : sp = [some 0, some 1] := (Except.ok.inj h1).symm
  subst hsp
  exact ⟨hval, h4⟩

/-! #### Linking the encode and decode tables through the spread -/

/-- Index of the `k`-th occurrence (0-based) of `s` in a list. -/
def nthOcc : List Nat → Nat → Nat → Option Nat
  | [], _, _ => none
  | a :: rest, s, k =>
    if a = s then
      (if k = 0 then some 0 else (nthOcc rest s (k - 1)).map (· + 1))
    else (nthOcc rest s k).map (· + 1)

theorem nthOcc_some_spec : ∀ (l : List Nat) (s k u : Nat),
    nthOcc l s k = some u →
    u < l.length ∧ l.getD u 0 = s ∧ (l.take u).count s = k
  | [], s, k, u, h => by simp [nthOcc] at h
  | a :: rest, s, k, u, h => by
    rw [nthOcc] at h
    by_cases ha : a = s
    · rw [if_pos ha] at h
      by_cases hk : k = 0
      · rw [if_pos hk] at h
        simp only [Option.some.injEq] at h
        subst h
        subst hk
        exact ⟨by simp, by simpa using ha, by simp⟩
      · rw [if_neg hk] at h
        simp only [Option.map_eq_some'] at h
        obtain ⟨u', hu', huu⟩ := h
        subst huu
        obtain ⟨h1, h2, h3⟩ := nthOcc_some_spec rest s (k - 1) u' hu'
        refine ⟨by simpa using h1, by simpa using h2, ?_⟩
        rw [List.take_succ_cons, List.count_cons]
        simp [ha, h3]
        omega
    · rw [if_neg ha] at h
      simp only [Option.map_eq_some'] at h
      obtain ⟨u', hu', huu⟩ := h
      subst huu
      obtain ⟨h1, h2, h3⟩ := nthOcc_some_spec rest s k u' hu'
      refine ⟨by simpa using h1, by simpa using h2, ?_⟩
      rw [List.take_succ_cons, List.count_cons]
      simp [ha, h3]

theorem buildDtable_length (tl ts : Nat) : ∀ (sv sn : List Nat),
    (buildDtable tl ts sn sv).length = sv.length
  | [], _ => rfl
  | s :: rest, sn => by
    simp [buildDtable, buildDtable_length tl ts rest]

theorem buildDtable_getD (tl ts : Nat) : ∀ (sv sn : List Nat) (u : Nat),
    u < sv.length → (∀ s ∈ sv, s < sn.length) →
    (buildDtable tl ts sn sv).getD u ⟨0, 0, 0⟩ =
      mkDecodeEntry tl ts (sv.getD u 0)
        (sn.getD (sv.getD u 0) 0 + (sv.take u).count (sv.getD u 0))
  | [], _, u, hu, _ => by simp at hu
  | s0 :: rest, sn, 0, _, _ => by
    simp [buildDtable]
  | s0 :: rest, sn, u + 1, hu, hmem => by
    have hs0 : s0 < sn.length := hmem s0 (List.mem_cons_self s0 rest)
    have ih := buildDtable_getD tl ts rest (sn.set s0 (sn.getD s0 0 + 1)) u
      (by simpa using hu)
      (fun s hs => by simpa using hmem s (List.mem_cons_of_mem s0 hs))
    rw [buildDtable]
    rw [List.getD_cons_succ, ih, List.getD_cons_succ]
    set t := rest.getD u 0
    congr 1
    rw [List.take_succ_cons, List.count_cons]
    rcases eq_or_ne s0 t with rfl | hne
    · rw [getD_set_self _ hs0]
      simp
      omega
    · rw [getD_set_ne _ hne]
      have hns : ¬ t = s0 := fun h => hne h.symm
      simp [hns, hne]

theorem buildTableU16_length : ∀ (sv table lc : List Nat) (u ts : Nat),
    (buildTableU16 table lc sv u ts).length = table.length
  | [], _, _, _, _ => rfl
  | s :: rest, table, lc, u, ts => by
    simp [buildTableU16, buildTableU16_length rest]

theorem buildTableU16_frame : ∀ (sv table lc : List Nat) (u ts p : Nat),
    (∀ s j, j < sv.count s → lc.getD s 0 + j ≠ p) →
    (buildTableU16 table lc sv u ts).getD p 0 = table.getD p 0
  | [], _, _, _, _, _, _ => rfl
  | s0 :: rest, table, lc, u, ts, p, h => by
    have h0 : lc.getD s0 0 ≠ p := by
      have := h s0 0 (by simp [List.count_cons])
      simpa using this
    rw [buildTableU16]
    rw [buildTableU16_frame rest _ _ _ _ _ ?_, getD_set_ne _ h0]
    intro s j hj
    rcases eq_or_ne s0 s with rfl | hne
    · rcases lt_or_ge s0 lc.length with hlen | hlen
      · rw [getD_set_self _ hlen]
        have := h s0 (j + 1) (by simp [List.count_cons]; omega)
        omega
      · rw [List.set_eq_of_length_le (by omega)]
        exact h s0 j (by simp [List.count_cons]; omega)
    · rw [getD_set_ne _ hne]
      have hle : rest.count s ≤ (s0 :: rest).count s := by
        rw [List.count_cons]
        omega
      exact h s j (by omega)

theorem buildTableU16_spec : ∀ (sv table lc : List Nat) (u0 ts : Nat),
    (∀ s j, j < sv.count s → lc.getD s 0 + j < table.length) →
    (∀ s t js jt, s ≠ t → js < sv.count s → jt < sv.count t →
      lc.getD s 0 + js ≠ lc.getD t 0 + jt) →
    (∀ s ∈ sv, s < lc.length) →
    ∀ s k, k < sv.count s →
      ∃ u, nthOcc sv s k = some u ∧
        (buildTableU16 table lc sv u0 ts).getD (lc.getD s 0 + k) 0 =
          (ts + (u0 + u)) % 2 ^ 16
  | [], _, _, _, _, _, _, _, s, k, hk => by simp [List.count_nil] at hk
  | s0 :: rest, table, lc, u0, ts, hb, hinj, hmem, s, k, hk => by
    have hs0 : s0 < lc.length := hmem s0 (List.mem_cons_self s0 rest)
    have hcnt0 : 0 < (s0 :: rest).count s0 := by simp [List.count_cons]
    have hidx : lc.getD s0 0 < table.length := by
      have := hb s0 0 hcnt0
      omega
    have hlc' : ∀ t, t ≠ s0 →
        (lc.set s0 (lc.getD s0 0 + 1)).getD t 0 = lc.getD t 0 :=
      fun t ht => getD_set_ne _ (fun h => ht h.symm)
    have hlcs : (lc.set s0 (lc.getD s0 0 + 1)).getD s0 0 = lc.getD s0 0 + 1 :=
      getD_set_self _ hs0
    have hcrest : ∀ t, t ≠ s0 → rest.count t = (s0 :: rest).count t := by
      intro t ht
      have hns : ¬ t = s0 := ht
      simp [List.count_cons, hns]
    have hcrest0 : rest.count s0 + 1 = (s0 :: rest).count s0 := by
      simp [List.count_cons]
    have hb' : ∀ t j, j < rest.count t →
        (lc.set s0 (lc.getD s0 0 + 1)).getD t 0 + j <
          (table.set (lc.getD s0 0) ((ts + u0) % 2 ^ 16)).length := by
      intro t j hj
      rw [List.length_set]
      rcases eq_or_ne t s0 with rfl | hne
      · rw [hlcs]
        have := hb t (j + 1) (by omega)
        omega
      · rw [hlc' t hne]
        exact hb t j (by rw [hcrest t hne] at hj; omega)
    have hinj' : ∀ t t' js jt, t ≠ t' → js < rest.count t → jt < rest.count t' →
        (lc.set s0 (lc.getD s0 0 + 1)).getD t 0 + js ≠
          (lc.set s0 (lc.getD s0 0 + 1)).getD t' 0 + jt := by
      intro t t' js jt hne hjs hjt
      rcases eq_or_ne t s0 with rfl | ht
      · rw [hlcs, hlc' t' (fun h => hne h.symm)]
        have := hinj t t' (js + 1) jt hne (by omega) (by rw [← hcrest t' (fun h => hne h.symm)]; omega)
        omega
      · rcases eq_or_ne t' s0 with rfl | ht'
        · rw [hlcs, hlc' t ht]
          have := hinj t t' js (jt + 1) hne (by rw [← hcrest t ht]; omega) (by omega)
          omega
        · rw [hlc' t ht, hlc' t' ht']
          exact hinj t t' js jt hne (by rw [← hcrest t ht]; omega)
            (by rw [← hcrest t' ht']; omega)
    have hmem' : ∀ t ∈ rest, t < (lc.set s0 (lc.getD s0 0 + 1)).length := by
      intro t ht
      rw [List.length_set]
      exact hmem t (List.mem_cons_of_mem s0 ht)
    by_cases hss : s = s0
    · subst hss
      by_cases hkz : k = 0
      · subst hkz
        refine ⟨0, by rw [nthOcc, if_pos rfl, if_pos rfl], ?_⟩
        rw [buildTableU16]
        rw [buildTableU16_frame rest _ _ _ _ (lc.getD s 0 + 0) ?_]
        · rw [Nat.add_zero, getD_set_self _ hidx, Nat.add_zero]
        · intro t j hj
          rcases eq_or_ne t s with rfl | hne
          · rw [hlcs]
            omega
          · rw [hlc' t hne]
            have := hinj t s j 0 hne (by rw [← hcrest t hne]; omega) hcnt0
            omega
      · have hk' : k - 1 < rest.count s := by omega
        obtain ⟨u', hnth, hval⟩ := buildTableU16_spec rest
          (table.set (lc.getD s 0) ((ts + u0) % 2 ^ 16))
          (lc.set s (lc.getD s 0 + 1)) (u0 + 1) ts hb' hinj' hmem' s (k - 1) hk'
        refine ⟨u' + 1, by rw [nthOcc, if_pos rfl, if_neg hkz, hnth]; rfl, ?_⟩
        rw [buildTableU16]
        rw [show lc.getD s 0 + k = (lc.set s (lc.getD s 0 + 1)).getD s 0 + (k - 1) from
          by rw [hlcs]; omega]
        rw [hval]
        congr 2
        omega
    · have hcs : rest.count s = (s0 :: rest).count s := hcrest s hss
      obtain ⟨u', hnth, hval⟩ := buildTableU16_spec rest
        (table.set (lc.getD s0 0) ((ts + u0) % 2 ^ 16))
        (lc.set s0 (lc.getD s0 0 + 1)) (u0 + 1) ts hb' hinj' hmem' s k
        (by omega)
      refine ⟨u' + 1, by rw [nthOcc, if_neg (fun h => hss h.symm), hnth]; rfl, ?_⟩
      rw [buildTableU16]
      rw [show lc.getD s 0 + k = (lc.set s0 (lc.getD s0 0 + 1)).getD s 0 + k from
        by rw [hlc' s hss]]
      rw [hval]
      congr 2
      omega

theorem cumulAux_length : ∀ (norm : List Nat) (acc : Nat),
    (cumulAux norm acc).length = norm.length
  | [], _ => rfl
  | n :: rest, acc => by simp [cumulAux, cumulAux_length rest]

theorem cumulAux_getD : ∀ (norm : List Nat) (acc s : Nat), s < norm.length →
    (cumulAux norm acc).getD s 0 = acc + (norm.take s).sum
  | [], _, s, h => by simp at h
  | n :: rest, acc, 0, _ => by simp [cumulAux]
  | n :: rest, acc, s + 1, h => by
    simp only [cumulAux, List.getD_cons_succ, List.take_succ_cons, List.sum_cons]
    rw [cumulAux_getD rest (acc + n) s (by simpa using h)]
    omega

theorem take_sum_getD : ∀ (l : List Nat) (s : Nat), s < l.length →
    (l.take (s + 1)).sum = (l.take s).sum + l.getD s 0
  | [], s, h => by simp at h
  | x :: rest, 0, _ => by simp
  | x :: rest, s + 1, h => by
    simp only [List.take_succ_cons, List.sum_cons, List.getD_cons_succ]
    rw [take_sum_getD rest s (by simpa using h)]
    omega

theorem take_sum_le (l : List Nat) (k : Nat) : (l.take k).sum ≤ l.sum := by
  conv_rhs => rw [← List.take_append_drop k l]
  rw [List.sum_append]
  omega

theorem take_sum_mono : ∀ (l : List Nat) (a b : Nat), a ≤ b →
    (l.take a).sum ≤ (l.take b).sum
  | [], _, _, _ => by simp
  | x :: rest, 0, b, _ => by simp
  | x :: rest, a + 1, 0, h => by omega
  | x :: rest, a + 1, b + 1, h => by
    simp only [List.take_succ_cons, List.sum_cons]
    have := take_sum_mono rest a b (by omega)
    omega

theorem buildSymTT_getD (tl ts : Nat) : ∀ (norm : List Nat) (total s : Nat),
    s < norm.length →
    (buildSymTT tl ts norm total).getD s ⟨0, 0⟩ =
      symTTEntry tl ts (norm.getD s 0) (total + (norm.take s).sum)
  | [], _, s, h => by simp at h
  | f :: rest, total, 0, _ => by simp [buildSymTT]
  | f :: rest, total, s + 1, h => by
    simp only [buildSymTT, List.getD_cons_succ, List.take_succ_cons, List.sum_cons]
    rw [buildSymTT_getD tl ts rest (total + f) s (by simpa using h)]
    congr 1
    omega

/-- Fields and bounds of a decode entry `mkDecodeEntry tl ts s q` when
`q` lies in the binade `[2^(tl-nb), 2^(tl-nb+1))`: the stored bit width is
exactly `nb`, the base is `q·2^nb - table_size`, and base plus the read
range stays within the table. -/
theorem mkDecodeEntry_fields (tl ts s q nb : Nat) (hts : ts = 2 ^ tl)
    (htl : tl ≤ 15) (hnb : nb ≤ tl) (hq1 : 2 ^ (tl - nb) ≤ q)
    (hq2 : q < 2 ^ (tl - nb + 1)) :
    (mkDecodeEntry tl ts s q).nb_bits = nb ∧
    (mkDecodeEntry tl ts s q).new_state_base = q * 2 ^ nb - ts ∧
    ts ≤ q * 2 ^ nb ∧ q * 2 ^ nb - ts + 2 ^ nb ≤ ts ∧
    (mkDecodeEntry tl ts s q).symbol = s % 2 ^ 8 := by
  have hq0 : q ≠ 0 := by
    have : (0 : Nat) < 2 ^ (tl - nb) := Nat.pos_pow_of_pos _ (by omega)
    omega
  have hlog : Nat.log2 q = tl - nb := by
    have h1 : tl - nb ≤ Nat.log2 q := (Nat.le_log2 hq0).mpr hq1
    have h2 : Nat.log2 q < tl - nb + 1 := (Nat.log2_lt hq0).mpr hq2
    omega
  have hAP : 2 ^ (tl - nb) * 2 ^ nb = ts := by
    rw [hts, ← Nat.pow_add]
    congr 1
    omega
  have h2AP : 2 ^ (tl - nb + 1) * 2 ^ nb = 2 * ts := by
    rw [hts, ← Nat.pow_add]
    rw [show tl - nb + 1 + nb = tl + 1 from by omega, Nat.pow_succ]
    ring
  have hge : ts ≤ q * 2 ^ nb := by
    calc ts = 2 ^ (tl - nb) * 2 ^ nb := hAP.symm
      _ ≤ q * 2 ^ nb := Nat.mul_le_mul_right _ hq1
  have hlt : q * 2 ^ nb < 2 * ts := by
    calc q * 2 ^ nb < 2 ^ (tl - nb + 1) * 2 ^ nb :=
          (Nat.mul_lt_mul_right (Nat.pos_pow_of_pos _ (by omega))).mpr hq2
      _ = 2 * ts := h2AP
  have hbound : q * 2 ^ nb - ts + 2 ^ nb ≤ ts := by
    have hq3 : q + 1 ≤ 2 ^ (tl - nb + 1) := by omega
    have : (q + 1) * 2 ^ nb ≤ 2 ^ (tl - nb + 1) * 2 ^ nb :=
      Nat.mul_le_mul_right _ hq3
    rw [h2AP] at this
    have hd : (q + 1) * 2 ^ nb = q * 2 ^ nb + 2 ^ nb := by ring
    omega
  have hts16 : 2 * ts ≤ 2 ^ 16 := by
    rw [hts, show (2 : Nat) ^ 16 = 2 * 2 ^ 15 from by norm_num]
    exact Nat.mul_le_mul_left 2 (Nat.pow_le_pow_right (by norm_num) htl)
  have hmax : max 1 q = q := Nat.max_eq_right (by omega)
  have hfl : floor_log2 (max 1 q) = tl - nb := by
    rw [hmax, floor_log2_eq_log2, hlog]
  have hnbv : tl - floor_log2 (max 1 q) = nb := by
    rw [hfl]
    omega
  have hx32 : (q * 2 ^ nb : Nat) < 2 ^ 32 := by
    have h1 : (2 : Nat) ^ 16 ≤ 2 ^ 32 := Nat.pow_le_pow_right (by norm_num) (by norm_num)
    omega
  have hbase : ((((q * 2 ^ nb : Nat) : Int) - (ts : Int)) % (2 ^ 32)).toNat % 2 ^ 16 =
      q * 2 ^ nb - ts := by
    have hxnn : (0 : Int) ≤ ((q * 2 ^ nb : Nat) : Int) - (ts : Int) := by omega
    have hxlt : ((q * 2 ^ nb : Nat) : Int) - (ts : Int) < 2 ^ 32 := by omega
    rw [Int.emod_eq_of_lt hxnn hxlt]
    have htn : ((((q * 2 ^ nb : Nat) : Int) - (ts : Int)).toNat) = q * 2 ^ nb - ts := by
      omega
    rw [htn]
    exact Nat.mod_eq_of_lt (by omega)
  have hentry : mkDecodeEntry tl ts s q = ⟨q * 2 ^ nb - ts, nb, s % 2 ^ 8⟩ := by
    simp only [mkDecodeEntry]
    rw [hnbv, hbase, Nat.mod_eq_of_lt (show nb < 2 ^ 8 by omega)]
  exact ⟨by rw [hentry], by rw [hentry], hge, hbound, by rw [hentry]⟩

/-- Bound on any decode entry whose `symbol_next` value lies in
`[1, 2·table_size)`: the base plus the read range stays within the table. -/
theorem mkDecodeEntry_bound (tl ts s nse : Nat) (hts : ts = 2 ^ tl) (htl : tl ≤ 15)
    (h1 : 1 ≤ nse) (h2 : nse < 2 * ts) :
    (mkDecodeEntry tl ts s nse).new_state_base +
      2 ^ (mkDecodeEntry tl ts s nse).nb_bits ≤ ts := by
  have hne0 : nse ≠ 0 := by omega
  have hL : Nat.log2 nse ≤ tl := by
    have : nse < 2 ^ (tl + 1) := by
      rw [hts] at h2
      calc nse < 2 * 2 ^ tl := h2
        _ = 2 ^ (tl + 1) := by rw [Nat.pow_succ]; ring
    have := (Nat.log2_lt hne0).mpr this
    omega
  have hq1 : 2 ^ (tl - (tl - Nat.log2 nse)) ≤ nse := by
    rw [show tl - (tl - Nat.log2 nse) = Nat.log2 nse from by omega]
    exact Nat.log2_self_le hne0
  have hq2 : nse < 2 ^ (tl - (tl - Nat.log2 nse) + 1) := by
    rw [show tl - (tl - Nat.log2 nse) = Nat.log2 nse from by omega]
    exact Nat.lt_log2_self
  obtain ⟨hnb, hbase, hge, hbound, _⟩ := mkDecodeEntry_fields tl ts s nse
    (tl - Nat.log2 nse) hts htl (by omega) hq1 hq2
  rw [hnb, hbase]
  exact hbound

theorem FSETables_make_ok (p : FSEParams) (T : FSETables)
    (h : FSETables.make p = .ok T) :
    p.table_log ≤ 16 ∧ ∃ sp, spreadTable p.normalized p.table_log = .ok sp ∧
      T = ⟨p.table_log, p.table_size, p.data_block_size_bits, p.counts.length,
        sp.map (fun o => o.getD 0),
        buildDtable p.table_log p.table_size p.normalized (sp.map (fun o => o.getD 0)),
        buildTableU16 (List.replicate p.table_size 0) (cumulAux p.normalized 0)
          (sp.map (fun o => o.getD 0)) 0 p.table_size,
        buildSymTT p.table_log p.table_size p.normalized 0⟩ := by
  unfold FSETables.make at h
  by_cases h1 : 16 < p.table_log
  · rw [if_pos h1] at h
    exact Except.noConfusion h
  rw [if_neg h1] at h
  cases hsp : spreadTable p.normalized p.table_log with
  | error e =>
    rw [hsp] at h
    exact Except.noConfusion h
  | ok sp =>
    rw [hsp] at h
    dsimp only at h
    refine ⟨by omega, sp, rfl, ?_⟩
    injection h with h2
    exact h2.symm

theorem all_filled_of_getD (sp : List (Option Nat))
    (h : ∀ u, u < sp.length → sp.getD u none ≠ none) : ∀ x ∈ sp, x ≠ none := by
  intro x hx
  obtain ⟨i, hi, hix⟩ := List.mem_iff_getElem.mp hx
  intro hc
  apply h i hi
  rw [List.getD_eq_getElem?_getD, List.getElem?_eq_getElem hi, hix, hc]
  rfl

theorem map_getD_eq_filterMap : ∀ (sp : List (Option Nat)), (∀ x ∈ sp, x ≠ none) →
    sp.map (fun o => o.getD 0) = sp.filterMap id
  | [], _ => rfl
  | none :: rest, h => absurd rfl (h none (by simp))
  | some v :: rest, h => by
    simp only [List.map_cons, List.filterMap_cons, id, Option.getD_some]
    rw [map_getD_eq_filterMap rest (fun x hx => h x (by simp [hx]))]

/-- Everything the block-codec lemmas need to know about a built table
structure: the parameters, a fully-placed spread with the exact occurrence
counts, and the three derived tables. -/
structure GoodTables (norm : List Nat) (tl : Nat) (T : FSETables) : Prop where
  htl : tl ≤ 15
  hsum : norm.sum = 2 ^ tl
  htlog : T.table_log = tl
  hts : T.table_size = 2 ^ tl
  hsv_len : T.spread.length = 2 ^ tl
  hsv_count : ∀ s, T.spread.count s = norm.getD s 0
  hsv_mem : ∀ s ∈ T.spread, s < norm.length
  hdt : T.dtable = buildDtable tl (2 ^ tl) norm T.spread
  htu : T.tableU16 = buildTableU16 (List.replicate (2 ^ tl) 0) (cumulAux norm 0)
    T.spread 0 (2 ^ tl)
  hst : T.symTT = buildSymTT tl (2 ^ tl) norm 0

/-- Building tables from accepted parameters (with `table_log ≤ 15`)
yields a `GoodTables` structure over the normalized frequencies. -/
theorem tables_setup (counts : List Nat) (tlog : Nat) (p : FSEParams) (T : FSETables)
    (hp : FSEParams.make counts tlog = .ok p) (htl15 : tlog ≤ 15)
    (hT : FSETables.make p = .ok T) :
    GoodTables p.normalized tlog T ∧ T.data_block_size_bits = 32 ∧
      p.normalized.sum = 2 ^ tlog := by
  obtain ⟨htl16, hne, htot, hpe⟩ := FSEParams_make_ok counts tlog p hp
  have hnorm : p.normalized = normalizeCounts counts (2 ^ tlog) := by rw [hpe]
  have htlp : p.table_log = tlog := by rw [hpe]
  have htsp : p.table_size = 2 ^ tlog := by rw [hpe]
  have hdbsb : p.data_block_size_bits = 32 := by rw [hpe]
  obtain ⟨hlen', hsum', hrev', _⟩ := normalizeCounts_spec counts (2 ^ tlog) hne htot
    (Nat.pos_pow_of_pos _ (by omega))
  have hsum : p.normalized.sum = 2 ^ tlog := by rw [hnorm]; exact hsum'
  obtain ⟨_, sp, hsp, hTe⟩ := FSETables_make_ok p T hT
  rw [htlp] at hsp
  obtain ⟨sp', hsp', hsplen, hfill, hperm⟩ := spreadTable_full p.normalized tlog
    (by omega) hsum
  rw [hsp] at hsp'
  have hspe : sp = sp' := Except.ok.inj hsp'
  subst hspe
  have hall : ∀ x ∈ sp, x ≠ none := all_filled_of_getD sp (by rw [hsplen]; exact hfill)
  have hsv : sp.map (fun o => o.getD 0) = sp.filterMap id := map_getD_eq_filterMap sp hall
  refine ⟨?_, by rw [hTe]; exact hdbsb, hsum⟩
  refine ⟨htl15, hsum, by rw [hTe]; exact htlp, by rw [hTe]; exact htsp, ?_, ?_, ?_,
    ?_, ?_, ?_⟩
  · rw [hTe]
    show (sp.map (fun o => o.getD 0)).length = 2 ^ tlog
    rw [List.length_map, hsplen]
  · intro s
    rw [hTe]
    show (sp.map (fun o => o.getD 0)).count s = p.normalized.getD s 0
    rw [hsv, hperm.count_eq, symRepeats_count]
  · intro s hs
    rw [hTe] at hs
    replace hs : s ∈ sp.map (fun o => o.getD 0) := hs
    rw [hsv] at hs
    exact (symRepeats_mem p.normalized s (hperm.mem_iff.mp hs)).2
  · rw [hTe]
    show buildDtable p.table_log p.table_size p.normalized _ =
      buildDtable tlog (2 ^ tlog) p.normalized _
    rw [htlp, htsp]
  · rw [hTe]
    show buildTableU16 (List.replicate p.table_size 0) (cumulAux p.normalized 0) _ 0
        p.table_size =
      buildTableU16 (List.replicate (2 ^ tlog) 0) (cumulAux p.normalized 0) _ 0
        (2 ^ tlog)
    rw [htsp]
  · rw [hTe]
    show buildSymTT p.table_log p.table_size p.normalized 0 =
      buildSymTT tlog (2 ^ tlog) p.normalized 0
    rw [htlp, htsp]

theorem wrap_sub_eq {a b : Nat} (hba : b ≤ a) (ha : a < 2 ^ 32) :
    (a + 2 ^ 32 - b) % 2 ^ 32 = a - b := by
  have h1 : a + 2 ^ 32 - b = 2 ^ 32 + (a - b) := by omega
  rw [h1, Nat.add_mod_left]
  exact Nat.mod_eq_of_lt (by omega)

/-- The transform of a positive-frequency symbol, solved: there is a
`max_bits_out ∈ [1, table_log]` with `min_state_plus = f·2^mbo` in
`[table_size, 2·table_size]`, and no `uint32` wrap occurs. -/
theorem symTTEntry_pos_spec (tl ts f total : Nat) (hts : ts = 2 ^ tl)
    (htl1 : 1 ≤ tl) (htl : tl ≤ 15) (hf1 : 1 ≤ f) (hfts : f ≤ ts) :
    ∃ mbo, 1 ≤ mbo ∧ mbo ≤ tl ∧
      symTTEntry tl ts f total =
        ⟨mbo * 2 ^ 16 - f * 2 ^ mbo, (total : Int) - (f : Int)⟩ ∧
      ts ≤ f * 2 ^ mbo ∧ f * 2 ^ mbo ≤ 2 * ts := by
  have hts16 : 2 * ts ≤ 2 ^ 16 := by
    rw [hts, show (2 : Nat) ^ 16 = 2 * 2 ^ 15 from by norm_num]
    exact Nat.mul_le_mul_left 2 (Nat.pow_le_pow_right (by norm_num) htl)
  by_cases hf2 : 1 < f
  · set L := Nat.log2 (f - 1) with hLdef
    have hfne : f - 1 ≠ 0 := by omega
    have hlow : 2 ^ L ≤ f - 1 := Nat.log2_self_le hfne
    have hhigh : f - 1 < 2 ^ (L + 1) := Nat.lt_log2_self
    have hLtl : L ≤ tl - 1 := by
      have hflt : f - 1 < 2 ^ tl := by omega
      have := (Nat.log2_lt hfne).mpr hflt
      omega
    refine ⟨tl - L, by omega, by omega, ?_, ?_, ?_⟩
    · rw [symTTEntry, if_neg (by omega : ¬ f = 0)]
      dsimp only
      rw [if_pos hf2, floor_log2_eq_log2, ← hLdef]
      have hmsp2 : f * 2 ^ (tl - L) ≤ 2 * ts := by
        have hf' : f ≤ 2 ^ (L + 1) := by omega
        calc f * 2 ^ (tl - L) ≤ 2 ^ (L + 1) * 2 ^ (tl - L) :=
              Nat.mul_le_mul_right _ hf'
          _ = 2 ^ (L + 1 + (tl - L)) := by rw [← Nat.pow_add]
          _ = 2 ^ (tl + 1) := by congr 1; omega
          _ = 2 * ts := by rw [hts, Nat.pow_succ]; ring
      have hmod : (f * 2 ^ (tl - L)) % 2 ^ 32 = f * 2 ^ (tl - L) :=
        Nat.mod_eq_of_lt (by
          have h32 : (2 : Nat) ^ 16 < 2 ^ 32 := by norm_num
          omega)
      rw [hmod, wrap_sub_eq (by
          have h1 : f * 2 ^ (tl - L) ≤ 2 ^ 16 := by omega
          have h2 : 2 ^ 16 ≤ (tl - L) * 2 ^ 16 :=
            Nat.le_mul_of_pos_left _ (by omega)
          omega)
        (by
          have : (tl - L) * 2 ^ 16 ≤ 15 * 2 ^ 16 :=
            Nat.mul_le_mul_right _ (by omega)
          have h15 : (15 : Nat) * 2 ^ 16 < 2 ^ 32 := by norm_num
          omega)]
    · have hf' : 2 ^ L < f := by omega
      calc ts = 2 ^ L * 2 ^ (tl - L) := by
            rw [← Nat.pow_add, hts]
            congr 1
            omega
        _ ≤ f * 2 ^ (tl - L) := Nat.mul_le_mul_right _ (by omega)
    · have hf' : f ≤ 2 ^ (L + 1) := by omega
      calc f * 2 ^ (tl - L) ≤ 2 ^ (L + 1) * 2 ^ (tl - L) :=
            Nat.mul_le_mul_right _ hf'
        _ = 2 ^ (L + 1 + (tl - L)) := by rw [← Nat.pow_add]
        _ = 2 ^ (tl + 1) := by congr 1; omega
        _ = 2 * ts := by rw [hts, Nat.pow_succ]; ring
  · have hf : f = 1 := by omega
    subst hf
    refine ⟨tl, htl1, le_refl tl, ?_, by rw [hts]; omega, by rw [hts]; omega⟩
    rw [symTTEntry, if_neg (by omega : ¬ (1 : Nat) = 0)]
    dsimp only
    rw [if_neg (by omega : ¬ (1 : Nat) < 1)]
    have hmod : ((1 : Nat) * 2 ^ tl) % 2 ^ 32 = 1 * 2 ^ tl :=
      Nat.mod_eq_of_lt (by
        have : (2 : Nat) ^ tl ≤ 2 ^ 15 := Nat.pow_le_pow_right (by norm_num) htl
        have h32 : (2 : Nat) ^ 15 < 2 ^ 32 := by norm_num
        omega)
    rw [hmod, wrap_sub_eq (by
        have h1 : (1 : Nat) * 2 ^ tl ≤ 2 ^ 15 := by
          have := Nat.pow_le_pow_right (show 1 ≤ 2 by norm_num) htl
          omega
        have h2 : 2 ^ 16 ≤ tl * 2 ^ 16 := Nat.le_mul_of_pos_left _ (by omega)
        have h3 : (2 : Nat) ^ 15 < 2 ^ 16 := by norm_num
        omega)
      (by
        have : tl * 2 ^ 16 ≤ 15 * 2 ^ 16 := Nat.mul_le_mul_right _ htl
        have h15 : (15 : Nat) * 2 ^ 16 < 2 ^ 32 := by norm_num
        omega)]

/-- Encode/decode table coupling: for a symbol `s` of frequency `f` and any
`q ∈ [f, 2f)`, the encode table at `cumul[s] + (q - f)` holds
`table_size + u` for a slot `u` whose decode entry was built with
`symbol_next = q`. -/
theorem tables_link (norm : List Nat) (tl : Nat) (T : FSETables)
    (hg : GoodTables norm tl T) (s q : Nat) (hs : s < norm.length)
    (hf : 1 ≤ norm.getD s 0) (hq1 : norm.getD s 0 ≤ q)
    (hq2 : q < 2 * norm.getD s 0) :
    ∃ u, u < 2 ^ tl ∧
      T.tableU16.getD ((norm.take s).sum + (q - norm.getD s 0)) 0 = 2 ^ tl + u ∧
      T.dtable.getD u ⟨0, 0, 0⟩ = mkDecodeEntry tl (2 ^ tl) s q := by
  obtain ⟨htl, hsum, htlog, hts, hsvlen, hsvcount, hsvmem, hdt, htu, hst⟩ := hg
  have hcum : ∀ t, t < norm.length → (cumulAux norm 0).getD t 0 = (norm.take t).sum := by
    intro t ht
    rw [cumulAux_getD norm 0 t ht]
    omega
  have hseg : ∀ t j, j < norm.getD t 0 → (norm.take t).sum + j < 2 ^ tl := by
    intro t j hj
    have ht : t < norm.length := lt_length_of_getD_pos (by omega)
    have h1 := take_sum_getD norm t ht
    have h2 := take_sum_le norm (t + 1)
    omega
  have hb : ∀ t j, j < T.spread.count t →
      (cumulAux norm 0).getD t 0 + j < (List.replicate (2 ^ tl) (0 : Nat)).length := by
    intro t j hj
    rw [hsvcount t] at hj
    have ht : t < norm.length := lt_length_of_getD_pos (by omega)
    rw [hcum t ht, List.length_replicate]
    exact hseg t j hj
  have hsegmono : ∀ t t', t < t' → t' < norm.length →
      (norm.take t).sum + norm.getD t 0 ≤ (norm.take t').sum := by
    intro t t' htt ht'
    have h1 := take_sum_getD norm t (by omega)
    have h2 := take_sum_mono norm (t + 1) t' (by omega)
    omega
  have hinj : ∀ t t' js jt, t ≠ t' → js < T.spread.count t → jt < T.spread.count t' →
      (cumulAux norm 0).getD t 0 + js ≠ (cumulAux norm 0).getD t' 0 + jt := by
    intro t t' js jt hne hjs hjt
    rw [hsvcount t] at hjs
    rw [hsvcount t'] at hjt
    have ht : t < norm.length := lt_length_of_getD_pos (by omega)
    have ht' : t' < norm.length := lt_length_of_getD_pos (by omega)
    rw [hcum t ht, hcum t' ht']
    rcases lt_or_gt_of_ne hne with h | h
    · have := hsegmono t t' h ht'
      omega
    · have := hsegmono t' t h ht
      omega
  have hmem : ∀ t ∈ T.spread, t < (cumulAux norm 0).length := by
    intro t ht
    rw [cumulAux_length]
    exact hsvmem t ht
  have hk : q - norm.getD s 0 < T.spread.count s := by
    rw [hsvcount s]
    omega
  obtain ⟨u, hnth, hval⟩ := buildTableU16_spec T.spread
    (List.replicate (2 ^ tl) 0) (cumulAux norm 0) 0 (2 ^ tl) hb hinj hmem s
    (q - norm.getD s 0) hk
  obtain ⟨hulen, husym, hucount⟩ := nthOcc_some_spec T.spread s (q - norm.getD s 0) u hnth
  have hult : u < 2 ^ tl := by omega
  have hmod : (2 ^ tl + (0 + u)) % 2 ^ 16 = 2 ^ tl + u := by
    have h1 : (2 : Nat) ^ tl ≤ 2 ^ 15 := Nat.pow_le_pow_right (by norm_num) htl
    have h2 : (2 : Nat) ^ 15 + 2 ^ 15 ≤ 2 ^ 16 := by norm_num
    rw [Nat.zero_add]
    exact Nat.mod_eq_of_lt (by omega)
  refine ⟨u, hult, ?_, ?_⟩
  · rw [htu, ← hcum s hs, hval, hmod]
  · rw [hdt, buildDtable_getD tl (2 ^ tl) T.spread norm u (by omega)
      (fun t ht => hsvmem t ht), husym, hucount]
    congr 1
    omega

/-- One encoder step from a canonical state `[table_size, 2·table_size)`
on a positive-frequency symbol: the emitted width is at most `table_log`,
the output bits are `state mod 2^nb`, the next state is again canonical,
and the decode entry of the landing slot was built with `symbol_next =
state / 2^nb` (in the binade that makes its stored width exactly `nb`). -/
theorem encStep_spec (norm : List Nat) (tl : Nat) (T : FSETables)
    (hg : GoodTables norm tl T) (htl1 : 1 ≤ tl) (s st : Nat)
    (hs : s < norm.length) (hf : 1 ≤ norm.getD s 0)
    (hst1 : 2 ^ tl ≤ st) (hst2 : st < 2 ^ (tl + 1)) :
    ∃ nb u, encStep T st s = (nb, st % 2 ^ nb, 2 ^ tl + u) ∧ nb ≤ tl ∧
      u < 2 ^ tl ∧
      T.dtable.getD u ⟨0, 0, 0⟩ = mkDecodeEntry tl (2 ^ tl) s (st / 2 ^ nb) ∧
      2 ^ (tl - nb) ≤ st / 2 ^ nb ∧ st / 2 ^ nb < 2 ^ (tl - nb + 1) ∧
      norm.getD s 0 ≤ st / 2 ^ nb ∧ st / 2 ^ nb < 2 * norm.getD s 0 := by
  have htl := hg.htl
  have hsum := hg.hsum
  have hfts : norm.getD s 0 ≤ 2 ^ tl := by
    have := getD_le_sum norm s
    omega
  have hTT0 : T.symTT.getD s ⟨0, 0⟩ =
      symTTEntry tl (2 ^ tl) (norm.getD s 0) (0 + (norm.take s).sum) := by
    rw [hg.hst]
    exact buildSymTT_getD tl (2 ^ tl) norm 0 s hs
  obtain ⟨mbo, hmbo1, hmbo2, hentry, hmsp1, hmsp2⟩ := symTTEntry_pos_spec tl (2 ^ tl)
    (norm.getD s 0) (0 + (norm.take s).sum) rfl htl1 htl hf hfts
  have hTT : T.symTT.getD s ⟨0, 0⟩ =
      ⟨mbo * 2 ^ 16 - norm.getD s 0 * 2 ^ mbo,
        ((0 + (norm.take s).sum : Nat) : Int) - ((norm.getD s 0 : Nat) : Int)⟩ := by
    rw [hTT0, hentry]
  set f := norm.getD s 0 with hfdef
  set msp := f * 2 ^ mbo with hmspdef
  have h2t16 : 2 * 2 ^ tl ≤ 2 ^ 16 := by
    rw [show (2 : Nat) ^ 16 = 2 * 2 ^ 15 from by norm_num]
    exact Nat.mul_le_mul_left 2 (Nat.pow_le_pow_right (by norm_num) htl)
  have hmbo16 : 2 ^ 16 ≤ mbo * 2 ^ 16 := Nat.le_mul_of_pos_left _ (by omega)
  have hmbo16' : mbo * 2 ^ 16 ≤ 15 * 2 ^ 16 := Nat.mul_le_mul_right _ (by omega)
  have h1516 : (15 : Nat) * 2 ^ 16 + 2 ^ 16 < 2 ^ 32 := by norm_num
  have hstlt : st < 2 ^ 16 := by
    have : (2 : Nat) ^ (tl + 1) = 2 * 2 ^ tl := by rw [Nat.pow_succ]; ring
    omega
  have hmodid : (st + (mbo * 2 ^ 16 - msp)) % 2 ^ 32 =
      st + (mbo * 2 ^ 16 - msp) := Nat.mod_eq_of_lt (by omega)
  -- the value of nb_out and the subrange bounds, by cases on st ≥ msp
  have hkey : ∃ nb, (st + (mbo * 2 ^ 16 - msp)) / 2 ^ 16 = nb ∧ nb ≤ tl ∧
      f ≤ st / 2 ^ nb ∧ st / 2 ^ nb < 2 * f := by
    by_cases hc : msp ≤ st
    · refine ⟨mbo, ?_, by omega, ?_, ?_⟩
      · have he : st + (mbo * 2 ^ 16 - msp) = 2 ^ 16 * mbo + (st - msp) := by omega
        rw [he, Nat.mul_add_div (by norm_num)]
        have : (st - msp) / 2 ^ 16 = 0 := Nat.div_eq_of_lt (by omega)
        omega
      · rw [Nat.le_div_iff_mul_le (Nat.pos_pow_of_pos _ (by norm_num))]
        omega
      · rw [Nat.div_lt_iff_lt_mul (Nat.pos_pow_of_pos _ (by norm_num))]
        have h2 : (2 : Nat) ^ (tl + 1) = 2 * 2 ^ tl := by rw [Nat.pow_succ]; ring
        have h3 : 2 * f * 2 ^ mbo = 2 * msp := by rw [hmspdef]; ring
        omega
    · have hmm1 : 1 ≤ mbo := hmbo1
      have hpow : (2 : Nat) ^ mbo = 2 * 2 ^ (mbo - 1) := by
        conv_lhs => rw [show mbo = (mbo - 1) + 1 from by omega]
        rw [Nat.pow_succ]
        ring
      have hsplit : msp = 2 * (f * 2 ^ (mbo - 1)) := by
        rw [hmspdef, hpow]
        ring
      refine ⟨mbo - 1, ?_, by omega, ?_, ?_⟩
      · have hd : 0 < msp - st := by omega
        have hd2 : msp - st ≤ 2 ^ tl := by omega
        have htl15 : (2 : Nat) ^ tl ≤ 2 ^ 15 := Nat.pow_le_pow_right (by norm_num) htl
        have he : st + (mbo * 2 ^ 16 - msp) =
            2 ^ 16 * (mbo - 1) + (2 ^ 16 - (msp - st)) := by
          have : 2 ^ 16 * mbo = 2 ^ 16 * (mbo - 1) + 2 ^ 16 := by
            rw [show mbo = (mbo - 1) + 1 from by omega]
            ring_nf
            omega
          omega
        rw [he, Nat.mul_add_div (by norm_num)]
        have h15' : (2 : Nat) ^ 15 < 2 ^ 16 := by norm_num
        have : (2 ^ 16 - (msp - st)) / 2 ^ 16 = 0 := Nat.div_eq_of_lt (by omega)
        omega
      · rw [Nat.le_div_iff_mul_le (Nat.pos_pow_of_pos _ (by norm_num))]
        omega
      · rw [Nat.div_lt_iff_lt_mul (Nat.pos_pow_of_pos _ (by norm_num))]
        have h3 : 2 * f * 2 ^ (mbo - 1) = 2 * (f * 2 ^ (mbo - 1)) := by ring
        omega
  obtain ⟨nb, hnbval, hnbtl, hq1, hq2⟩ := hkey
  have hq0 : 1 ≤ st / 2 ^ nb := by omega
  -- binade of the subrange
  have hbin1 : 2 ^ (tl - nb) ≤ st / 2 ^ nb := by
    have h1 : (2 : Nat) ^ tl / 2 ^ nb = 2 ^ (tl - nb) :=
      Nat.pow_div hnbtl (by norm_num)
    calc (2 : Nat) ^ (tl - nb) = 2 ^ tl / 2 ^ nb := h1.symm
      _ ≤ st / 2 ^ nb := Nat.div_le_div_right hst1
  have hbin2 : st / 2 ^ nb < 2 ^ (tl - nb + 1) := by
    rw [Nat.div_lt_iff_lt_mul (Nat.pos_pow_of_pos _ (by norm_num))]
    calc st < 2 ^ (tl + 1) := hst2
      _ = 2 ^ (tl - nb + 1) * 2 ^ nb := by
          rw [← Nat.pow_add]
          congr 1
          omega
  -- the encode-table lookup index
  have htsums : (norm.take s).sum + f ≤ 2 ^ tl := by
    have h1 := take_sum_getD norm s hs
    have h2 := take_sum_le norm (s + 1)
    omega
  have hidx : ((((st / 2 ^ nb : Nat) : Int) +
      (((0 + (norm.take s).sum : Nat) : Int) - ((f : Nat) : Int))) % (2 ^ 32)).toNat =
      (norm.take s).sum + (st / 2 ^ nb - f) := by
    have hnn : (0 : Int) ≤ ((st / 2 ^ nb : Nat) : Int) +
        (((0 + (norm.take s).sum : Nat) : Int) - ((f : Nat) : Int)) := by omega
    have hlt : ((st / 2 ^ nb : Nat) : Int) +
        (((0 + (norm.take s).sum : Nat) : Int) - ((f : Nat) : Int)) < 2 ^ 32 := by
      have h32 : (2 : Nat) ^ tl < 2 ^ 32 := by
        have : (2 : Nat) ^ tl ≤ 2 ^ 15 := Nat.pow_le_pow_right (by norm_num) htl
        have h15 : (2 : Nat) ^ 15 < 2 ^ 32 := by norm_num
        omega
      omega
    rw [Int.emod_eq_of_lt hnn hlt]
    omega
  obtain ⟨u, hult, hval, hdt⟩ := tables_link norm tl T hg s (st / 2 ^ nb) hs hf hq1 hq2
  refine ⟨nb, u, ?_, hnbtl, hult, hdt, hbin1, hbin2, hq1, hq2⟩
  rw [encStep, hTT]
  dsimp only
  rw [hmodid, hnbval]
  rw [if_neg (show ¬ nb = 32 by omega)]
  rw [show (2 : Nat) ^ nb - 1 = 2 ^ nb - 1 from rfl, Nat.and_pow_two_sub_one_eq_mod]
  rw [hidx, hval]

/-- The symbol index and `symbol_next` value of any decode slot: the value
lies in `[1, 2·table_size)`. -/
theorem goodTables_dtable_nse (norm : List Nat) (tl : Nat) (T : FSETables)
    (hg : GoodTables norm tl T) (u : Nat) (hu : u < 2 ^ tl) :
    ∃ s' nse, T.dtable.getD u ⟨0, 0, 0⟩ = mkDecodeEntry tl (2 ^ tl) s' nse ∧
      1 ≤ nse ∧ nse < 2 * 2 ^ tl := by
  obtain ⟨htl, hsum, htlog, hts, hsvlen, hsvcount, hsvmem, hdt, htu, hst⟩ := hg
  have hul : u < T.spread.length := by omega
  have hmemu : T.spread.getD u 0 ∈ T.spread := by
    rw [List.getD_eq_getElem?_getD, List.getElem?_eq_getElem hul]
    exact List.getElem_mem hul
  set s' := T.spread.getD u 0 with hsdef
  have hcpos : 0 < T.spread.count s' := List.count_pos_iff.mpr hmemu
  have hctl : (T.spread.take u).count s' < T.spread.count s' := by
    have h1 : T.spread.take (u + 1) = T.spread.take u ++ [s'] := by
      rw [List.take_succ, List.getElem?_eq_getElem hul]
      congr 1
      rw [hsdef, List.getD_eq_getElem?_getD, List.getElem?_eq_getElem hul]
      rfl
    have h2 : (T.spread.take (u + 1)).count s' ≤ T.spread.count s' :=
      (List.take_sublist _ _).count_le _
    rw [h1, List.count_append] at h2
    have h3 : List.count s' [s'] = 1 := by simp
    omega
  refine ⟨s', norm.getD s' 0 + (T.spread.take u).count s', ?_, ?_, ?_⟩
  · rw [hdt]
    exact buildDtable_getD tl (2 ^ tl) T.spread norm u hul (fun t ht => hsvmem t ht)
  · have := hsvcount s'
    omega
  · have h1 := hsvcount s'
    have h2 : norm.getD s' 0 ≤ 2 ^ tl := by
      have := getD_le_sum norm s'
      omega
    omega

/-- C10: every decode-table entry of tables built from accepted parameters
(`table_log ≤ 15`) satisfies `new_state_base + 2^nb_bits ≤ table_size`;
consequently from any in-range state the decoder's next state stays below
`table_size` whatever bits are read. -/
theorem claim_c10_decoder_state_safety (counts : List Nat) (tlog : Nat)
    (p : FSEParams) (T : FSETables) (hp : FSEParams.make counts tlog = .ok p)
    (htl : tlog ≤ 15) (hT : FSETables.make p = .ok T) :
    (∀ u, u < T.table_size →
      (T.dtable.getD u ⟨0, 0, 0⟩).new_state_base +
        2 ^ (T.dtable.getD u ⟨0, 0, 0⟩).nb_bits ≤ T.table_size) ∧
    (∀ st bits, st < T.table_size →
      bits < 2 ^ (T.dtable.getD st ⟨0, 0, 0⟩).nb_bits →
      (T.dtable.getD st ⟨0, 0, 0⟩).new_state_base + bits < T.table_size) := by
  obtain ⟨hg, _, _⟩ := tables_setup counts tlog p T hp htl hT
  have hts := hg.hts
  have hbound : ∀ u, u < T.table_size →
      (T.dtable.getD u ⟨0, 0, 0⟩).new_state_base +
        2 ^ (T.dtable.getD u ⟨0, 0, 0⟩).nb_bits ≤ T.table_size := by
    intro u hu
    rw [hts] at hu ⊢
    obtain ⟨s', nse, he, h1, h2⟩ := goodTables_dtable_nse p.normalized tlog T hg u hu
    rw [he]
    exact mkDecodeEntry_bound tlog (2 ^ tlog) s' nse rfl htl h1 h2
  refine ⟨hbound, fun st bits hst hb => ?_⟩
  have := hbound st hst
  omega

/-- C10 witness: the safety theorem applied to the concrete tables built
from `counts = [1, 1]`, `table_log = 1`. -/
theorem claim_c10_witness :
    ((⟨1, 2, 32, 2, [0, 1], [⟨0, 1, 0⟩, ⟨0, 1, 1⟩], [2, 3],
        [⟨65534, -1⟩, ⟨65534, 0⟩]⟩ : FSETables).dtable.getD 0
          ⟨0, 0, 0⟩).new_state_base +
      2 ^ ((⟨1, 2, 32, 2, [0, 1], [⟨0, 1, 0⟩, ⟨0, 1, 1⟩], [2, 3],
        [⟨65534, -1⟩, ⟨65534, 0⟩]⟩ : FSETables).dtable.getD 0
          ⟨0, 0, 0⟩).nb_bits ≤
      (⟨1, 2, 32, 2, [0, 1], [⟨0, 1, 0⟩, ⟨0, 1, 1⟩], [2, 3],
        [⟨65534, -1⟩, ⟨65534, 0⟩]⟩ : FSETables).table_size :=
  (claim_c10_decoder_state_safety [1, 1] 1 ⟨[1, 1], 1, 2, [1, 1], 32, 2⟩
    ⟨1, 2, 32, 2, [0, 1], [⟨0, 1, 0⟩, ⟨0, 1, 1⟩], [2, 3], [⟨65534, -1⟩, ⟨65534, 0⟩]⟩
    (by rfl) (by omega) (by rfl)).1 0 (by decide)

/-! ### Block codec round trip

The encoder lays down `(block_size, 32)`, then `(final_state_offset,
table_log)`, then the reversed chunk list; the decoder replays exactly
those widths.  `ReadsMSB`/`ReadsLSB` say that a chunk list is read back
value-for-value from a byte buffer starting at a bit position. -/

/-- Every pair of `chunks` is read back in sequence by the MSB reader
starting at `pos`: each read returns the chunk value (mod its width) and
advances by the width. -/
def ReadsMSB (data : List Nat) (L : Nat) : Nat → List (Nat × Nat) → Prop
  | _, [] => True
  | pos, c :: rest =>
    msbReadBits data L pos c.2 = .ok (c.1 % 2 ^ c.2, pos + c.2) ∧
      ReadsMSB data L (pos + c.2) rest

/-- Same, for the bounded LSB reader of `frame.cpp`. -/
def ReadsLSB (data : List Nat) (L : Nat) : Nat → List (Nat × Nat) → Prop
  | _, [] => True
  | pos, c :: rest =>
    frameReadBitsLSB data L pos c.2 = (c.1 % 2 ^ c.2, pos + c.2) ∧
      ReadsLSB data L (pos + c.2) rest

theorem streamBits_cons (c : Nat × Nat) (l : List (Nat × Nat)) :
    streamBits (c :: l) = c.2 + streamBits l := by
  simp [streamBits]

theorem streamBits_append (a b : List (Nat × Nat)) :
    streamBits (a ++ b) = streamBits a + streamBits b := by
  simp [streamBits]

theorem streamBits_reverse (l : List (Nat × Nat)) :
    streamBits l.reverse = streamBits l := by
  simp only [streamBits, List.map_reverse]
  exact List.sum_reverse _

theorem streamBits_le_of_widths : ∀ (l : List (Nat × Nat)) (k : Nat),
    (∀ c ∈ l, c.2 ≤ k) → streamBits l ≤ k * l.length
  | [], _, _ => by simp [streamBits]
  | c :: rest, k, h => by
    have h1 := streamBits_le_of_widths rest k (fun d hd => h d (by simp [hd]))
    have h2 : c.2 ≤ k := h c (by simp)
    rw [streamBits_cons]
    simp only [List.length_cons]
    calc c.2 + streamBits rest ≤ k + k * rest.length := by omega
      _ = k * (rest.length + 1) := by ring

/-- A whole MSB stream of total length `L` is replayable from position of
any suffix decomposition (mirrors `msbReadList_spec`). -/
theorem ReadsMSB_of_stream (data : List Nat) (L w : Nat) (hwf : MsbWF ⟨data, L⟩ w) :
    ∀ (appends : List (Nat × Nat)) (pos : Nat),
    streamBits appends = L - pos → pos ≤ L →
    w % 2 ^ (L - pos) = msbStreamVal appends →
    ReadsMSB data L pos appends := by
  intro appends
  induction appends with
  | nil =>
    intro pos _ _ _
    trivial
  | cons p rest ih =>
    intro pos hsb hpos hsuf
    obtain ⟨v, n⟩ := p
    simp only [streamBits, List.map_cons, List.sum_cons] at hsb
    have hrest : streamBits rest = L - (pos + n) := by
      simp only [streamBits]
      omega
    have hple : pos + n ≤ L := by omega
    have hsbr : L - pos - n = streamBits rest := by
      simp only [streamBits]
      omega
    have hvlt : msbStreamVal rest < 2 ^ streamBits rest := msbStreamVal_lt rest
    have hval : w / 2 ^ (L - pos - n) % 2 ^ n = v % 2 ^ n := by
      have h1 : (w % 2 ^ (L - pos)) / 2 ^ (streamBits rest) =
          w / 2 ^ (streamBits rest) % 2 ^ n := by
        rw [mod_pow_div_pow (by omega : streamBits rest ≤ L - pos)]
        have hee : L - pos - streamBits rest = n := by
          simp only [streamBits] at hsbr ⊢
          omega
        rw [hee]
      rw [hsbr, ← h1, hsuf]
      simp only [msbStreamVal]
      rw [Nat.add_comm, Nat.add_mul_div_right _ _ (Nat.two_pow_pos _),
        Nat.div_eq_of_lt hvlt, Nat.zero_add]
    have hsuf2 : w % 2 ^ (L - (pos + n)) = msbStreamVal rest := by
      have hd : (2 : Nat) ^ (L - (pos + n)) ∣ 2 ^ (L - pos) :=
        pow_dvd_pow 2 (by omega)
      rw [← Nat.mod_mod_of_dvd w hd, hsuf]
      simp only [msbStreamVal]
      have hse : L - (pos + n) = streamBits rest := by omega
      rw [hse, mul_pow_add_mod_pow, Nat.mod_eq_of_lt hvlt]
    exact ⟨by rw [msbReadBits_eq data L w hwf pos n hple, hval],
      ih (pos + n) hrest (by omega) hsuf2⟩

/-- Same for the bounded LSB reader (mirrors `lsbReadList_spec`): the
stream need not end at `L`, but must fit inside it. -/
theorem ReadsLSB_of_stream (data : List Nat) (hdata : ByteListWF data) (L : Nat) :
    ∀ (appends : List (Nat × Nat)) (pos : Nat),
    (∀ p ∈ appends, p.2 ≤ 32) →
    pos + streamBits appends ≤ L →
    lsbVal data / 2 ^ pos = lsbStreamVal appends →
    ReadsLSB data L pos appends := by
  intro appends
  induction appends with
  | nil =>
    intro pos _ _ _
    trivial
  | cons p rest ih =>
    intro pos hw hb hv
    obtain ⟨v, n⟩ := p
    have hsb : streamBits ((v, n) :: rest) = n + streamBits rest := streamBits_cons _ _
    have hple : pos + n ≤ L := by omega
    have hval : lsbVal data / 2 ^ pos % 2 ^ n = v % 2 ^ n := by
      rw [hv]
      simp only [lsbStreamVal]
      rw [Nat.add_mul_mod_self_left, Nat.mod_mod_of_dvd _ dvd_rfl]
    have hnext : lsbVal data / 2 ^ (pos + n) = lsbStreamVal rest := by
      rw [Nat.pow_add, ← Nat.div_div_eq_div_mul, hv]
      simp only [lsbStreamVal]
      rw [Nat.add_mul_div_left _ _ (Nat.two_pow_pos n),
        Nat.div_eq_of_lt (Nat.mod_lt _ (Nat.two_pow_pos n)), Nat.zero_add]
    refine ⟨?_, ih (pos + n) (fun q hq => hw q (by simp [hq])) (by omega) hnext⟩
    rw [frameReadBitsLSB_eq data hdata L pos n (hw (v, n) (by simp)) hple, hval]

/-! #### Writer bookkeeping: zero-width appends are no-ops, so the
zero-width filter of the block encoders does not change the writer state -/

theorem msbAppendBits_zero (st : BitWriterMSB) (v : Nat) :
    msbAppendBits st v 0 = st := rfl

theorem msbAppendList_filter : ∀ (l : List (Nat × Nat)) (st : BitWriterMSB),
    msbAppendList st (l.filter (fun c => c.2 != 0)) = msbAppendList st l
  | [], _ => rfl
  | (v, n) :: rest, st => by
    rcases Nat.eq_zero_or_pos n with hz | hp
    · subst hz
      rw [List.filter_cons_of_neg (by simp)]
      show msbAppendList st (rest.filter _) = msbAppendList (msbAppendBits st v 0) rest
      rw [msbAppendBits_zero]
      exact msbAppendList_filter rest st
    · rw [List.filter_cons_of_pos (by simp; omega)]
      show msbAppendList (msbAppendBits st v n) (rest.filter _) = _
      exact msbAppendList_filter rest _

theorem lsbAppendBits_zero (st : BitWriterLSB8) (v : Nat) :
    lsbAppendBits st v 0 = st := rfl

theorem lsbAppendList_filter : ∀ (l : List (Nat × Nat)) (st : BitWriterLSB8),
    lsbAppendList st (l.filter (fun c => c.2 != 0)) = lsbAppendList st l
  | [], _ => rfl
  | (v, n) :: rest, st => by
    rcases Nat.eq_zero_or_pos n with hz | hp
    · subst hz
      rw [List.filter_cons_of_neg (by simp)]
      show lsbAppendList st (rest.filter _) = lsbAppendList (lsbAppendBits st v 0) rest
      rw [lsbAppendBits_zero]
      exact lsbAppendList_filter rest st
    · rw [List.filter_cons_of_pos (by simp; omega)]
      show lsbAppendList (lsbAppendBits st v n) (rest.filter _) = _
      exact lsbAppendList_filter rest _

/-- `uint32_t` two's-complement subtraction of `b ≤ a < 2^32`, as a `Nat`. -/
theorem int_wrap_toNat {a b : Nat} (hba : b ≤ a) (ha : a < 2 ^ 32) :
    ((((a : Nat) : Int) - ((b : Nat) : Int)) % (2 ^ 32)).toNat = a - b := by
  have hnn : (0 : Int) ≤ ((a : Nat) : Int) - ((b : Nat) : Int) := by omega
  have hlt : ((a : Nat) : Int) - ((b : Nat) : Int) < 2 ^ 32 := by omega
  rw [Int.emod_eq_of_lt hnn hlt]
  omega

/-! #### The encoder loop: composition, state range, chunk bounds -/

theorem encLoop_append (T : FSETables) : ∀ (a b : List Nat) (st : Nat),
    encLoop T (a ++ b) st =
      ((encLoop T a st).1 ++ (encLoop T b (encLoop T a st).2).1,
        (encLoop T b (encLoop T a st).2).2)
  | [], b, st => rfl
  | s :: rest, b, st => by
    simp only [List.cons_append, encLoop, List.append_eq]
    rw [encLoop_append T rest b]

theorem encLoop_singleton (T : FSETables) (s st : Nat) :
    encLoop T [s] st =
      ([((encStep T st s).2.1, (encStep T st s).1)], (encStep T st s).2.2) := rfl

/-- Invariant of the encoder loop over valid symbols: the state stays in
`[table_size, 2·table_size)`, every chunk has width `≤ table_log` and a
value below `2^width`, and one chunk is pushed per symbol. -/
theorem encLoop_inv (norm : List Nat) (tl : Nat) (T : FSETables)
    (hg : GoodTables norm tl T) (htl1 : 1 ≤ tl) :
    ∀ (rsyms : List Nat) (st0 : Nat),
    (∀ s ∈ rsyms, s < norm.length ∧ 1 ≤ norm.getD s 0) →
    2 ^ tl ≤ st0 → st0 < 2 ^ (tl + 1) →
    (2 ^ tl ≤ (encLoop T rsyms st0).2 ∧ (encLoop T rsyms st0).2 < 2 ^ (tl + 1)) ∧
    (∀ c ∈ (encLoop T rsyms st0).1, c.2 ≤ tl ∧ c.1 < 2 ^ c.2) ∧
    (encLoop T rsyms st0).1.length = rsyms.length := by
  intro rsyms
  induction rsyms with
  | nil =>
    intro st0 _ h1 h2
    exact ⟨⟨h1, h2⟩, by simp [encLoop], by simp [encLoop]⟩
  | cons s rest ih =>
    intro st0 hsy h1 h2
    obtain ⟨hs, hf⟩ := hsy s (List.mem_cons_self s rest)
    obtain ⟨nb, u, heq, hnbtl, hult, _, _, _, _, _⟩ :=
      encStep_spec norm tl T hg htl1 s st0 hs hf h1 h2
    have hnext1 : 2 ^ tl ≤ 2 ^ tl + u := Nat.le_add_right _ _
    have hnext2 : 2 ^ tl + u < 2 ^ (tl + 1) := by
      have hp : (2 : Nat) ^ (tl + 1) = 2 * 2 ^ tl := by
        rw [Nat.pow_succ]
        ring
      omega
    have ihh := ih (2 ^ tl + u) (fun t ht => hsy t (List.mem_cons_of_mem s ht))
      hnext1 hnext2
    simp only [encLoop]
    rw [heq]
    dsimp only
    refine ⟨ihh.1, ?_, ?_⟩
    · intro c hc
      rcases List.mem_cons.mp hc with hc | hc
      · subst hc
        exact ⟨hnbtl, Nat.mod_lt _ (Nat.pos_pow_of_pos _ (by omega))⟩
      · exact ihh.2.1 c hc
    · simp only [List.length_cons]
      rw [ihh.2.2]

/-- Decoding coupled to the encoder (MSB): starting from the encoder's
final state offset and replaying the reversed chunk list, the decoder
emits the original symbols (reduced mod 256) in block order, consumes
exactly the chunk bits, and lands on the encoder's initial state offset. -/
theorem decodeLoopMSB_coupled (norm : List Nat) (tl : Nat) (T : FSETables)
    (hg : GoodTables norm tl T) (htl1 : 1 ≤ tl) (data : List Nat) (L : Nat) :
    ∀ (rsyms : List Nat) (st0 pos : Nat),
    (∀ s ∈ rsyms, s < norm.length ∧ 1 ≤ norm.getD s 0) →
    2 ^ tl ≤ st0 → st0 < 2 ^ (tl + 1) →
    ReadsMSB data L pos (encLoop T rsyms st0).1.reverse →
    decodeLoopMSB T data L rsyms.length ((encLoop T rsyms st0).2 - 2 ^ tl) pos =
      .ok (rsyms.reverse.map (fun s => s % 2 ^ 8), st0 - 2 ^ tl,
        pos + streamBits (encLoop T rsyms st0).1) := by
  intro rsyms
  induction rsyms using List.reverseRecOn with
  | nil =>
    intro st0 pos _ _ _ _
    simp [encLoop, decodeLoopMSB, streamBits]
  | append_singleton rs s ih =>
    intro st0 pos hsy h1 h2 hreads
    obtain ⟨hs, hf⟩ := hsy s (by simp)
    have hsyr : ∀ t ∈ rs, t < norm.length ∧ 1 ≤ norm.getD t 0 :=
      fun t ht => hsy t (by simp [ht])
    obtain ⟨⟨hst1a, hst1b⟩, hcb, hclen⟩ := encLoop_inv norm tl T hg htl1 rs st0 hsyr h1 h2
    obtain ⟨nb, u, heq, hnbtl, hult, hdtu, hbin1, hbin2, hq1, hq2⟩ :=
      encStep_spec norm tl T hg htl1 s (encLoop T rs st0).2 hs hf hst1a hst1b
    obtain ⟨hnbf, hbasef, hgef, hboundf, hsymf⟩ := mkDecodeEntry_fields tl (2 ^ tl) s
      ((encLoop T rs st0).2 / 2 ^ nb) nb rfl hg.htl hnbtl hbin1 hbin2
    have hexp : encLoop T (rs ++ [s]) st0 =
        ((encLoop T rs st0).1 ++ [((encLoop T rs st0).2 % 2 ^ nb, nb)],
          2 ^ tl + u) := by
      rw [encLoop_append T rs [s] st0, encLoop_singleton, heq]
    rw [hexp] at hreads ⊢
    simp only [List.reverse_append, List.reverse_cons, List.reverse_nil,
      List.nil_append, List.singleton_append] at hreads
    simp only [ReadsMSB] at hreads
    obtain ⟨hr, hrs⟩ := hreads
    rw [Nat.mod_mod_of_dvd _ dvd_rfl] at hr
    have hlen1 : (rs ++ [s]).length = rs.length + 1 := by simp
    rw [hlen1, Nat.add_sub_cancel_left]
    have hread : (if 0 < (T.dtable.getD u ⟨0, 0, 0⟩).nb_bits then
        msbReadBits data L pos (T.dtable.getD u ⟨0, 0, 0⟩).nb_bits
        else (.ok (0, pos) : Except FSEError (Nat × Nat))) =
        .ok ((encLoop T rs st0).2 % 2 ^ nb, pos + nb) := by
      rw [hdtu, hnbf]
      rcases Nat.eq_zero_or_pos nb with hz | hp
      · subst hz
        rw [if_neg (by omega)]
        simp [Nat.mod_one]
      · rw [if_pos hp]
        exact hr
    have hstate : (T.dtable.getD u ⟨0, 0, 0⟩).new_state_base +
        (encLoop T rs st0).2 % 2 ^ nb = (encLoop T rs st0).2 - 2 ^ tl := by
      rw [hdtu, hbasef]
      have hdm := Nat.div_add_mod (encLoop T rs st0).2 (2 ^ nb)
      have hcm : (encLoop T rs st0).2 / 2 ^ nb * 2 ^ nb =
          2 ^ nb * ((encLoop T rs st0).2 / 2 ^ nb) := Nat.mul_comm _ _
      omega
    have hih := ih st0 (pos + nb) hsyr h1 h2 hrs
    simp only [decodeLoopMSB]
    rw [hread]
    dsimp only
    rw [hstate, hih]
    dsimp only
    rw [hdtu, hsymf]
    have hout : (rs ++ [s]).reverse.map (fun t => t % 2 ^ 8) =
        s % 2 ^ 8 :: rs.reverse.map (fun t => t % 2 ^ 8) := by
      simp
    have hbits : pos + streamBits ((encLoop T rs st0).1 ++
        [((encLoop T rs st0).2 % 2 ^ nb, nb)]) =
        pos + nb + streamBits (encLoop T rs st0).1 := by
      rw [streamBits_append, streamBits_cons]
      simp only [streamBits, List.map_nil, List.sum_nil]
      omega
    rw [hout, hbits]

/-- Decoding coupled to the encoder, LSB ordering (the `frame.cpp` reader
never fails, so the loop is total). -/
theorem decodeLoopLSB_coupled (norm : List Nat) (tl : Nat) (T : FSETables)
    (hg : GoodTables norm tl T) (htl1 : 1 ≤ tl) (data : List Nat) (L : Nat) :
    ∀ (rsyms : List Nat) (st0 pos : Nat),
    (∀ s ∈ rsyms, s < norm.length ∧ 1 ≤ norm.getD s 0) →
    2 ^ tl ≤ st0 → st0 < 2 ^ (tl + 1) →
    ReadsLSB data L pos (encLoop T rsyms st0).1.reverse →
    decodeLoopLSB T data L rsyms.length ((encLoop T rsyms st0).2 - 2 ^ tl) pos =
      (rsyms.reverse.map (fun s => s % 2 ^ 8), st0 - 2 ^ tl,
        pos + streamBits (encLoop T rsyms st0).1) := by
  intro rsyms
  induction rsyms using List.reverseRecOn with
  | nil =>
    intro st0 pos _ _ _ _
    simp [encLoop, decodeLoopLSB, streamBits]
  | append_singleton rs s ih =>
    intro st0 pos hsy h1 h2 hreads
    obtain ⟨hs, hf⟩ := hsy s (by simp)
    have hsyr : ∀ t ∈ rs, t < norm.length ∧ 1 ≤ norm.getD t 0 :=
      fun t ht => hsy t (by simp [ht])
    obtain ⟨⟨hst1a, hst1b⟩, hcb, hclen⟩ := encLoop_inv norm tl T hg htl1 rs st0 hsyr h1 h2
    obtain ⟨nb, u, heq, hnbtl, hult, hdtu, hbin1, hbin2, hq1, hq2⟩ :=
      encStep_spec norm tl T hg htl1 s (encLoop T rs st0).2 hs hf hst1a hst1b
    obtain ⟨hnbf, hbasef, hgef, hboundf, hsymf⟩ := mkDecodeEntry_fields tl (2 ^ tl) s
      ((encLoop T rs st0).2 / 2 ^ nb) nb rfl hg.htl hnbtl hbin1 hbin2
    have hexp : encLoop T (rs ++ [s]) st0 =
        ((encLoop T rs st0).1 ++ [((encLoop T rs st0).2 % 2 ^ nb, nb)],
          2 ^ tl + u) := by
      rw [encLoop_append T rs [s] st0, encLoop_singleton, heq]
    rw [hexp] at hreads ⊢
    simp only [List.reverse_append, List.reverse_cons, List.reverse_nil,
      List.nil_append, List.singleton_append] at hreads
    simp only [ReadsLSB] at hreads
    obtain ⟨hr, hrs⟩ := hreads
    rw [Nat.mod_mod_of_dvd _ dvd_rfl] at hr
    have hlen1 : (rs ++ [s]).length = rs.length + 1 := by simp
    rw [hlen1, Nat.add_sub_cancel_left]
    have hread : (if 0 < (T.dtable.getD u ⟨0, 0, 0⟩).nb_bits then
        frameReadBitsLSB data L pos (T.dtable.getD u ⟨0, 0, 0⟩).nb_bits
        else ((0, pos) : Nat × Nat)) =
        ((encLoop T rs st0).2 % 2 ^ nb, pos + nb) := by
      rw [hdtu, hnbf]
      rcases Nat.eq_zero_or_pos nb with hz | hp
      · subst hz
        rw [if_neg (by omega)]
        simp [Nat.mod_one]
      · rw [if_pos hp]
        exact hr
    have hstate : (T.dtable.getD u ⟨0, 0, 0⟩).new_state_base +
        (encLoop T rs st0).2 % 2 ^ nb = (encLoop T rs st0).2 - 2 ^ tl := by
      rw [hdtu, hbasef]
      have hdm := Nat.div_add_mod (encLoop T rs st0).2 (2 ^ nb)
      have hcm : (encLoop T rs st0).2 / 2 ^ nb * 2 ^ nb =
          2 ^ nb * ((encLoop T rs st0).2 / 2 ^ nb) := Nat.mul_comm _ _
      omega
    have hih := ih st0 (pos + nb) hsyr h1 h2 hrs
    simp only [decodeLoopLSB]
    rw [hread]
    dsimp only
    rw [hstate, hih]
    rw [hdtu, hsymf]
    have hout : (rs ++ [s]).reverse.map (fun t => t % 2 ^ 8) =
        s % 2 ^ 8 :: rs.reverse.map (fun t => t % 2 ^ 8) := by
      simp
    have hbits : pos + streamBits ((encLoop T rs st0).1 ++
        [((encLoop T rs st0).2 % 2 ^ nb, nb)]) =
        pos + nb + streamBits (encLoop T rs st0).1 := by
      rw [streamBits_append, streamBits_cons]
      simp only [streamBits, List.map_nil, List.sum_nil]
      omega
    rw [hout, hbits]

/-- Master block theorem, MSB ordering: for tables in `GoodTables` form and
a block of valid symbols, the encoded block's bytes are well-formed with
length `⌈bit_count/8⌉`, the bit count is `32` for the empty block and
`32 + table_log + Σ nb_out` otherwise, and decoding the block returns the
original symbols (mod 256) consuming exactly `bit_count` bits. -/
theorem block_msb_spec (norm : List Nat) (tl : Nat) (T : FSETables)
    (hg : GoodTables norm tl T) (htl1 : 1 ≤ tl) (hdb : T.data_block_size_bits = 32)
    (symbols : List Nat) (hlen : symbols.length < 2 ^ 32)
    (hsy : ∀ s ∈ symbols, s < norm.length ∧ 1 ≤ norm.getD s 0) :
    ByteListWF (encode_block_msb symbols T).bytes ∧
    (encode_block_msb symbols T).bytes.length =
      ((encode_block_msb symbols T).bit_count + 7) / 8 ∧
    (symbols = [] → (encode_block_msb symbols T).bit_count = 32) ∧
    (symbols ≠ [] → (encode_block_msb symbols T).bit_count =
      32 + tl + streamBits (encLoop T symbols.reverse T.table_size).1) ∧
    decode_block_msb (encode_block_msb symbols T).bytes
        (encode_block_msb symbols T).bit_count T =
      .ok (symbols.map (fun s => s % 2 ^ 8), (encode_block_msb symbols T).bit_count) := by
  by_cases hne : symbols = []
  · subst hne
    rcases hW : msbAppendBits msbInit 0 32 with ⟨buf, blen⟩
    have hencE : encode_block_msb [] T = msbFinish ⟨buf, blen⟩ := by
      rw [← hW, ← hdb]
      rfl
    have hwf1 := msbAppendBits_wf msbInit 0 0 32 msbInit_wf
    rw [hW] at hwf1
    have hv0 : (0 : Nat) * 2 ^ 32 + 0 % 2 ^ 32 = 0 := by norm_num
    rw [hv0] at hwf1
    have hbl : blen = 32 := by
      have h := msbAppendBitsAux_len [] 32 msbInit 0
      rw [show msbAppendBitsAux msbInit 0 32 = msbAppendBits msbInit 0 32 from rfl,
        hW] at h
      simpa [msbInit] using h
    subst hbl
    have hrd : msbReadBits buf 32 0 32 = .ok (0, 32) := by
      have h := msbReadBits_eq buf 32 0 hwf1 0 32 (by omega)
      simpa using h
    rw [hencE]
    simp only [msbFinish]
    refine ⟨?_, ?_, ?_, ?_, ?_⟩
    · exact hwf1.1
    · exact hwf1.2.1
    · intro _
      trivial
    · intro h
      simp at h
    · rw [decode_block_msb, hdb, hrd]
      dsimp only
      rw [if_pos rfl]
      simp [hdb]
  · -- nonempty block
    have hrev : ∀ s ∈ symbols.reverse, s < norm.length ∧ 1 ≤ norm.getD s 0 :=
      fun s hs => hsy s (List.mem_reverse.mp hs)
    have htl15 := hg.htl
    have hts := hg.hts
    have hpow1 : (2 : Nat) ^ (tl + 1) = 2 * 2 ^ tl := by
      rw [Nat.pow_succ]
      ring
    have hp0 : 0 < (2 : Nat) ^ tl := Nat.pos_pow_of_pos _ (by omega)
    have hcan1 : 2 ^ tl ≤ T.table_size := by
      omega
    have hcan2 : T.table_size < 2 ^ (tl + 1) := by
      omega
    obtain ⟨⟨hstF1, hstF2⟩, hcb, hclen⟩ :=
      encLoop_inv norm tl T hg htl1 symbols.reverse T.table_size hrev hcan1 hcan2
    have h2t16 : (2 : Nat) ^ (tl + 1) ≤ 2 ^ 16 :=
      Nat.pow_le_pow_right (by norm_num) (by omega)
    have h1632 : (2 : Nat) ^ 16 < 2 ^ 32 := by norm_num
    have hfso : (((((encLoop T symbols.reverse T.table_size).2 : Nat) : Int) -
        ((T.table_size : Nat) : Int)) % (2 ^ 32)).toNat =
        (encLoop T symbols.reverse T.table_size).2 - 2 ^ tl := by
      have hnn : (0 : Int) ≤
          (((encLoop T symbols.reverse T.table_size).2 : Nat) : Int) -
          ((T.table_size : Nat) : Int) := by omega
      have hlt2 : (((encLoop T symbols.reverse T.table_size).2 : Nat) : Int) -
          ((T.table_size : Nat) : Int) < 2 ^ 32 := by omega
      rw [Int.emod_eq_of_lt hnn hlt2]
      omega
    have hfsolt : (encLoop T symbols.reverse T.table_size).2 - 2 ^ tl < 2 ^ tl := by
      omega
    have hie : symbols.isEmpty = false := by
      rw [List.isEmpty_eq_false]
      exact hne
    have hencN : encode_block_msb symbols T =
        msbFinish (msbAppendList msbInit ((symbols.length, (32 : Nat)) ::
          ((encLoop T symbols.reverse T.table_size).2 - 2 ^ tl, tl) ::
          (encLoop T symbols.reverse T.table_size).1.reverse)) := by
      simp only [encode_block_msb, hie]
      rw [if_neg (by decide : ¬ (false = true))]
      rw [hfso, hdb, hg.htlog, msbAppendList_filter]
      rfl
    have hwfA := msbAppendList_wf ((symbols.length, (32 : Nat)) ::
      ((encLoop T symbols.reverse T.table_size).2 - 2 ^ tl, tl) ::
      (encLoop T symbols.reverse T.table_size).1.reverse) msbInit 0 msbInit_wf
    simp only [Nat.zero_mul, Nat.zero_add] at hwfA
    have hbl : (msbAppendList msbInit ((symbols.length, (32 : Nat)) ::
        ((encLoop T symbols.reverse T.table_size).2 - 2 ^ tl, tl) ::
        (encLoop T symbols.reverse T.table_size).1.reverse)).bit_len =
        streamBits ((symbols.length, (32 : Nat)) ::
        ((encLoop T symbols.reverse T.table_size).2 - 2 ^ tl, tl) ::
        (encLoop T symbols.reverse T.table_size).1.reverse) := by
      rw [msbAppendList_len]
      simp [msbInit]
    have hsbA : streamBits ((symbols.length, (32 : Nat)) ::
        ((encLoop T symbols.reverse T.table_size).2 - 2 ^ tl, tl) ::
        (encLoop T symbols.reverse T.table_size).1.reverse) =
        32 + tl + streamBits (encLoop T symbols.reverse T.table_size).1 := by
      rw [streamBits_cons, streamBits_cons, streamBits_reverse]
      omega
    have hwf2 : MsbWF ⟨(msbAppendList msbInit ((symbols.length, (32 : Nat)) ::
        ((encLoop T symbols.reverse T.table_size).2 - 2 ^ tl, tl) ::
        (encLoop T symbols.reverse T.table_size).1.reverse)).buffer,
        streamBits ((symbols.length, (32 : Nat)) ::
        ((encLoop T symbols.reverse T.table_size).2 - 2 ^ tl, tl) ::
        (encLoop T symbols.reverse T.table_size).1.reverse)⟩
        (msbStreamVal ((symbols.length, (32 : Nat)) ::
        ((encLoop T symbols.reverse T.table_size).2 - 2 ^ tl, tl) ::
        (encLoop T symbols.reverse T.table_size).1.reverse)) := by
      rw [← hbl]
      exact hwfA
    have hreads := ReadsMSB_of_stream _ _ _ hwf2 ((symbols.length, (32 : Nat)) ::
      ((encLoop T symbols.reverse T.table_size).2 - 2 ^ tl, tl) ::
      (encLoop T symbols.reverse T.table_size).1.reverse) 0
      (by omega) (Nat.zero_le _)
      (by rw [Nat.sub_zero]; exact Nat.mod_eq_of_lt hwf2.2.2.1)
    simp only [ReadsMSB] at hreads
    obtain ⟨hr1, hr2, hrc⟩ := hreads
    simp only [Nat.zero_add] at hr1 hr2 hrc
    rw [Nat.mod_eq_of_lt hlen] at hr1
    rw [Nat.mod_eq_of_lt hfsolt] at hr2
    have hlen0 : ¬ symbols.length = 0 := by
      intro h
      exact hne (List.length_eq_zero.mp h)
    have hcouple := decodeLoopMSB_coupled norm tl T hg htl1 _ _
      symbols.reverse T.table_size (32 + tl) hrev hcan1 hcan2 hrc
    simp only [List.length_reverse, List.reverse_reverse] at hcouple
    have hdec : decode_block_msb (msbAppendList msbInit ((symbols.length, (32 : Nat)) ::
        ((encLoop T symbols.reverse T.table_size).2 - 2 ^ tl, tl) ::
        (encLoop T symbols.reverse T.table_size).1.reverse)).buffer
        (streamBits ((symbols.length, (32 : Nat)) ::
        ((encLoop T symbols.reverse T.table_size).2 - 2 ^ tl, tl) ::
        (encLoop T symbols.reverse T.table_size).1.reverse)) T =
        .ok (symbols.map (fun s => s % 2 ^ 8),
          streamBits ((symbols.length, (32 : Nat)) ::
          ((encLoop T symbols.reverse T.table_size).2 - 2 ^ tl, tl) ::
          (encLoop T symbols.reverse T.table_size).1.reverse)) := by
      rw [decode_block_msb, hdb, hr1]
      dsimp only
      rw [if_neg hlen0, hg.htlog, hr2]
      dsimp only
      rw [hcouple]
      dsimp only
      rw [hsbA]
    rw [hencN]
    simp only [msbFinish]
    refine ⟨hwf2.1, ?_, fun h => absurd h hne, fun _ => ?_, ?_⟩
    · rw [hbl]
      exact hwf2.2.1
    · rw [hbl, hsbA]
    · rw [hbl]
      exact hdec

/-- Master block theorem, LSB ordering (`encode_block_lsb` /
`decode_block_lsb` of `frame.cpp`). -/
theorem block_lsb_spec (norm : List Nat) (tl : Nat) (T : FSETables)
    (hg : GoodTables norm tl T) (htl1 : 1 ≤ tl) (hdb : T.data_block_size_bits = 32)
    (symbols : List Nat) (hlen : symbols.length < 2 ^ 32)
    (hsy : ∀ s ∈ symbols, s < norm.length ∧ 1 ≤ norm.getD s 0) :
    ByteListWF (encode_block_lsb symbols T).bytes ∧
    (encode_block_lsb symbols T).bytes.length =
      ((encode_block_lsb symbols T).bit_count + 7) / 8 ∧
    (symbols = [] → (encode_block_lsb symbols T).bit_count = 32) ∧
    (symbols ≠ [] → (encode_block_lsb symbols T).bit_count =
      32 + tl + streamBits (encLoop T symbols.reverse T.table_size).1) ∧
    decode_block_lsb (encode_block_lsb symbols T).bytes
        (encode_block_lsb symbols T).bit_count T =
      (symbols.map (fun s => s % 2 ^ 8), (encode_block_lsb symbols T).bit_count) := by
  by_cases hne : symbols = []
  · subst hne
    have hencE : encode_block_lsb [] T = lsbFinish (lsbAppendBits lsbInit 0 32) := by
      rw [← hdb]
      rfl
    have hwf1 := lsbAppendBits_wf lsbInit 0 0 0 32 lsbInit_wf
      (by norm_num : (0 : Nat) < 2 ^ 32)
    simp only [Nat.pow_zero, Nat.mul_one, Nat.zero_add] at hwf1
    obtain ⟨f1, f2, f3, f4⟩ := lsbFinish_spec _ _ _ hwf1
    have hrd : frameReadBitsLSB (lsbFinish (lsbAppendBits lsbInit 0 32)).bytes
        32 0 32 = (0, 32) := by
      have h := frameReadBitsLSB_eq _ f1 32 0 32 (by omega) (by omega)
      rw [f2] at h
      simpa using h
    rw [hencE]
    refine ⟨f1, ?_, fun _ => f4, fun h => absurd rfl h, ?_⟩
    · rw [f4]
      exact f3
    · rw [f4, decode_block_lsb, hdb, hrd]
      dsimp only
      rw [if_pos rfl]
      simp [hdb]
  · -- nonempty block
    have hrev : ∀ s ∈ symbols.reverse, s < norm.length ∧ 1 ≤ norm.getD s 0 :=
      fun s hs => hsy s (List.mem_reverse.mp hs)
    have htl15 := hg.htl
    have hts := hg.hts
    have hpow1 : (2 : Nat) ^ (tl + 1) = 2 * 2 ^ tl := by
      rw [Nat.pow_succ]
      ring
    have hp0 : 0 < (2 : Nat) ^ tl := Nat.pos_pow_of_pos _ (by omega)
    have hcan1 : 2 ^ tl ≤ T.table_size := by
      omega
    have hcan2 : T.table_size < 2 ^ (tl + 1) := by
      omega
    obtain ⟨⟨hstF1, hstF2⟩, hcb, hclen⟩ :=
      encLoop_inv norm tl T hg htl1 symbols.reverse T.table_size hrev hcan1 hcan2
    have h2t16 : (2 : Nat) ^ (tl + 1) ≤ 2 ^ 16 :=
      Nat.pow_le_pow_right (by norm_num) (by omega)
    have h1632 : (2 : Nat) ^ 16 < 2 ^ 32 := by norm_num
    have hfso : (((((encLoop T symbols.reverse T.table_size).2 : Nat) : Int) -
        ((T.table_size : Nat) : Int)) % (2 ^ 32)).toNat =
        (encLoop T symbols.reverse T.table_size).2 - 2 ^ tl := by
      have hnn : (0 : Int) ≤
          (((encLoop T symbols.reverse T.table_size).2 : Nat) : Int) -
          ((T.table_size : Nat) : Int) := by omega
      have hlt2 : (((encLoop T symbols.reverse T.table_size).2 : Nat) : Int) -
          ((T.table_size : Nat) : Int) < 2 ^ 32 := by omega
      rw [Int.emod_eq_of_lt hnn hlt2]
      omega
    have hfsolt : (encLoop T symbols.reverse T.table_size).2 - 2 ^ tl < 2 ^ tl := by
      omega
    have hie : symbols.isEmpty = false := by
      rw [List.isEmpty_eq_false]
      exact hne
    have hencN : encode_block_lsb symbols T =
        lsbFinish (lsbAppendList lsbInit ((symbols.length, (32 : Nat)) ::
          ((encLoop T symbols.reverse T.table_size).2 - 2 ^ tl, tl) ::
          (encLoop T symbols.reverse T.table_size).1.reverse)) := by
      simp only [encode_block_lsb, hie]
      rw [if_neg (by decide : ¬ (false = true))]
      rw [hfso, hdb, hg.htlog, lsbAppendList_filter]
      rfl
    have hvalsA : ∀ p ∈ ((symbols.length, (32 : Nat)) ::
        ((encLoop T symbols.reverse T.table_size).2 - 2 ^ tl, tl) ::
        (encLoop T symbols.reverse T.table_size).1.reverse), p.1 < 2 ^ p.2 := by
      intro p hp
      rcases List.mem_cons.mp hp with h | hp2
      · subst h
        exact hlen
      rcases List.mem_cons.mp hp2 with h | hp3
      · subst h
        exact hfsolt
      · exact (hcb p (List.mem_reverse.mp hp3)).2
    have hwidthsA : ∀ p ∈ ((symbols.length, (32 : Nat)) ::
        ((encLoop T symbols.reverse T.table_size).2 - 2 ^ tl, tl) ::
        (encLoop T symbols.reverse T.table_size).1.reverse), p.2 ≤ 32 := by
      intro p hp
      rcases List.mem_cons.mp hp with h | hp2
      · subst h
        exact le_refl _
      rcases List.mem_cons.mp hp2 with h | hp3
      · subst h
        show tl ≤ 32
        omega
      · have h1 := (hcb p (List.mem_reverse.mp hp3)).1
        omega
    have hwfA := lsbAppendList_wf ((symbols.length, (32 : Nat)) ::
      ((encLoop T symbols.reverse T.table_size).2 - 2 ^ tl, tl) ::
      (encLoop T symbols.reverse T.table_size).1.reverse) hvalsA lsbInit 0 0 lsbInit_wf
    simp only [Nat.pow_zero, Nat.mul_one, Nat.zero_add] at hwfA
    obtain ⟨f1, f2, f3, f4⟩ := lsbFinish_spec _ _ _ hwfA
    have hsbA : streamBits ((symbols.length, (32 : Nat)) ::
        ((encLoop T symbols.reverse T.table_size).2 - 2 ^ tl, tl) ::
        (encLoop T symbols.reverse T.table_size).1.reverse) =
        32 + tl + streamBits (encLoop T symbols.reverse T.table_size).1 := by
      rw [streamBits_cons, streamBits_cons, streamBits_reverse]
      omega
    have hreads := ReadsLSB_of_stream _ f1
      (streamBits ((symbols.length, (32 : Nat)) ::
        ((encLoop T symbols.reverse T.table_size).2 - 2 ^ tl, tl) ::
        (encLoop T symbols.reverse T.table_size).1.reverse))
      ((symbols.length, (32 : Nat)) ::
        ((encLoop T symbols.reverse T.table_size).2 - 2 ^ tl, tl) ::
        (encLoop T symbols.reverse T.table_size).1.reverse) 0 hwidthsA
      (by omega)
      (by rw [Nat.pow_zero, Nat.div_one, f2])
    simp only [ReadsLSB] at hreads
    obtain ⟨hr1, hr2, hrc⟩ := hreads
    simp only [Nat.zero_add] at hr1 hr2 hrc
    rw [Nat.mod_eq_of_lt hlen] at hr1
    rw [Nat.mod_eq_of_lt hfsolt] at hr2
    have hlen0 : ¬ symbols.length = 0 := by
      intro h
      exact hne (List.length_eq_zero.mp h)
    have hcouple := decodeLoopLSB_coupled norm tl T hg htl1 _ _
      symbols.reverse T.table_size (32 + tl) hrev hcan1 hcan2 hrc
    simp only [List.length_reverse, List.reverse_reverse] at hcouple
    have hdec : decode_block_lsb (lsbFinish (lsbAppendList lsbInit
        ((symbols.length, (32 : Nat)) ::
        ((encLoop T symbols.reverse T.table_size).2 - 2 ^ tl, tl) ::
        (encLoop T symbols.reverse T.table_size).1.reverse))).bytes
        (streamBits ((symbols.length, (32 : Nat)) ::
        ((encLoop T symbols.reverse T.table_size).2 - 2 ^ tl, tl) ::
        (encLoop T symbols.reverse T.table_size).1.reverse)) T =
        (symbols.map (fun s => s % 2 ^ 8),
          streamBits ((symbols.length, (32 : Nat)) ::
          ((encLoop T symbols.reverse T.table_size).2 - 2 ^ tl, tl) ::
          (encLoop T symbols.reverse T.table_size).1.reverse)) := by
      rw [decode_block_lsb, hdb, hr1]
      dsimp only
      rw [if_neg hlen0, hg.htlog, hr2]
      dsimp only
      rw [hcouple]
      dsimp only
      rw [hsbA]
    rw [hencN]
    refine ⟨f1, ?_, fun h => absurd h hne, fun _ => ?_, ?_⟩
    · rw [f4]
      exact f3
    · rw [f4, hsbA]
    · rw [f4]
      exact hdec

/-- C5: for every valid table set and symbol block, the bit count written
by block encode (either ordering) equals `data_block_size_bits + table_log
+ Σ nb_out` over the processed symbols, decoding the block consumes exactly
that bit count (the two header fields plus the `nb_bits` of each visited
decode entry), and the empty block writes exactly `data_block_size_bits`
bits. -/
theorem claim_c5_bit_count_exact (counts : List Nat) (tlog : Nat) (p : FSEParams)
    (T : FSETables) (hp : FSEParams.make counts tlog = .ok p) (htl1 : 1 ≤ tlog)
    (htl : tlog ≤ 15) (hT : FSETables.make p = .ok T) (symbols : List Nat)
    (hlen : symbols.length < 2 ^ 32)
    (hsy : ∀ s ∈ symbols, s < p.normalized.length ∧ 1 ≤ p.normalized.getD s 0) :
    (symbols ≠ [] →
      (encode_block_msb symbols T).bit_count =
        T.data_block_size_bits + T.table_log +
          streamBits (encLoop T symbols.reverse T.table_size).1 ∧
      (encode_block_lsb symbols T).bit_count =
        T.data_block_size_bits + T.table_log +
          streamBits (encLoop T symbols.reverse T.table_size).1) ∧
    ((encode_block_msb [] T).bit_count = T.data_block_size_bits ∧
      (encode_block_lsb [] T).bit_count = T.data_block_size_bits) ∧
    decode_block_msb (encode_block_msb symbols T).bytes
        (encode_block_msb symbols T).bit_count T =
      .ok (symbols.map (fun s => s % 2 ^ 8), (encode_block_msb symbols T).bit_count) ∧
    decode_block_lsb (encode_block_lsb symbols T).bytes
        (encode_block_lsb symbols T).bit_count T =
      (symbols.map (fun s => s % 2 ^ 8), (encode_block_lsb symbols T).bit_count) := by
  obtain ⟨hg, hdb, hsum⟩ := tables_setup counts tlog p T hp htl hT
  obtain ⟨m1, m2, m3, m4, m5⟩ := block_msb_spec p.normalized tlog T hg htl1 hdb
    symbols hlen hsy
  obtain ⟨l1, l2, l3, l4, l5⟩ := block_lsb_spec p.normalized tlog T hg htl1 hdb
    symbols hlen hsy
  obtain ⟨em1, em2, em3, em4, em5⟩ := block_msb_spec p.normalized tlog T hg htl1 hdb
    [] (by norm_num) (by simp)
  obtain ⟨el1, el2, el3, el4, el5⟩ := block_lsb_spec p.normalized tlog T hg htl1 hdb
    [] (by norm_num) (by simp)
  refine ⟨fun hne => ⟨?_, ?_⟩, ⟨?_, ?_⟩, m5, l5⟩
  · rw [m4 hne, hdb, hg.htlog]
  · rw [l4 hne, hdb, hg.htlog]
  · rw [em3 rfl, hdb]
  · rw [el3 rfl, hdb]

/-- C5 witness: the bit-count theorem applied to the tables of
`counts = [1, 1]`, `table_log = 1` and the block `[0, 1]`. -/
theorem claim_c5_witness :
    decode_block_msb (encode_block_msb [0, 1] (⟨1, 2, 32, 2, [0, 1],
        [⟨0, 1, 0⟩, ⟨0, 1, 1⟩], [2, 3],
        [⟨65534, -1⟩, ⟨65534, 0⟩]⟩ : FSETables)).bytes
      (encode_block_msb [0, 1] (⟨1, 2, 32, 2, [0, 1],
        [⟨0, 1, 0⟩, ⟨0, 1, 1⟩], [2, 3],
        [⟨65534, -1⟩, ⟨65534, 0⟩]⟩ : FSETables)).bit_count
      (⟨1, 2, 32, 2, [0, 1], [⟨0, 1, 0⟩, ⟨0, 1, 1⟩], [2, 3],
        [⟨65534, -1⟩, ⟨65534, 0⟩]⟩ : FSETables) =
    .ok ([0, 1].map (fun s => s % 2 ^ 8),
      (encode_block_msb [0, 1] (⟨1, 2, 32, 2, [0, 1],
        [⟨0, 1, 0⟩, ⟨0, 1, 1⟩], [2, 3],
        [⟨65534, -1⟩, ⟨65534, 0⟩]⟩ : FSETables)).bit_count) :=
  (claim_c5_bit_count_exact [1, 1] 1 ⟨[1, 1], 1, 2, [1, 1], 32, 2⟩
    ⟨1, 2, 32, 2, [0, 1], [⟨0, 1, 0⟩, ⟨0, 1, 1⟩], [2, 3],
      [⟨65534, -1⟩, ⟨65534, 0⟩]⟩
    (by rfl) (by omega) (by omega) (by rfl) [0, 1] (by decide) (by decide)).2.2.1

/-! ### Frame layer (`frame.cpp`, `encode_stream` / `decode_stream`)

A frame is a sequence of blocks, each a 12-byte header (`blk_sz`,
`bit_count`, `table_log` as `uint32_t` little-endian), a 1024-byte counts
field (256 `uint32_t`) and the payload bytes. -/

/-- The four little-endian bytes `memcpy` writes for a `uint32_t` value. -/
def u32le (x : Nat) : List Nat :=
  [x % 256, x / 256 % 256, x / 65536 % 256, x / 16777216 % 256]

/-- The `uint32_t` value `memcpy` reads back from four little-endian bytes
(all frame reads are guarded by length checks, so the short default is
unreachable there). -/
def readU32 : List Nat → Nat
  | b0 :: b1 :: b2 :: b3 :: _ => b0 + 256 * b1 + 65536 * b2 + 16777216 * b3
  | _ => 0

/-- The 1024 bytes of the 256-entry `counts` header field. -/
def countsBytes : List Nat → List Nat
  | [] => []
  | c :: rest => u32le c ++ countsBytes rest

/-- Parse `k` consecutive `uint32_t` values. -/
def parseCountsAux : Nat → List Nat → List Nat
  | 0, _ => []
  | k + 1, l => readU32 l :: parseCountsAux k (l.drop 4)

/-- The 256-entry histogram `counts[input[pos + i]]++` of a block. -/
def countsOf (block : List Nat) : List Nat :=
  (List.range 256).map (fun b => block.count b)

/-- The block loop of `encode_stream`: each iteration takes
`min block_size remaining` symbols, builds the histogram, parameters and
tables (exceptions propagate — the C++ has no handler), encodes the block
with the selected ordering, and emits header, counts field and payload.
`fuel ≥ input.length` always suffices from the top-level entry, where the
effective block size is at least 1 whenever the loop runs. -/
def encodeStreamGo (lsb : Bool) (tlog bs : Nat) : Nat → List Nat →
    Except FSEError (List Nat)
  | 0, _ => .ok []
  | fuel + 1, rem =>
    if rem.isEmpty then .ok []
    else
      match FSEParams.make (countsOf (rem.take bs)) tlog with
      | .error e => .error e
      | .ok p =>
        match FSETables.make p with
        | .error e => .error e
        | .ok T =>
          let enc := if lsb then encode_block_lsb (rem.take bs) T
                     else encode_block_msb (rem.take bs) T
          match encodeStreamGo lsb tlog bs fuel (rem.drop bs) with
          | .error e => .error e
          | .ok out =>
            .ok (u32le (rem.take bs).length ++ (u32le enc.bit_count ++
              (u32le p.table_log ++ (countsBytes (countsOf (rem.take bs)) ++
              (enc.bytes ++ out)))))

/-- `encode_stream(input, opts)`: `block_size = 0` selects a single block
of the whole input. -/
def encode_stream (lsb : Bool) (tlog bs0 : Nat) (input : List Nat) :
    Except FSEError (List Nat) :=
  encodeStreamGo lsb tlog (if bs0 = 0 then input.length else bs0)
    (input.length + 1) input

/-- The block loop of `decode_stream`.  `.ok (some out)` is a clean loop
exit with accumulated output, `.ok none` models the `return {}` paths
(truncated counts field, truncated payload, block length mismatch), and
`.error` a propagated C++ exception. -/
def decodeStreamGo (lsb : Bool) : Nat → List Nat →
    Except FSEError (Option (List Nat))
  | 0, _ => .ok (some [])
  | fuel + 1, rem =>
    if rem.length < 12 then .ok (some [])
    else
      let blk_sz := readU32 rem
      let bit_count := readU32 (rem.drop 4)
      let table_log := readU32 (rem.drop 8)
      if (rem.drop 12).length < 1024 then .ok none
      else
        let counts := parseCountsAux 256 (rem.drop 12)
        let payload_bytes := (bit_count + 7) / 8
        if ((rem.drop 12).drop 1024).length < payload_bytes then .ok none
        else
          match FSEParams.make counts table_log with
          | .error e => .error e
          | .ok p =>
            match FSETables.make p with
            | .error e => .error e
            | .ok T =>
              match (if lsb then
                  .ok (decode_block_lsb (((rem.drop 12).drop 1024).take
                    payload_bytes) bit_count T)
                else decode_block_msb (((rem.drop 12).drop 1024).take
                    payload_bytes) bit_count T) with
              | .error e => .error e
              | .ok res =>
                if res.1.length ≠ blk_sz then .ok none
                else
                  match decodeStreamGo lsb fuel
                      (((rem.drop 12).drop 1024).drop payload_bytes) with
                  | .error e => .error e
                  | .ok none => .ok none
                  | .ok (some out) => .ok (some (res.1 ++ out))

/-- `decode_stream(data, opts)`. -/
def decode_stream (lsb : Bool) (data : List Nat) : Except FSEError (List Nat) :=
  match decodeStreamGo lsb (data.length + 1) data with
  | .error e => .error e
  | .ok none => .ok []
  | .ok (some out) => .ok out

/-- The sum of the `blk_sz` fields of all complete headers, walking the
frame exactly as the decode loop does. -/
def declaredLen : Nat → List Nat → Nat
  | 0, _ => 0
  | fuel + 1, rem =>
    if rem.length < 12 then 0
    else readU32 rem + declaredLen fuel
      (((rem.drop 12).drop 1024).drop ((readU32 (rem.drop 4) + 7) / 8))

/-! #### Header field parsing -/

theorem u32le_length (x : Nat) : (u32le x).length = 4 := rfl

theorem u32le_wf (x : Nat) : ByteListWF (u32le x) := by
  intro b hb
  simp only [u32le, List.mem_cons, List.not_mem_nil, or_false] at hb
  rcases hb with h | h | h | h <;> subst h <;> exact Nat.mod_lt _ (by norm_num)

theorem readU32_u32le (x : Nat) (l : List Nat) :
    readU32 (u32le x ++ l) = x % 2 ^ 32 := by
  show x % 256 + 256 * (x / 256 % 256) + 65536 * (x / 65536 % 256) +
    16777216 * (x / 16777216 % 256) = x % 2 ^ 32
  have h32 : (2 : Nat) ^ 32 = 4294967296 := by norm_num
  rw [h32]
  omega

theorem drop4_u32le (x : Nat) (l : List Nat) : (u32le x ++ l).drop 4 = l := rfl

theorem drop8_u32le (x y : Nat) (l : List Nat) :
    (u32le x ++ (u32le y ++ l)).drop 8 = l := rfl

theorem drop12_u32le (x y z : Nat) (l : List Nat) :
    (u32le x ++ (u32le y ++ (u32le z ++ l))).drop 12 = l := rfl

theorem countsBytes_length : ∀ (counts : List Nat),
    (countsBytes counts).length = 4 * counts.length
  | [] => rfl
  | c :: rest => by
    simp only [countsBytes, List.length_append, u32le_length, List.length_cons,
      countsBytes_length rest]
    ring

theorem countsBytes_wf : ∀ (counts : List Nat), ByteListWF (countsBytes counts)
  | [], b, hb => absurd hb (List.not_mem_nil b)
  | c :: rest, b, hb => by
    rw [countsBytes, List.mem_append] at hb
    rcases hb with h | h
    · exact u32le_wf c b h
    · exact countsBytes_wf rest b h

theorem parseCountsAux_spec : ∀ (counts rest : List Nat),
    (∀ c ∈ counts, c < 2 ^ 32) →
    parseCountsAux counts.length (countsBytes counts ++ rest) = counts
  | [], rest, _ => rfl
  | c :: cs, rest, h => by
    simp only [List.length_cons, parseCountsAux, countsBytes, List.append_assoc]
    rw [readU32_u32le, drop4_u32le, parseCountsAux_spec cs rest
      (fun d hd => h d (by simp [hd])), Nat.mod_eq_of_lt (h c (by simp))]

/-! #### The block histogram -/

theorem countsOf_length (block : List Nat) : (countsOf block).length = 256 := by
  simp [countsOf]

theorem countsOf_getD (block : List Nat) (s : Nat) (hs : s < 256) :
    (countsOf block).getD s 0 = block.count s := by
  rw [countsOf, List.getD_eq_getElem?_getD, List.getElem?_map]
  rw [List.getElem?_range hs]
  rfl

theorem list_sum_map_add (l : List Nat) (f g : Nat → Nat) :
    (l.map (fun x => f x + g x)).sum = (l.map f).sum + (l.map g).sum := by
  induction l with
  | nil => rfl
  | cons a t ih =>
    simp only [List.map_cons, List.sum_cons, ih]
    ring

theorem range_indicator_sum : ∀ (n x : Nat), x < n →
    ((List.range n).map (fun b => if b = x then 1 else 0)).sum = 1 := by
  intro n
  induction n with
  | zero =>
    intro x hx
    omega
  | succ n ih =>
    intro x hx
    rw [List.range_succ, List.map_append, List.sum_append]
    rcases Nat.lt_or_ge x n with h | h
    · rw [ih x h]
      simp only [List.map_cons, List.map_nil, List.sum_cons, List.sum_nil]
      rw [if_neg (by omega)]
      omega
    · have hxn : x = n := by omega
      subst hxn
      have hz : ((List.range x).map (fun b => if b = x then 1 else 0)).sum = 0 := by
        rw [List.sum_eq_zero_iff]
        intro v hv
        rw [List.mem_map] at hv
        obtain ⟨b, hb, hvb⟩ := hv
        rw [List.mem_range] at hb
        rw [if_neg (by omega)] at hvb
        omega
      rw [hz]
      simp

/-- The histogram of a byte block sums to the block length. -/
theorem countsOf_sum (block : List Nat) (h : ByteListWF block) :
    (countsOf block).sum = block.length := by
  induction block with
  | nil =>
    show ((List.range 256).map (fun b => List.count b [])).sum = 0
    simp only [List.count_nil]
    rw [List.map_const', List.sum_replicate]
    simp
  | cons a t ih =>
    have ha : a < 256 := h a (by simp)
    have hc : ∀ b, (a :: t).count b = t.count b + (if b = a then 1 else 0) := by
      intro b
      rw [List.count_cons]
      congr 1
      by_cases hb : b = a
      · simp [hb]
      · simp [hb, Ne.symm hb]
    rw [countsOf] at ih ⊢
    calc ((List.range 256).map (fun b => (a :: t).count b)).sum
        = ((List.range 256).map
            (fun b => t.count b + (if b = a then 1 else 0))).sum := by
          congr 1
          exact List.map_congr_left (fun b _ => hc b)
      _ = ((List.range 256).map (fun b => t.count b)).sum +
          ((List.range 256).map (fun b => if b = a then 1 else 0)).sum :=
          list_sum_map_add _ _ _
      _ = t.length + 1 := by
          rw [ih (fun b hb => h b (by simp [hb])), range_indicator_sum 256 a ha]
      _ = (a :: t).length := by simp

theorem countsOf_le (block : List Nat) : ∀ c ∈ countsOf block, c ≤ block.length := by
  intro c hc
  rw [countsOf, List.mem_map] at hc
  obtain ⟨b, _, hbc⟩ := hc
  rw [← hbc]
  exact List.count_le_length b block

theorem countsOf_ne_nil (block : List Nat) : countsOf block ≠ [] := by
  intro h
  have h2 := countsOf_length block
  rw [h] at h2
  simp at h2

/-- The distinct-symbol count of a sublist never exceeds that of the list. -/
theorem nonzeroCount_countsOf_mono (a b : List Nat) (h : a.Sublist b) :
    nonzeroCount (countsOf a) ≤ nonzeroCount (countsOf b) := by
  show (countsOf a).countP (fun c => decide (0 < c)) ≤
    (countsOf b).countP (fun c => decide (0 < c))
  apply countP_le_of_pointwise
  · rw [countsOf_length, countsOf_length]
  · intro i hi
    rcases Nat.lt_or_ge i 256 with h256 | h256
    · rw [countsOf_getD a i h256] at hi
      rw [countsOf_getD b i h256]
      have h3 := h.count_le i
      omega
    · rw [getD_eq_zero_of_le (by rw [countsOf_length]; omega)] at hi
      omega

theorem chunk_sublist (input : List Nat) (k bs : Nat) :
    ((input.drop k).take bs).Sublist input :=
  ((input.drop k).take_sublist bs).trans (input.drop_sublist k)

/-! #### The stream round trip -/

/-- Parameter and table construction succeed on any 256-entry histogram
with positive total whose distinct-symbol count fits the table, and the
built tables are `GoodTables` over the normalized vector. -/
theorem frame_block_setup (tlog : Nat) (htl1 : 1 ≤ tlog) (htl : tlog ≤ 15)
    (counts : List Nat) (hlen256 : counts.length = 256) (hsumpos : 0 < counts.sum)
    (hdistc : nonzeroCount counts ≤ 2 ^ tlog) :
    ∃ T, FSEParams.make counts tlog =
        .ok ⟨counts, tlog, 2 ^ tlog, normalizeCounts counts (2 ^ tlog), 32,
          2 ^ tlog⟩ ∧
      FSETables.make (⟨counts, tlog, 2 ^ tlog, normalizeCounts counts (2 ^ tlog),
        32, 2 ^ tlog⟩ : FSEParams) = .ok T ∧
      GoodTables (normalizeCounts counts (2 ^ tlog)) tlog T ∧
      T.data_block_size_bits = 32 ∧
      (∀ s, s < 256 → 0 < counts.getD s 0 →
        s < (normalizeCounts counts (2 ^ tlog)).length ∧
        1 ≤ (normalizeCounts counts (2 ^ tlog)).getD s 0) := by
  have hne : counts ≠ [] := by
    intro h
    rw [h] at hlen256
    simp at hlen256
  have hcie : counts.isEmpty = false := List.isEmpty_eq_false.mpr hne
  have hcsum0 : ¬ (counts.sum = 0) := by omega
  have hmk : FSEParams.make counts tlog =
      .ok ⟨counts, tlog, 2 ^ tlog, normalizeCounts counts (2 ^ tlog), 32,
        2 ^ tlog⟩ := by
    unfold FSEParams.make
    rw [if_neg (by omega : ¬ 16 < tlog)]
    rw [if_neg (show ¬ (counts.isEmpty = true) by rw [hcie]; decide)]
    rw [if_neg hcsum0]
  obtain ⟨hlenN, hsumN, hrevN, hfwdN⟩ := normalizeCounts_spec counts (2 ^ tlog)
    hne (by omega) (Nat.pos_pow_of_pos _ (by omega))
  obtain ⟨sp, hsp, hsplen, hfill, hperm⟩ := spreadTable_full
    (normalizeCounts counts (2 ^ tlog)) tlog (by omega) hsumN
  have hmkT : ∃ T, FSETables.make (⟨counts, tlog, 2 ^ tlog,
      normalizeCounts counts (2 ^ tlog), 32, 2 ^ tlog⟩ : FSEParams) = .ok T := by
    unfold FSETables.make
    dsimp only
    rw [if_neg (by omega : ¬ 16 < tlog), hsp]
    exact ⟨_, rfl⟩
  obtain ⟨T, hT⟩ := hmkT
  obtain ⟨hg0, hdb, hsum⟩ := tables_setup counts tlog
    ⟨counts, tlog, 2 ^ tlog, normalizeCounts counts (2 ^ tlog), 32, 2 ^ tlog⟩
    T hmk htl hT
  have hg : GoodTables (normalizeCounts counts (2 ^ tlog)) tlog T := hg0
  refine ⟨T, hmk, hT, hg, hdb, ?_⟩
  intro s hs256 hcpos
  refine ⟨?_, hfwdN hdistc s hcpos⟩
  rw [hlenN, hlen256]
  exact hs256

set_option maxRecDepth 8000

set_option maxHeartbeats 3200000

/-- The frame loop round trip: encoding an input whose distinct byte
values fit in `table_size` and whose length cannot overflow the
`uint32_t` `bit_count` field yields a frame that the decode loop parses
back to exactly the input (any sufficient decode fuel). -/
theorem stream_round_trip_go (lsb : Bool) (tlog bs : Nat) (htl1 : 1 ≤ tlog)
    (htl : tlog ≤ 15) (hbs : 1 ≤ bs) :
    ∀ (fuel : Nat) (input : List Nat), input.length < fuel →
    ByteListWF input →
    nonzeroCount (countsOf input) ≤ 2 ^ tlog →
    15 * input.length + 47 < 2 ^ 32 →
    ∃ frame, encodeStreamGo lsb tlog bs fuel input = .ok frame ∧
      (∀ dfuel, frame.length < dfuel →
        decodeStreamGo lsb dfuel frame = .ok (some input)) := by
  intro fuel
  induction fuel with
  | zero =>
    intro input h _ _ _
    omega
  | succ f ih =>
    intro input hflen hwf hdist hsize
    by_cases hemp : input = []
    · subst hemp
      refine ⟨[], rfl, ?_⟩
      intro dfuel hdf
      cases dfuel with
      | zero => omega
      | succ d => rfl
    · -- at least one block
      have hpow1 : (2 : Nat) ^ (tlog + 1) = 2 * 2 ^ tlog := by
        rw [Nat.pow_succ]
        ring
      have hp0 : 0 < (2 : Nat) ^ tlog := Nat.pos_pow_of_pos _ (by omega)
      have hinplen : 0 < input.length := List.length_pos.mpr hemp
      have hchlen : (input.take bs).length = min bs input.length :=
        List.length_take bs input
      have hchpos : 0 < (input.take bs).length := by
        rw [hchlen]
        omega
      have hchne : input.take bs ≠ [] := by
        intro h
        rw [h] at hchpos
        simp at hchpos
      have hwfc : ByteListWF (input.take bs) :=
        fun b hb => hwf b (List.mem_of_mem_take hb)
      have hsubl : (input.take bs).Sublist input := input.take_sublist bs
      have hdistc : nonzeroCount (countsOf (input.take bs)) ≤ 2 ^ tlog :=
        le_trans (nonzeroCount_countsOf_mono _ _ hsubl) hdist
      have hcsum : (countsOf (input.take bs)).sum = (input.take bs).length :=
        countsOf_sum _ hwfc
      obtain ⟨T, hmk, hT, hg, hdb, hval⟩ := frame_block_setup tlog htl1 htl
        (countsOf (input.take bs)) (countsOf_length _) (by omega) hdistc
      have hsyc : ∀ s ∈ input.take bs,
          s < (normalizeCounts (countsOf (input.take bs)) (2 ^ tlog)).length ∧
          1 ≤ (normalizeCounts (countsOf (input.take bs)) (2 ^ tlog)).getD s 0 := by
        intro s hs
        have hs256 : s < 256 := hwfc s hs
        apply hval s hs256
        rw [countsOf_getD _ s hs256]
        exact List.count_pos_iff.mpr hs
      have hchlen32 : (input.take bs).length < 2 ^ 32 := by
        rw [hchlen]
        omega
      have hblock : ByteListWF (if lsb then encode_block_lsb (input.take bs) T
            else encode_block_msb (input.take bs) T).bytes ∧
          (if lsb then encode_block_lsb (input.take bs) T
            else encode_block_msb (input.take bs) T).bytes.length =
            ((if lsb then encode_block_lsb (input.take bs) T
              else encode_block_msb (input.take bs) T).bit_count + 7) / 8 ∧
          (if lsb then encode_block_lsb (input.take bs) T
            else encode_block_msb (input.take bs) T).bit_count =
            32 + tlog +
              streamBits (encLoop T (input.take bs).reverse T.table_size).1 ∧
          (if lsb then
              (Except.ok (decode_block_lsb
                (if lsb then encode_block_lsb (input.take bs) T
                  else encode_block_msb (input.take bs) T).bytes
                ((if lsb then encode_block_lsb (input.take bs) T
                  else encode_block_msb (input.take bs) T).bit_count) T) :
                Except FSEError (List Nat × Nat))
            else decode_block_msb
                (if lsb then encode_block_lsb (input.take bs) T
                  else encode_block_msb (input.take bs) T).bytes
                ((if lsb then encode_block_lsb (input.take bs) T
                  else encode_block_msb (input.take bs) T).bit_count) T) =
            .ok ((input.take bs).map (fun s => s % 2 ^ 8),
              (if lsb then encode_block_lsb (input.take bs) T
                else encode_block_msb (input.take bs) T).bit_count) := by
        cases lsb
        · obtain ⟨m1, m2, m3, m4, m5⟩ := block_msb_spec _ tlog T hg htl1 hdb
            (input.take bs) hchlen32 hsyc
          exact ⟨m1, m2, m4 hchne, m5⟩
        · obtain ⟨l1, l2, l3, l4, l5⟩ := block_lsb_spec _ tlog T hg htl1 hdb
            (input.take bs) hchlen32 hsyc
          exact ⟨l1, l2, l4 hchne, congrArg Except.ok l5⟩
      set E := if lsb then encode_block_lsb (input.take bs) T
        else encode_block_msb (input.take bs) T with hE
      obtain ⟨hBwf, hBlen, hBbc, hBdec⟩ := hblock
      have hEbc32 : E.bit_count < 2 ^ 32 := by
        obtain ⟨hcanon, hcbw, hcln⟩ := encLoop_inv _ tlog T hg htl1
          (input.take bs).reverse T.table_size
          (fun s hs => hsyc s (List.mem_reverse.mp hs))
          (by rw [hg.hts]) (by rw [hg.hts]; omega)
        have hsble := streamBits_le_of_widths _ tlog (fun c hc => (hcbw c hc).1)
        rw [hcln, List.length_reverse] at hsble
        rw [hBbc]
        have hchle : (input.take bs).length ≤ input.length := by
          rw [hchlen]
          omega
        have hmul : tlog * (input.take bs).length ≤ 15 * input.length :=
          calc tlog * (input.take bs).length
              ≤ 15 * (input.take bs).length := Nat.mul_le_mul_right _ htl
            _ ≤ 15 * input.length := Nat.mul_le_mul_left _ hchle
        omega
      have htl32 : tlog < 2 ^ 32 := by omega
      have hc32 : ∀ c ∈ countsOf (input.take bs), c < 2 ^ 32 := by
        intro c hc
        have := countsOf_le _ c hc
        omega
      have hwfR : ByteListWF (input.drop bs) :=
        fun b hb => hwf b ((input.drop_sublist bs).subset hb)
      have hdistR : nonzeroCount (countsOf (input.drop bs)) ≤ 2 ^ tlog :=
        le_trans (nonzeroCount_countsOf_mono _ _ (input.drop_sublist bs)) hdist
      have hlenR : (input.drop bs).length < f := by
        rw [List.length_drop]
        omega
      have hsizeR : 15 * (input.drop bs).length + 47 < 2 ^ 32 := by
        rw [List.length_drop]
        omega
      obtain ⟨frameRest, hencR, hdecR⟩ := ih (input.drop bs) hlenR hwfR hdistR hsizeR
      have hieI : input.isEmpty = false := List.isEmpty_eq_false.mpr hemp
      have hPBlen : E.bytes.length = (E.bit_count + 7) / 8 := hBlen
      refine ⟨u32le (input.take bs).length ++ (u32le E.bit_count ++ (u32le tlog ++
        (countsBytes (countsOf (input.take bs)) ++ (E.bytes ++ frameRest)))), ?_, ?_⟩
      · simp only [encodeStreamGo]
        rw [if_neg (show ¬ (input.isEmpty = true) by rw [hieI]; decide)]
        rw [hmk]
        dsimp only
        rw [hT]
        dsimp only
        rw [hencR]
      · intro dfuel hdf
        have hCBlen : (countsBytes (countsOf (input.take bs))).length = 1024 := by
          rw [countsBytes_length, countsOf_length]
        have hL : (u32le (input.take bs).length ++ (u32le E.bit_count ++ (u32le tlog ++
            (countsBytes (countsOf (input.take bs)) ++ (E.bytes ++ frameRest))))).length =
            1036 + E.bytes.length + frameRest.length := by
          simp only [List.length_append, u32le_length, hCBlen]
          omega
        cases dfuel with
        | zero => omega
        | succ d =>
          simp only [decodeStreamGo]
          rw [if_neg (show ¬ ((u32le (input.take bs).length ++ (u32le E.bit_count ++
            (u32le tlog ++ (countsBytes (countsOf (input.take bs)) ++
            (E.bytes ++ frameRest))))).length < 12) by rw [hL]; omega)]
          rw [readU32_u32le, drop4_u32le, readU32_u32le, drop8_u32le,
            readU32_u32le, drop12_u32le]
          rw [Nat.mod_eq_of_lt hchlen32, Nat.mod_eq_of_lt hEbc32,
            Nat.mod_eq_of_lt htl32]
          rw [if_neg (show ¬ ((countsBytes (countsOf (input.take bs)) ++
            (E.bytes ++ frameRest)).length < 1024) by
            rw [List.length_append, hCBlen]
            omega)]
          have hparse : parseCountsAux 256 (countsBytes (countsOf (input.take bs)) ++
              (E.bytes ++ frameRest)) = countsOf (input.take bs) := by
            rw [show (256 : Nat) = (countsOf (input.take bs)).length from
              (countsOf_length _).symm]
            exact parseCountsAux_spec _ _ hc32
          rw [hparse]
          have hdropCB : (countsBytes (countsOf (input.take bs)) ++
              (E.bytes ++ frameRest)).drop 1024 = E.bytes ++ frameRest := by
            rw [← hCBlen, List.drop_left]
          rw [hdropCB, ← hPBlen]
          rw [if_neg (show ¬ ((E.bytes ++ frameRest).length < E.bytes.length) by
            rw [List.length_append]
            omega)]
          rw [List.take_left, List.drop_left]
          rw [hmk]
          dsimp only
          rw [hT]
          dsimp only
          rw [hBdec]
          dsimp only
          rw [if_neg (show ¬ (((input.take bs).map (fun s => s % 2 ^ 8)).length ≠
            (input.take bs).length) by
            rw [List.length_map]
            exact fun h => h rfl)]
          rw [hdecR d (by rw [hL] at hdf; omega)]
          dsimp only
          have hmapid : (input.take bs).map (fun s => s % 2 ^ 8) = input.take bs := by
            calc (input.take bs).map (fun s => s % 2 ^ 8)
                = (input.take bs).map id :=
                  List.map_congr_left (fun s hs => Nat.mod_eq_of_lt (hwfc s hs))
              _ = input.take bs := List.map_id _
          rw [hmapid, List.take_append_drop]

/-- C1 (corrected): the stream round trip holds, for both orderings and
every block size, whenever the input's distinct byte values fit the table
(at most `2^table_log` of them) and the input is small enough that the
32-bit `bit_count` header field cannot truncate; without the
distinct-symbol premise the round trip fails (see the counterexample). -/
theorem claim_c1_round_trip (lsb : Bool) (tlog bs0 : Nat) (input : List Nat)
    (htl1 : 1 ≤ tlog) (htl : tlog ≤ 15) (hwf : ByteListWF input)
    (hdist : nonzeroCount (countsOf input) ≤ 2 ^ tlog)
    (hsize : 15 * input.length + 47 < 2 ^ 32) :
    ∃ frame, encode_stream lsb tlog bs0 input = .ok frame ∧
      decode_stream lsb frame = .ok input := by
  by_cases hemp : input = []
  · subst hemp
    exact ⟨[], rfl, rfl⟩
  · have hbs : 1 ≤ (if bs0 = 0 then input.length else bs0) := by
      by_cases h0 : bs0 = 0
      · rw [if_pos h0]
        exact List.length_pos.mpr hemp
      · rw [if_neg h0]
        omega
    obtain ⟨frame, henc, hdec⟩ := stream_round_trip_go lsb tlog
      (if bs0 = 0 then input.length else bs0) htl1 htl hbs
      (input.length + 1) input (by omega) hwf hdist hsize
    refine ⟨frame, henc, ?_⟩
    rw [decode_stream, hdec (frame.length + 1) (by omega)]

set_option maxRecDepth 200000

/-! #### The C1 counterexample

Evaluating the whole codec on `[0, 1, 2]` in one kernel reduction is far
too slow (the histogram sort alone walks all 256 symbols), so the run is
staged: the two adjustment loops provably change nothing when every
initial allocation is at most 1, the last-resort collapse then fires
symbolically, and the remaining table, block and frame computations are
small concrete checks chained through the parsed frame structure. -/

/-- The 256-entry histogram of the block `[0, 1, 2]`. -/
def c1Counts : List Nat := 1 :: 1 :: 1 :: List.replicate 253 0

/-- The tables built for `[0, 1, 2]` with `table_log = 1` after the
normalization collapse has put the whole table on symbol 0. -/
def c1Tables : FSETables :=
  ⟨1, 2, 32, 256, [0, 0], [⟨0, 0, 0⟩, ⟨1, 0, 0⟩], [2, 3],
    ⟨65532, -2⟩ :: List.replicate 255 ⟨131070, 0⟩⟩

/-- The frame `encode_stream` emits for `[0, 1, 2]` with `table_log = 1`. -/
def c1Frame : List Nat :=
  u32le 3 ++ (u32le 37 ++ (u32le 1 ++ (countsBytes c1Counts ++
    ([0, 0, 0, 3, 80] ++ []))))

theorem replicate_getD_zero :
    ∀ (n i : Nat), (List.replicate n (0 : Nat)).getD i 0 = 0
  | 0, _ => by simp [List.getD]
  | _ + 1, 0 => rfl
  | n + 1, i + 1 => replicate_getD_zero n i

/-- With a decrementing step, the first adjustment loop skips every symbol
whose current allocation is at most 1, changing nothing. -/
theorem adjustLoop_le_one (norm : List Nat) (h : ∀ s, norm.getD s 0 ≤ 1) :
    ∀ (fuel : Nat) (syms : List Nat) (diff : Int),
      adjustLoop fuel norm syms diff (-1) = (norm, diff) := by
  intro fuel
  induction fuel with
  | zero => intro syms diff; rfl
  | succ f ih =>
    intro syms diff
    simp only [adjustLoop]
    by_cases hd : diff = 0
    · rw [if_pos hd]
    · rw [if_neg hd]
      cases syms with
      | nil => rfl
      | cons s rest =>
        dsimp only
        rw [if_neg (show ¬ ((0 : Int) < (norm.getD s 0 : Int) + (-1)) from by
          have := h s; omega)]
        exact ih rest diff

/-- A pass of the second loop with negative `diff` over allocations that
are all at most 1 changes nothing and reports no change. -/
theorem passTwo_le_one (norm : List Nat) (h : ∀ s, norm.getD s 0 ≤ 1) :
    ∀ (syms : List Nat) (diff : Int), diff < 0 →
      passTwo norm syms diff false = (norm, diff, false) := by
  intro syms
  induction syms with
  | nil => intro diff hd; rfl
  | cons s rest ih =>
    intro diff hd
    simp only [passTwo, if_neg (show ¬ ((0 : Int) < diff) from by omega),
      if_neg (show ¬ (1 < norm.getD s 0) from by have := h s; omega)]
    rw [if_neg (show ¬ (diff = 0) from by omega)]
    exact ih diff hd

/-- The second adjustment loop with negative `diff` over allocations that
are all at most 1 returns its input. -/
theorem loopTwo_le_one (norm : List Nat) (h : ∀ s, norm.getD s 0 ≤ 1)
    (fuel : Nat) (syms : List Nat) (diff : Int) (hd : diff < 0) :
    loopTwo fuel norm syms diff = norm := by
  cases fuel with
  | zero => rfl
  | succ f =>
    simp only [loopTwo, if_neg (show ¬ (diff = 0) from by omega),
      passTwo_le_one norm h syms diff hd]
    rw [if_pos trivial]

/-- When the initial proportional allocation already exceeds the table
size with every entry at most 1, both adjustment loops do nothing and
normalization ends in the last-resort collapse. -/
theorem normalizeCounts_collapse (counts : List Nat) (ts : Nat)
    (hall : ∀ s, (initialNormalized counts ts counts.sum).getD s 0 ≤ 1)
    (hgt : ts < (initialNormalized counts ts counts.sum).sum) :
    normalizeCounts counts ts =
      (List.replicate counts.length 0).set (argmaxIdx counts) ts := by
  simp only [normalizeCounts]
  set n0 := initialNormalized counts ts counts.sum with hn0
  rw [if_pos (show ((ts : Int) - (n0.sum : Int)) ≠ 0 from by omega),
    if_neg (show ¬ ((0 : Int) < (ts : Int) - (n0.sum : Int)) from by omega),
    adjustLoop_le_one n0 hall _ (sortedSymbols counts) _]
  dsimp only
  rw [if_pos (show n0.sum ≠ ts from by omega),
    loopTwo_le_one n0 hall _ (sortedSymbols counts) _
      (show ((ts : Int) - (n0.sum : Int)) < 0 from by omega),
    if_pos (show n0.sum ≠ ts from by omega)]

/-- On the histogram of `[0, 1, 2]` with table size 2 the collapse fires:
symbol 0 takes the whole table and symbols 1 and 2 get frequency 0. -/
theorem c1cex_norm : normalizeCounts c1Counts 2 = 2 :: List.replicate 255 0 := by
  have hn0 : initialNormalized c1Counts 2 c1Counts.sum = c1Counts := by rfl
  have hall : ∀ s, (initialNormalized c1Counts 2 c1Counts.sum).getD s 0 ≤ 1 := by
    rw [hn0]
    intro s
    match s with
    | 0 => decide
    | 1 => decide
    | 2 => decide
    | s + 3 =>
      show (List.replicate 253 (0 : Nat)).getD s 0 ≤ 1
      rw [replicate_getD_zero]
      omega
  have hgt : 2 < (initialNormalized c1Counts 2 c1Counts.sum).sum := by
    rw [hn0, show c1Counts.sum = 3 from rfl]
    omega
  rw [normalizeCounts_collapse c1Counts 2 hall hgt]
  rfl

/-- The accepted parameters for the `[0, 1, 2]` block at `table_log = 1`. -/
theorem c1cex_params : FSEParams.make c1Counts 1 =
    .ok ⟨c1Counts, 1, 2, 2 :: List.replicate 255 0, 32, 2⟩ := by
  have hsum : c1Counts.sum = 3 := rfl
  simp only [FSEParams.make]
  rw [if_neg (show ¬ (16 < 1) from by omega),
    if_neg (show ¬ (c1Counts.isEmpty = true) from by decide),
    if_neg (show ¬ (c1Counts.sum = 0) from by omega),
    show (2 : Nat) ^ 1 = 2 from rfl, c1cex_norm]

theorem c1cex_tables :
    FSETables.make ⟨c1Counts, 1, 2, 2 :: List.replicate 255 0, 32, 2⟩ =
      .ok c1Tables := by rfl

theorem c1cex_hcounts : countsOf [0, 1, 2] = c1Counts := by rfl

theorem c1cex_block : encode_block_msb [0, 1, 2] c1Tables =
    ⟨[0, 0, 0, 3, 80], 37⟩ := by rfl

theorem c1cex_decode_block : decode_block_msb [0, 0, 0, 3, 80] 37 c1Tables =
    .ok ([0, 0, 0], 33) := by rfl

theorem encodeStreamGo_nil (f : Nat) :
    encodeStreamGo false 1 3 f [] = .ok [] := by
  cases f with
  | zero => rfl
  | succ g => rfl

theorem c1cex_encodeGo (f : Nat) :
    encodeStreamGo false 1 3 (f + 1) [0, 1, 2] = .ok c1Frame := by
  rw [encodeStreamGo]
  rw [if_neg (show ¬ (([0, 1, 2] : List Nat).isEmpty = true) from by decide),
    show (([0, 1, 2] : List Nat).take 3) = [0, 1, 2] from rfl,
    c1cex_hcounts, c1cex_params]
  dsimp only
  rw [c1cex_tables]
  dsimp only
  rw [show (([0, 1, 2] : List Nat).drop 3) = ([] : List Nat) from rfl,
    encodeStreamGo_nil f]
  dsimp only
  rw [c1cex_block, if_neg (show ¬ (false = true) from by decide)]
  dsimp only
  rw [show ([0, 1, 2] : List Nat).length = 3 from rfl]
  rfl

/-- The frame `[0, 1, 2]` encodes to, with the counts field and payload
spelled out: one block of size 3, `bit_count = 37`, `table_log = 1`. -/
theorem c1cex_encode : encode_stream false 1 0 [0, 1, 2] = .ok c1Frame := by
  show encodeStreamGo false 1 3 (3 + 1) [0, 1, 2] = .ok c1Frame
  exact c1cex_encodeGo 3

theorem decodeStreamGo_nil (k : Nat) :
    decodeStreamGo false k [] = .ok (some []) := by
  cases k with
  | zero => rfl
  | succ g => rfl

/-- Decoding that frame returns `[0, 0, 0]`: every block symbol decodes
through the collapsed table as symbol 0. -/
theorem c1cex_decodeGo (d : Nat) :
    decodeStreamGo false (d + 1) c1Frame = .ok (some [0, 0, 0]) := by
  have hc32 : ∀ c ∈ c1Counts, c < 2 ^ 32 := by
    intro c hc
    have h32 : (2 : Nat) ^ 32 = 4294967296 := by norm_num
    rw [h32]
    simp only [c1Counts, List.mem_cons, List.mem_replicate] at hc
    omega
  have hCB : (countsBytes c1Counts).length = 1024 := by
    rw [countsBytes_length, show c1Counts.length = 256 from rfl]
  have hL : (u32le 3 ++ (u32le 37 ++ (u32le 1 ++ (countsBytes c1Counts ++
      (([0, 0, 0, 3, 80] : List Nat) ++ []))))).length = 1041 := by
    simp only [List.length_append, u32le_length, hCB]
    rfl
  rw [show c1Frame = u32le 3 ++ (u32le 37 ++ (u32le 1 ++ (countsBytes c1Counts ++
    (([0, 0, 0, 3, 80] : List Nat) ++ [])))) from rfl]
  rw [decodeStreamGo]
  rw [hL]
  rw [if_neg (show ¬ ((1041 : Nat) < 12) from by omega)]
  rw [readU32_u32le, drop4_u32le, readU32_u32le, drop8_u32le, readU32_u32le,
    drop12_u32le]
  rw [Nat.mod_eq_of_lt (show 3 < 2 ^ 32 from by norm_num),
    Nat.mod_eq_of_lt (show 37 < 2 ^ 32 from by norm_num),
    Nat.mod_eq_of_lt (show 1 < 2 ^ 32 from by norm_num)]
  dsimp only
  have hCB2 : (countsBytes c1Counts ++ (([0, 0, 0, 3, 80] : List Nat) ++
      [])).length = 1029 := by
    simp only [List.length_append, hCB]
    rfl
  rw [hCB2, if_neg (show ¬ ((1029 : Nat) < 1024) from by omega)]
  have hparse : parseCountsAux 256 (countsBytes c1Counts ++
      (([0, 0, 0, 3, 80] : List Nat) ++ [])) = c1Counts := by
    rw [show (256 : Nat) = c1Counts.length from rfl]
    exact parseCountsAux_spec c1Counts _ hc32
  rw [hparse]
  have hdropCB : (countsBytes c1Counts ++ (([0, 0, 0, 3, 80] : List Nat) ++
      [])).drop 1024 = ([0, 0, 0, 3, 80] : List Nat) ++ [] := by
    rw [← hCB, List.drop_left]
  rw [hdropCB]
  rw [show ((37 : Nat) + 7) / 8 = 5 from rfl]
  have h5 : (([0, 0, 0, 3, 80] : List Nat) ++ []).length = 5 := rfl
  have htk : (([0, 0, 0, 3, 80] : List Nat) ++ []).take 5 = [0, 0, 0, 3, 80] := rfl
  have hdp : (([0, 0, 0, 3, 80] : List Nat) ++ []).drop 5 = ([] : List Nat) := rfl
  rw [h5, if_neg (show ¬ ((5 : Nat) < 5) from by omega)]
  rw [htk, hdp]
  rw [c1cex_params]
  dsimp only
  rw [c1cex_tables]
  dsimp only
  rw [if_neg (show ¬ (false = true) from by decide)]
  rw [c1cex_decode_block]
  dsimp only
  have h3 : ([0, 0, 0] : List Nat).length = 3 := rfl
  rw [h3, if_neg (show ¬ ((3 : Nat) ≠ 3) from by omega)]
  rw [decodeStreamGo_nil d]
  rfl

/-- Decoding the encoded frame of `[0, 1, 2]` gives `[0, 0, 0]`. -/
theorem c1cex_decode : decode_stream false c1Frame = .ok [0, 0, 0] := by
  rw [decode_stream, c1cex_decodeGo c1Frame.length]

set_option maxRecDepth 200000 in
/-- C1 counterexample: `[0, 1, 2]` with `table_log = 1` (3 distinct
symbols, table_size 2) encodes without error but decodes to `[0, 0, 0]`:
the last-resort normalization collapse gives symbols 1 and 2 frequency 0,
so their encoded states are not recoverable. -/
theorem claim_c1_counterexample :
    (encode_stream false 1 0 [0, 1, 2]).map (fun f => decode_stream false f) =
      .ok (.ok [0, 0, 0]) ∧ ([0, 0, 0] : List Nat) ≠ [0, 1, 2] := by
  refine ⟨?_, by decide⟩
  rw [c1cex_encode]
  simp only [Except.map]
  rw [c1cex_decode]

/-- C1 witness: the round-trip theorem at the LSB ordering, `table_log =
1`, one block, input `[7, 7]`. -/
theorem claim_c1_witness :
    ∃ frame, encode_stream true 1 0 [7, 7] = .ok frame ∧
      decode_stream true frame = .ok [7, 7] :=
  claim_c1_round_trip true 1 0 [7, 7] (by omega) (by omega)
    (by intro b hb; simp at hb; omega) (by decide) (by decide)

/-- Any output the decode loop accepts is bounded by the declared block
sizes of the headers it walked. -/
theorem decodeStreamGo_len_le (lsb : Bool) : ∀ (fuel : Nat) (rem : List Nat)
    (o : Option (List Nat)), decodeStreamGo lsb fuel rem = .ok o →
    (o.getD []).length ≤ declaredLen fuel rem := by
  intro fuel
  induction fuel with
  | zero =>
    intro rem o h
    simp only [decodeStreamGo] at h
    injection h with h2
    subst h2
    simp [declaredLen]
  | succ f ih =>
    intro rem o h
    simp only [decodeStreamGo] at h
    simp only [declaredLen]
    by_cases h12 : rem.length < 12
    · rw [if_pos h12] at h
      injection h with h2
      subst h2
      rw [if_pos h12]
      exact Nat.le_refl 0
    · rw [if_neg h12] at h
      rw [if_neg h12]
      by_cases hc : (rem.drop 12).length < 1024
      · rw [if_pos hc] at h
        injection h with h2
        subst h2
        exact Nat.zero_le _
      · rw [if_neg hc] at h
        by_cases hpl : ((rem.drop 12).drop 1024).length <
            (readU32 (rem.drop 4) + 7) / 8
        · rw [if_pos hpl] at h
          injection h with h2
          subst h2
          exact Nat.zero_le _
        · rw [if_neg hpl] at h
          cases hP : FSEParams.make (parseCountsAux 256 (rem.drop 12))
              (readU32 (rem.drop 8)) with
          | error e =>
            rw [hP] at h
            dsimp only at h
            exact Except.noConfusion h
          | ok p =>
            rw [hP] at h
            dsimp only at h
            cases hT2 : FSETables.make p with
            | error e =>
              rw [hT2] at h
              dsimp only at h
              exact Except.noConfusion h
            | ok T =>
              rw [hT2] at h
              dsimp only at h
              cases hD : (if lsb then
                  (Except.ok (decode_block_lsb (((rem.drop 12).drop 1024).take
                    ((readU32 (rem.drop 4) + 7) / 8)) (readU32 (rem.drop 4)) T) :
                    Except FSEError (List Nat × Nat))
                else decode_block_msb (((rem.drop 12).drop 1024).take
                    ((readU32 (rem.drop 4) + 7) / 8)) (readU32 (rem.drop 4)) T) with
              | error e =>
                rw [hD] at h
                dsimp only at h
                exact Except.noConfusion h
              | ok res =>
                rw [hD] at h
                dsimp only at h
                by_cases hblk : res.1.length ≠ readU32 rem
                · rw [if_pos hblk] at h
                  injection h with h2
                  subst h2
                  exact Nat.zero_le _
                · rw [if_neg hblk] at h
                  cases hR : decodeStreamGo lsb f
                      (((rem.drop 12).drop 1024).drop
                        ((readU32 (rem.drop 4) + 7) / 8)) with
                  | error e =>
                    rw [hR] at h
                    dsimp only at h
                    exact Except.noConfusion h
                  | ok o2 =>
                    rw [hR] at h
                    have hle2 : (o2.getD []).length ≤ declaredLen f
                        (((rem.drop 12).drop 1024).drop
                          ((readU32 (rem.drop 4) + 7) / 8)) := ih _ o2 hR
                    cases o2 with
                    | none =>
                      dsimp only at h
                      injection h with h2
                      subst h2
                      exact Nat.zero_le _
                    | some out2 =>
                      dsimp only at h
                      injection h with h2
                      subst h2
                      have hrlen : res.1.length = readU32 rem := not_not.mp hblk
                      show (res.1 ++ out2).length ≤ readU32 rem + declaredLen f _
                      rw [List.length_append, hrlen]
                      have hle3 : out2.length ≤ declaredLen f
                          (((rem.drop 12).drop 1024).drop
                            ((readU32 (rem.drop 4) + 7) / 8)) := hle2
                      omega

/-- C3 (corrected): the decoder returns the empty output (not a crash) on
buffers too short for a header or for the counts field, and any output it
accepts is no longer than the sum of the declared `blk_sz` header fields;
but it does not return an error result on every malformed header — C++
exceptions from parameter construction propagate out of `decode_stream`
uncaught (modeled as `.error`; see the counterexample), terminating the
program. -/
theorem claim_c3_decode_stream_behavior (lsb : Bool) (data : List Nat) :
    (data.length < 12 → decode_stream lsb data = .ok []) ∧
    (12 ≤ data.length → data.length < 1036 → decode_stream lsb data = .ok []) ∧
    (∀ out, decode_stream lsb data = .ok out →
      out.length ≤ declaredLen (data.length + 1) data) := by
  refine ⟨?_, ?_, ?_⟩
  · intro h12
    rw [decode_stream]
    simp only [decodeStreamGo]
    rw [if_pos h12]
  · intro h12a h12b
    rw [decode_stream]
    simp only [decodeStreamGo]
    rw [if_neg (by omega : ¬ data.length < 12)]
    rw [if_pos (show (data.drop 12).length < 1024 by rw [List.length_drop]; omega)]
  · intro out hout
    rw [decode_stream] at hout
    cases hgo : decodeStreamGo lsb (data.length + 1) data with
    | error e =>
      rw [hgo] at hout
      dsimp only at hout
      exact Except.noConfusion hout
    | ok o =>
      rw [hgo] at hout
      have hle := decodeStreamGo_len_le lsb (data.length + 1) data o hgo
      cases o with
      | none =>
        dsimp only at hout
        injection hout with h2
        subst h2
        exact Nat.zero_le _
      | some l =>
        dsimp only at hout
        injection hout with h2
        subst h2
        exact hle

/-- C3 counterexample: a 1036-byte all-zero buffer parses as a complete
header with all-zero counts; `FSEParams` construction throws (zero total),
the exception leaves `decode_stream` uncaught, and the decoder does not
return the empty vector. -/
theorem claim_c3_counterexample :
    decode_stream false (List.replicate 1036 0) = .error .invalidParams := by
  rfl

/-- C3 witness: the behavior theorem applied to the 3-byte buffer
`[1, 2, 3]` (too short for a header), which decodes to the empty output. -/
theorem claim_c3_witness :
    decode_stream false [1, 2, 3] = .ok [] :=
  (claim_c3_decode_stream_behavior false [1, 2, 3]).1 (by decide)

/-- C9 (corrected): encoding the empty input emits an empty frame — no
block header at all, since the block loop never runs — and decoding the
empty frame returns the empty sequence. -/
theorem claim_c9_empty_input (lsb : Bool) (tlog bs0 : Nat) :
    encode_stream lsb tlog bs0 [] = .ok [] ∧ decode_stream lsb [] = .ok [] :=
  ⟨rfl, rfl⟩

/-- C9 counterexample: the frame of the empty input has no bytes at all —
in particular no 12-byte block header with `block_size = 0` as the claim
asserts. -/
theorem claim_c9_counterexample :
    ∃ frame, encode_stream false 11 0 [] = .ok frame ∧ frame.length = 0 ∧
      frame.length < 12 :=
  ⟨[], rfl, rfl, by decide⟩

end SclFse
